import Mathlib

/-! # builtin-fetch-pack.c: the client side of the fetch negotiation

A shallow embedding of `builtin-fetch-pack.c`.  File-scope variables of the C
file become fields of explicit state records, the stream `fd[1]` becomes a
trace of written packets, the stream `fd[0]` a list of lines still to be read.
Loops whose termination depends on the commit graph take a `fuel` argument and
return `none` when it runs out.

Functions of the repository that live in other files (`commit.c`, `object.c`,
`connect.c`, `pkt-line.c`, `hex.c`, ...) are modelled from the specification
and are marked as such.

Not modelled: what is printed on standard error (the `verbose` messages and
`warning`), the command line of `cmd_fetch_pack`, and the wrap-around of the C
counters (`count` is an `int`, `in_vain` an `unsigned`; they are natural
numbers here, which is the same below 2^31 have lines).
-/

namespace FetchPack

/-! ## Object identifiers, flags, the object store -/

/-- A 20-byte object name, read as a number. -/
abbrev Oid := Nat

def COMPLETE : Nat := 1 <<< 0
def COMMON : Nat := 1 <<< 1
def COMMON_REF : Nat := 1 <<< 2
def SEEN : Nat := 1 <<< 3
def POPPED : Nat := 1 <<< 4

/-- After sending this many "have"s without a new ACK the walk is given up. -/
def MAX_IN_VAIN : Nat := 256

/-- What the local object store holds under an object name. -/
inductive Object where
  | commit (date : Nat) (parents : List Oid)
  | tag (tagged : Option Oid)
  | other
  deriving DecidableEq, Repr

/-- The local repository as the object store and the ref store present it:
the objects that can be read and parsed, and the local refs in the order
`for_each_ref` enumerates them. -/
structure Repo where
  objects : List (Oid × Object)
  refs : List (String × Oid)
  deriving Repr

/-- Reading an object: `none` when it is missing or does not parse. -/
def Repo.read (r : Repo) (o : Oid) : Option Object :=
  r.objects.lookup o

/-- The committer date recorded in a commit. -/
def Repo.date (r : Repo) (o : Oid) : Nat :=
  match r.read o with
  | some (.commit d _) => d
  | _ => 0

/-- The parents recorded in a commit. -/
def Repo.parents (r : Repo) (o : Oid) : List Oid :=
  match r.read o with
  | some (.commit _ ps) => ps
  | _ => []

/-- The in-memory object table together with the walker's file-scope
variables `rev_list` and `non_common_revs`. -/
structure Walk where
  /-- `lookup_object` finds an object under this name -/
  loaded : Oid → Bool
  /-- `object.parsed` -/
  parsed : Oid → Bool
  /-- `object.flags` -/
  flags : Oid → Nat
  rev_list : List Oid
  non_common_revs : Int

/-- The state of a process that has not touched any object yet. -/
def Walk.init : Walk :=
  { loaded := fun _ => false, parsed := fun _ => false, flags := fun _ => 0,
    rev_list := [], non_common_revs := 0 }

/-- The statement `o->flags |= mark`. -/
def Walk.orFlags (s : Walk) (o : Oid) (mark : Nat) : Walk :=
  { s with flags := Function.update s.flags o (s.flags o ||| mark) }

/-- The field `commit->date`: zero until the commit is parsed. -/
def Walk.date (r : Repo) (s : Walk) (c : Oid) : Nat :=
  if s.parsed c then r.date c else 0

/-- The field `commit->parents`: empty until the commit is parsed. -/
def Walk.parents (r : Repo) (s : Walk) (c : Oid) : List Oid :=
  if s.parsed c then r.parents c else []

/-- Modelled from the spec: `parse_commit` (commit.c) is not part of this
file.  "Parse the commit; on parse failure, return silently": an already
parsed commit is left alone, a readable commit gets its date and parents (the
parents become known to the object table), anything else fails.  The second
component is the C return value read as "failed". -/
def parse_commit (r : Repo) (s : Walk) (c : Oid) : Walk × Bool :=
  if s.parsed c then (s, false)
  else
    match r.read c with
    | some (.commit _ ps) =>
      ({ s with parsed := Function.update s.parsed c true,
                loaded := fun o => s.loaded o || decide (o = c) || decide (o ∈ ps) }, false)
    | _ => (s, true)

/-- Modelled from the spec: `insert_by_date` (commit.c) is not part of this
file.  "The walk queue is a commit list ordered by descending committer date;
ties broken arbitrarily but stably": the item goes in front of the first entry
with a strictly smaller date. -/
def insert_by_date (date : Oid → Nat) (item : Oid) : List Oid → List Oid
  | [] => [item]
  | p :: rest =>
    if date p < date item then item :: p :: rest
    else p :: insert_by_date date item rest

/-! ## The commit walker -/

/-- `rev_list_push`, lines 41-55. -/
def rev_list_push (r : Repo) (s : Walk) (commit : Oid) (mark : Nat) : Walk :=
  if s.flags commit &&& mark = 0 then
    let s1 := s.orFlags commit mark
    let pr := if s1.parsed commit then (s1, false) else parse_commit r s1 commit
    if pr.2 then pr.1
    else
      let s2 := { pr.1 with rev_list := insert_by_date (pr.1.date r) commit pr.1.rev_list }
      if s2.flags commit &&& COMMON = 0 then
        { s2 with non_common_revs := s2.non_common_revs + 1 }
      else s2
  else s

/-- `mark_common`, lines 83-109.  The recursion over the parents is bounded by
`fuel`. -/
def mark_common (r : Repo) : Nat → Walk → Option Oid → Bool → Bool → Option Walk
  | 0, _, _, _, _ => none
  | fuel + 1, s, commit, ancestors_only, dont_parse =>
    match commit with
    | none => some s
    | some c =>
      if s.flags c &&& COMMON = 0 then
        let s1 := if ancestors_only then s else s.orFlags c COMMON
        if s1.flags c &&& SEEN = 0 then
          some (rev_list_push r s1 c SEEN)
        else
          let s2 :=
            if !ancestors_only && decide (s1.flags c &&& POPPED = 0) then
              { s1 with non_common_revs := s1.non_common_revs - 1 }
            else s1
          let pr :=
            if !s2.parsed c && !dont_parse then parse_commit r s2 c else (s2, false)
          if pr.2 then some pr.1
          else
            (pr.1.parents r c).foldlM
              (fun s3 p => mark_common r fuel s3 (some p) false dont_parse) pr.1
      else some s

/-- The body of the `while (parents)` loop of `get_rev`, lines 147-151. -/
def get_rev_parent (r : Repo) (fuel : Nat) (mark : Nat) (s : Walk) (p : Oid) :
    Option Walk :=
  let s1 := if s.flags p &&& SEEN = 0 then rev_list_push r s p mark else s
  if mark &&& COMMON = 0 then some s1
  else mark_common r fuel s1 (some p) true false

/-- Lines 126-133 of `get_rev`: parse the head of the queue if need be, flag
it `POPPED` and count it down unless it is common. -/
def get_rev_pop (r : Repo) (s : Walk) (commit : Oid) : Walk :=
  let s1 := if s.parsed commit then s else (parse_commit r s commit).1
  let s2 := s1.orFlags commit POPPED
  if s2.flags commit &&& COMMON = 0 then
    { s2 with non_common_revs := s2.non_common_revs - 1 }
  else s2

/-- Lines 135-144 of `get_rev`: the mark for the parents, from the flags of
the commit. -/
def get_rev_mark (flags : Nat) : Nat :=
  if flags &&& COMMON ≠ 0 then COMMON ||| SEEN
  else if flags &&& COMMON_REF ≠ 0 then COMMON ||| SEEN
  else SEEN

/-- `get_rev`, lines 115-158: the next commit to announce, or `none` for the
C `NULL`.  Each turn of the outer loop uses one unit of fuel. -/
def get_rev (r : Repo) : Nat → Walk → Option (Option Oid × Walk)
  | 0, _ => none
  | fuel + 1, s =>
    match s.rev_list with
    | [] => some (none, s)
    | commit :: _ =>
      if s.non_common_revs = 0 then some (none, s)
      else
        let s3 := get_rev_pop r s commit
        match (s3.parents r commit).foldlM
            (get_rev_parent r fuel (get_rev_mark (s3.flags commit))) s3 with
        | none => none
        | some s4 =>
          let s5 := { s4 with rev_list := s4.rev_list.tail }
          if s3.flags commit &&& COMMON = 0 then some (some commit, s5)
          else get_rev r fuel s5

/-! ## The wire: packets written, lines read -/

/-- Modelled from the spec: `sha1_to_hex` (hex.c) is not part of this file.
"An opaque 20-byte value with a canonical lowercase hex representation": the
forty hex digits of the name, most significant first. -/
def sha1_to_hex (sha1 : Oid) : String :=
  String.mk ((List.range 40).reverse.map fun i => Nat.digitChar (sha1 / 16 ^ i % 16))

/-- A packet written to `fd[1]` by `packet_write` or `packet_flush`. -/
inductive Pkt where
  /-- the format `"want %s%s%s%s%s%s%s%s\n"` with the seven capability
  strings already concatenated, or `"want %s\n"` when `caps` is empty -/
  | want (remote : Oid) (caps : String)
  /-- the format `"have %s\n"` -/
  | have (sha1 : Oid)
  /-- a line written by `write_shallow_commits` -/
  | shallow (sha1 : Oid)
  /-- the format `"deepen %d"` -/
  | deepen (depth : Int)
  /-- the line `"done\n"` -/
  | done
  /-- `packet_flush` -/
  | flush
  deriving DecidableEq, Repr

/-- The payload bytes of a packet; a flush packet has none. -/
def Pkt.payload : Pkt → String
  | .want remote caps => "want " ++ sha1_to_hex remote ++ caps ++ "\n"
  | .have sha1 => "have " ++ sha1_to_hex sha1 ++ "\n"
  | .shallow sha1 => "shallow " ++ sha1_to_hex sha1
  | .deepen depth => "deepen " ++ toString depth
  | .done => "done\n"
  | .flush => ""

/-- A packet sent by the server, as `packet_read_line` hands it over.  The end
of the stream is the empty list of lines. -/
inductive Line where
  | flush
  | nak
  | ack (sha1 : Oid)
  | ack_continue (sha1 : Oid)
  | shallow (sha1 : Oid)
  | unshallow (sha1 : Oid)
  | other (text : String)
  deriving DecidableEq, Repr

/-- One step of the conversation on the stream. -/
inductive Ev where
  | send (p : Pkt)
  | recv (l : Line)
  deriving DecidableEq, Repr

/-- The outcome of a piece of code that may `die` or whose model may run out
of fuel.  A death keeps the conversation up to it. -/
inductive Run (α : Type) where
  | ok (a : α)
  | die (msg : String) (trace : List Ev)
  /-- a store through a null pointer -/
  | crash
  | out_of_fuel

/-- Put the events of an earlier phase in front of a later death. -/
def Run.after {α : Type} (before : List Ev) : Run α → Run α
  | .ok a => .ok a
  | .die msg t => .die msg (before ++ t)
  | .crash => .crash
  | .out_of_fuel => .out_of_fuel

/-- The result of `get_ack`. -/
inductive Ack where
  | nak
  | final (sha1 : Oid)
  | cont (sha1 : Oid)
  deriving DecidableEq, Repr

/-- Modelled from the spec: `get_ack` (connect.c) is not part of this file.
"`ACK <oid>` (final, `ack_type=1`)", "`ACK <oid> continue` (`ack_type=2`)",
"the exact string `NAK`"; anything else is a fatal protocol error (`none`). -/
def get_ack : Line → Option Ack
  | .nak => some .nak
  | .ack sha1 => some (.final sha1)
  | .ack_continue sha1 => some (.cont sha1)
  | _ => none

/-- Modelled from the spec: `lookup_commit` (commit.c) is not part of this
file.  It hands out the commit object for a name, creating an unparsed one
when the table has none, and `NULL` when the name belongs to an object of
another kind. -/
def lookup_commit (r : Repo) (s : Walk) (sha1 : Oid) : Option Oid × Walk :=
  match r.read sha1 with
  | some (.tag _) => (none, s)
  | some .other => (none, s)
  | _ => (some sha1, { s with loaded := Function.update s.loaded sha1 true })

/-! ## Options and file-scope state -/

/-- The fields of `struct fetch_pack_args` that this file reads. -/
structure Args where
  uploadpack : String := "git-upload-pack"
  depth : Int := 0
  quiet : Bool := false
  keep_pack : Bool := false
  lock_pack : Bool := false
  use_thin_pack : Bool := false
  fetch_all : Bool := false
  verbose : Bool := false
  no_progress : Bool := false
  include_tag : Bool := false
  deriving DecidableEq, Repr

/-- A `struct ref` of the advertised list. -/
structure Ref where
  name : String
  old_sha1 : Oid
  new_sha1 : Oid := 0
  deriving DecidableEq, Repr

/-- The file-scope variables, the object table and the shallow registry. -/
structure State where
  w : Walk
  marked : Bool := false
  multi_ack : Bool := false
  use_sideband : Nat := 0
  prefer_ofs_delta : Bool := true
  unpack_limit : Int := 100
  complete : List Oid := []
  /-- `is_repository_shallow()` -/
  is_shallow : Bool := false
  /-- the registered shallow commits -/
  shallow : List Oid := []
  transfer_unpack_limit : Int := -1
  fetch_unpack_limit : Int := -1
  /-- the static `did_setup` of `fetch_pack_setup` -/
  did_setup : Bool := false

/-- The state of a fresh process. -/
def State.init : State := { w := Walk.init }

/-! ## `find_common` -/

/-- The local variables of `find_common` during the have loop, the static
`multi_ack`, the lines still unread and the conversation so far. -/
structure Neg where
  w : Walk
  multi_ack : Bool
  count : Nat := 0
  flushes : Int := 0
  in_vain : Nat := 0
  got_continue : Bool := false
  retval : Int := -1
  inp : List Line
  trace : List Ev := []

/-- How the `do ... while (ack)` loop of lines 264-282 ended. -/
inductive Poll where
  /-- `ack == 1`: `goto done` -/
  | final (n : Neg)
  /-- `ack == 0`: the loop condition failed -/
  | nak (n : Neg)
  /-- `get_ack` died -/
  | die (n : Neg)
  | out_of_fuel

/-- The `do ... while (ack)` loop of lines 264-282, one line of the input per
turn. -/
def poll_acks (r : Repo) (fuel : Nat) : List Line → Neg → Poll
  | [], n => .die { n with inp := [] }
  | l :: rest, n =>
    match get_ack l with
    | none => .die { n with inp := rest, trace := n.trace ++ [.recv l] }
    | some .nak => .nak { n with inp := rest, trace := n.trace ++ [.recv l] }
    | some (.final _) =>
      .final { n with flushes := 0, multi_ack := false, retval := 0,
                      inp := rest, trace := n.trace ++ [.recv l] }
    | some (.cont result_sha1) =>
      let lc := lookup_commit r n.w result_sha1
      match mark_common r fuel lc.2 lc.1 false true with
      | none => .out_of_fuel
      | some w1 =>
        poll_acks r fuel rest
          { n with w := w1, retval := 0, in_vain := 0, got_continue := true,
                   inp := rest, trace := n.trace ++ [.recv l] }

/-- How control left the `while ((sha1 = get_rev()))` loop. -/
inductive Exit where
  /-- `goto done` after a final ACK -/
  | final_ack
  /-- `get_rev` returned `NULL` -/
  | walk_done
  /-- `break` at "giving up" -/
  | give_up
  deriving DecidableEq, Repr

/-- The have loop, lines 246-290.  Each turn uses one unit of fuel. -/
def have_loop (r : Repo) : Nat → Neg → Run (Exit × Neg)
  | 0, _ => .out_of_fuel
  | fuel + 1, n =>
    match get_rev r fuel n.w with
    | none => .out_of_fuel
    | some (none, w1) => .ok (.walk_done, { n with w := w1 })
    | some (some sha1, w1) =>
      let n1 : Neg :=
        { n with w := w1, trace := n.trace ++ [.send (.have sha1)],
                 in_vain := n.in_vain + 1, count := n.count + 1 }
      if n1.count &&& 31 = 0 then
        let n2 : Neg :=
          { n1 with trace := n1.trace ++ [.send .flush], flushes := n1.flushes + 1 }
        if n2.count = 32 then have_loop r fuel n2
        else
          match poll_acks r fuel n2.inp n2 with
          | .final n3 => .ok (.final_ack, n3)
          | .die n3 => .die "expected ACK/NAK" n3.trace
          | .out_of_fuel => .out_of_fuel
          | .nak n3 =>
            let n4 : Neg := { n3 with flushes := n3.flushes - 1 }
            if n4.got_continue && decide (MAX_IN_VAIN < n4.in_vain) then
              .ok (.give_up, n4)
            else have_loop r fuel n4
      else have_loop r fuel n1

/-- The have loop with the locals as `find_common` initialises them. -/
def Neg.start (w : Walk) (multi_ack : Bool) (inp : List Line) : Neg :=
  { w := w, multi_ack := multi_ack, inp := inp }

/-- The capability strings of the first want line, lines 198-204. -/
def want_caps (args : Args) (st : State) : String :=
  (if st.multi_ack then " multi_ack" else "") ++
  (if st.use_sideband = 2 then " side-band-64k" else "") ++
  (if st.use_sideband = 1 then " side-band" else "") ++
  (if args.use_thin_pack then " thin-pack" else "") ++
  (if args.no_progress then " no-progress" else "") ++
  (if args.include_tag then " include-tag" else "") ++
  (if st.prefer_ofs_delta then " ofs-delta" else "")

/-- The test of lines 190-191: `lookup_object` finds the object and it is
flagged `COMPLETE`. -/
def is_complete (w : Walk) (sha1 : Oid) : Bool :=
  w.loaded sha1 && decide (w.flags sha1 &&& COMPLETE ≠ 0)

/-- The loop over the refs, lines 176-208: the want packets written and the
final value of `fetching`. -/
def send_wants (args : Args) (st : State) : List Ref → Nat → List Pkt × Nat
  | [], fetching => ([], fetching)
  | ref :: refs, fetching =>
    if is_complete st.w ref.old_sha1 then send_wants args st refs fetching
    else
      let p :=
        if fetching = 0 then Pkt.want ref.old_sha1 (want_caps args st)
        else Pkt.want ref.old_sha1 ""
      let rest := send_wants args st refs (fetching + 1)
      (p :: rest.1, rest.2)

/-- Modelled from the spec: `write_shallow_commits` (shallow.c) is not part of
this file.  "Transmit each known shallow OID as `shallow <oid>` lines." -/
def write_shallow_commits (st : State) : List Pkt :=
  st.shallow.map Pkt.shallow

/-- Phase 1, lines 175-215: the packets written and the value of `fetching`. -/
def send_request (args : Args) (st : State) (refs : List Ref) : List Pkt × Nat :=
  let wants := send_wants args st refs 0
  (wants.1
    ++ (if st.is_shallow then write_shallow_commits st else [])
    ++ (if args.depth > 0 then [Pkt.deepen args.depth] else [])
    ++ [Pkt.flush],
   wants.2)

/-- The kind of the in-memory object under a name: what the store holds, and
a commit for a name that is only known from `lookup_commit`. -/
def is_commit (r : Repo) (o : Oid) : Bool :=
  match r.read o with
  | some (.tag _) => false
  | some .other => false
  | _ => true

def is_tag (r : Repo) (o : Oid) : Bool :=
  match r.read o with
  | some (.tag _) => true
  | _ => false

/-- The field `tag->tagged`: unset until the tag is parsed. -/
def Walk.tagged (r : Repo) (s : Walk) (o : Oid) : Option Oid :=
  if s.parsed o then
    match r.read o with
    | some (.tag t) => t
    | _ => none
  else none

/-- Modelled from the spec: `lookup_object` (object.c) is not part of this
file: the object of that name if the table has one. -/
def lookup_object (s : Walk) (sha1 : Oid) : Option Oid :=
  if s.loaded sha1 then some sha1 else none

/-- Modelled from the spec: `parse_object` (object.c) is not part of this
file: read and parse the object of that name, `NULL` if that fails. -/
def parse_object (r : Repo) (s : Walk) (sha1 : Oid) : Option Oid × Walk :=
  match r.read sha1 with
  | none => (none, s)
  | some (.commit _ _) =>
    let s1 := (parse_commit r s sha1).1
    (some sha1, { s1 with loaded := Function.update s1.loaded sha1 true })
  | some (.tag t) =>
    (some sha1,
     { s with parsed := Function.update s.parsed sha1 true,
              loaded := fun o => s.loaded o || decide (o = sha1) || decide (some o = t) })
  | some .other =>
    (some sha1,
     { s with parsed := Function.update s.parsed sha1 true,
              loaded := Function.update s.loaded sha1 true })

/-- Modelled from the spec: `deref_tag` (tag.c) is not part of this file:
follow "a chain of tag-dereference (tagged object of a tag of a tag...)",
parsing on the way; `NULL` when a link is missing. -/
def deref_tag (r : Repo) : Nat → Walk → Option Oid → Option (Option Oid × Walk)
  | 0, _, _ => none
  | _ + 1, s, none => some (none, s)
  | fuel + 1, s, some o =>
    if is_tag r o then
      match s.tagged r o with
      | some t =>
        let po := parse_object r s t
        deref_tag r fuel po.2 po.1
      | none => some (none, s)
    else some (some o, s)

/-- Modelled from the spec: `clear_commit_marks` (commit.c) is not part of
this file: clear the bits on a commit and on its ancestors, as far as any of
them is set. -/
def clear_commit_marks (r : Repo) : Nat → Walk → Oid → Nat → Option Walk
  | 0, _, _, _ => none
  | fuel + 1, s, commit, mark =>
    if s.flags commit &&& mark = 0 then some s
    else
      let s1 : Walk :=
        { s with flags := Function.update s.flags commit (s.flags commit &&& (mark ^^^ (2 ^ 32 - 1))) }
      let ps := s1.parents r commit
      (ps.tail ++ ps.head?.toList).foldlM
        (fun s2 p => clear_commit_marks r fuel s2 p mark) s1

/-- `clear_marks`, lines 67-75, for one local ref. -/
def clear_marks (r : Repo) (fuel : Nat) (s : Walk) (sha1 : Oid) : Option Walk :=
  let po := parse_object r s sha1
  match deref_tag r fuel po.2 po.1 with
  | none => none
  | some (none, s1) => some s1
  | some (some o, s1) =>
    if is_commit r o then
      clear_commit_marks r fuel s1 o (COMMON ||| COMMON_REF ||| SEEN ||| POPPED)
    else some s1

/-- `rev_list_insert_ref`, lines 57-65, for one local ref. -/
def rev_list_insert_ref (r : Repo) (fuel : Nat) (s : Walk) (sha1 : Oid) : Option Walk :=
  let po := parse_object r s sha1
  match deref_tag r fuel po.2 po.1 with
  | none => none
  | some (none, s1) => some s1
  | some (some o, s1) =>
    if is_commit r o then some (rev_list_push r s1 o SEEN) else some s1

/-- Modelled from the spec: `for_each_ref` (refs.c) is not part of this file:
call the function on every local ref, in order. -/
def for_each_ref {σ : Type} (r : Repo) (fn : σ → Oid → Option σ) (s : σ) : Option σ :=
  (r.refs.map Prod.snd).foldlM fn s

/-- The start of `find_common`, lines 169-173. -/
def find_common_setup (r : Repo) (fuel : Nat) (st : State) : Option State :=
  match (if st.marked then for_each_ref r (clear_marks r fuel) st.w else some st.w) with
  | none => none
  | some w1 =>
    match for_each_ref r (rev_list_insert_ref r fuel) w1 with
    | none => none
    | some w2 => some { st with w := w2, marked := true }

/-- Phase 2, the `while (packet_read_line(...))` loop of lines 221-241: the
state, the lines left and the lines read. -/
def read_shallow (r : Repo) : List Line → State → Run (State × List Line × List Ev)
  | [], _ => .die "The remote end hung up unexpectedly" []
  | .flush :: rest, st => .ok (st, rest, [.recv .flush])
  | .shallow sha1 :: rest, st =>
    -- register_shallow(sha1)
    let st1 : State :=
      { st with shallow := sha1 :: st.shallow, w := (lookup_commit r st.w sha1).2 }
    Run.after [.recv (.shallow sha1)]
      (match read_shallow r rest st1 with
       | .ok (st2, rest2, evs) => .ok (st2, rest2, .recv (.shallow sha1) :: evs)
       | other => other)
  | .unshallow sha1 :: rest, st =>
    if (lookup_object st.w sha1).isNone then
      .die "object not found" [.recv (.unshallow sha1)]
    else
      let po := parse_object r st.w sha1
      if po.1.isNone then .die "error in object" [.recv (.unshallow sha1)]
      else if sha1 ∉ st.shallow then .die "no shallow found" [.recv (.unshallow sha1)]
      else
        let st1 : State := { st with w := po.2, shallow := st.shallow.filter (· ≠ sha1) }
        Run.after [.recv (.unshallow sha1)]
          (match read_shallow r rest st1 with
           | .ok (st2, rest2, evs) => .ok (st2, rest2, .recv (.unshallow sha1) :: evs)
           | other => other)
  | l :: _, _ => .die "expected shallow/unshallow" [.recv l]

/-- Phase 4 after `done` has been written, the loop of lines 299-311 and the
return statement of line 313: the value returned by `find_common`. -/
def drain_acks : List Line → Neg → Run (Int × Neg)
  | [], n =>
    if n.flushes ≠ 0 || n.multi_ack then .die "expected ACK/NAK" n.trace
    else .ok (if n.count ≠ 0 then n.retval else 0, n)
  | l :: rest, n =>
    if n.flushes ≠ 0 || n.multi_ack then
      let n1 : Neg := { n with inp := rest, trace := n.trace ++ [.recv l] }
      match get_ack l with
      | none => .die "expected ACK/NAK" n1.trace
      | some (.final _) => .ok (0, n1)
      | some (.cont _) => drain_acks rest { n1 with multi_ack := true }
      | some .nak => drain_acks rest { n1 with flushes := n1.flushes - 1 }
    else .ok (if n.count ≠ 0 then n.retval else 0, n)

/-- Lines 291-313: write `done`, adjust `flushes` and `multi_ack`, drain. -/
def send_done (n : Neg) : Run (Int × Neg) :=
  let n1 : Neg := { n with trace := n.trace ++ [.send .done] }
  let n2 : Neg :=
    if n1.retval ≠ 0 then { n1 with multi_ack := false, flushes := n1.flushes + 1 }
    else n1
  drain_acks n2.inp n2

/-- What `find_common` leaves behind when it returns. -/
structure Found where
  /-- the return value -/
  ret : Int
  st : State
  /-- the lines not yet read -/
  inp : List Line
  /-- the conversation while `find_common` ran -/
  trace : List Ev

/-- `find_common`, lines 160-314. -/
def find_common (r : Repo) (args : Args) (fuel : Nat) (st : State) (refs : List Ref)
    (inp : List Line) : Run Found :=
  match find_common_setup r fuel st with
  | none => .out_of_fuel
  | some st1 =>
    let req := send_request args st1 refs
    let t1 : List Ev := req.1.map Ev.send
    if req.2 = 0 then .ok { ret := 1, st := st1, inp := inp, trace := t1 }
    else
      let ph2 : Run (State × List Line × List Ev) :=
        if args.depth > 0 then read_shallow r inp st1 else .ok (st1, inp, [])
      match ph2 with
      | .die msg t => .die msg (t1 ++ t)
      | .crash => .crash
      | .out_of_fuel => .out_of_fuel
      | .ok (st2, inp2, t2) =>
        Run.after (t1 ++ t2)
          (match have_loop r fuel (Neg.start st2.w st2.multi_ack inp2) with
           | .die msg t => .die msg t
           | .crash => .crash
           | .out_of_fuel => .out_of_fuel
           | .ok (_, n) =>
             match send_done n with
             | .die msg t => .die msg t
             | .crash => .crash
             | .out_of_fuel => .out_of_fuel
             | .ok (ret, n1) =>
               .ok { ret := ret, st := { st2 with w := n1.w, multi_ack := n1.multi_ack },
                     inp := n1.inp, trace := t1 ++ t2 ++ n1.trace })

/-! ## The completeness oracle and the ref filter -/

/-- The loop of `mark_complete`, lines 322-328: flag the tags of a chain. -/
def mark_complete_tags (r : Repo) : Nat → Walk → Option Oid → Option (Option Oid × Walk)
  | 0, _, _ => none
  | _ + 1, s, none => some (none, s)
  | fuel + 1, s, some o =>
    if is_tag r o then
      match s.tagged r o with
      | none => some (some o, s)
      | some t =>
        let po := parse_object r (s.orFlags o COMPLETE) t
        mark_complete_tags r fuel po.2 po.1
    else some (some o, s)

/-- `mark_complete`, lines 318-335, for one local ref. -/
def mark_complete (r : Repo) (fuel : Nat) (st : State) (sha1 : Oid) : Option State :=
  let po := parse_object r st.w sha1
  match mark_complete_tags r fuel po.2 po.1 with
  | none => none
  | some (none, w1) => some { st with w := w1 }
  | some (some o, w1) =>
    if is_commit r o then
      let w2 := w1.orFlags o COMPLETE
      some { st with w := w2, complete := insert_by_date (w2.date r) o st.complete }
    else some { st with w := w1 }

/-- Modelled from the spec: `pop_most_recent_commit` (commit.c) is not part of
this file: "a completeness-propagating pop": take the head off the list, flag
its parents and queue those that were not flagged before. -/
def pop_most_recent_commit (r : Repo) (w : Walk) (list : List Oid) (mark : Nat) :
    Walk × List Oid :=
  match list with
  | [] => (w, [])
  | ret :: rest =>
    (w.parents r ret).foldl
      (fun (acc : Walk × List Oid) commit =>
        let w1 := (parse_commit r acc.1 commit).1
        if w1.flags commit &&& mark = 0 then
          let w2 := w1.orFlags commit mark
          (w2, insert_by_date (w2.date r) commit acc.2)
        else (w1, acc.2))
      (w, rest)

/-- `mark_recent_complete_commits`, lines 337-345. -/
def mark_recent_complete_commits (r : Repo) : Nat → State → Nat → Option State
  | 0, _, _ => none
  | fuel + 1, st, cutoff =>
    match st.complete with
    | [] => some st
    | c :: _ =>
      if cutoff ≤ st.w.date r c then
        let p := pop_most_recent_commit r st.w st.complete COMPLETE
        mark_recent_complete_commits r fuel { st with w := p.1, complete := p.2 } cutoff
      else some st

/-- The C test `!prefixcmp(s, start)`: `s` begins with `start`. -/
def starts_with (s start : String) : Bool :=
  start.data.isPrefixOf s.data

/-- One turn of the loop of `path_match` for the pattern `s`. -/
def path_match_one (path s : List Char) : Bool :=
  if s.length = 0 || s.length > path.length then false
  else if path.drop (path.length - s.length) ≠ s then false
  else if decide (path.length > s.length)
      && decide (path.get? (path.length - s.length - 1) ≠ some '/') then false
  else true

/-- Modelled from the spec: `path_match` (connect.c) is not part of this file.
"Match is path-suffix against pattern components", "a pattern matches at most
one ref": the first pattern that is a suffix of the path at a slash gives its
position plus one and is emptied, so that the caller sees it as consumed
(`cmd_fetch_pack`, lines 763-772); zero if none matches. -/
def path_match (path : String) : List String → Nat × List String
  | [] => (0, [])
  | s :: rest =>
    if path_match_one path.data s.data then (1, "" :: rest)
    else
      let m := path_match path rest
      (if m.1 = 0 then 0 else m.1 + 1, s :: m.2)

/-- The state of the first loop of `filter_refs`. -/
structure Filter where
  /-- `newlist`, in list order -/
  newlist : List Ref
  /-- `return_refs`: `none` for the C `NULL` -/
  return_refs : Option (List (Option Ref))
  /-- the array `match` -/
  pats : List String

/-- The first loop of `filter_refs`, lines 366-386.  `none`: a store through
the null `return_refs`. -/
def filter_refs_loop (check_ref_format : String → Bool) (args : Args) :
    List Ref → Filter → Option Filter
  | [], f => some f
  | ref :: next, f =>
    if starts_with ref.name "refs/" && check_ref_format (String.mk (ref.name.data.drop 5)) then
      filter_refs_loop check_ref_format args next f
    else if args.fetch_all && (decide (args.depth = 0) || !starts_with ref.name "refs/tags/") then
      filter_refs_loop check_ref_format args next { f with newlist := f.newlist ++ [ref] }
    else
      let m := path_match ref.name f.pats
      if m.1 ≠ 0 then
        match f.return_refs with
        | none => none
        | some arr =>
          filter_refs_loop check_ref_format args next
            { f with return_refs := some (arr.set (m.1 - 1) (some ref)), pats := m.2 }
      else filter_refs_loop check_ref_format args next { f with pats := m.2 }

/-- `filter_refs`, lines 347-402: the new list and the array `match` as it is
left.  `check_ref_format` says whether a name is malformed. -/
def filter_refs (check_ref_format : String → Bool) (args : Args) (refs : List Ref)
    (pats : List String) : Option (List Ref × List String) :=
  let return_refs : Option (List (Option Ref)) :=
    if pats.length ≠ 0 && !args.fetch_all then some (List.replicate pats.length none)
    else none
  match filter_refs_loop check_ref_format args refs
      { newlist := [], return_refs := return_refs, pats := pats } with
  | none => none
  | some f =>
    let linked : List Ref :=
      if !args.fetch_all then
        match f.return_refs with
        | some arr => arr.filterMap id
        | none => []
      else []
    some (f.newlist ++ linked, f.pats)

/-- The first loop of `everything_local`, lines 412-428. -/
def find_cutoff (r : Repo) : List Ref → Walk → Nat → Walk × Nat
  | [], w, cutoff => (w, cutoff)
  | ref :: refs, w, cutoff =>
    let po := parse_object r w ref.old_sha1
    match po.1 with
    | none => find_cutoff r refs po.2 cutoff
    | some o =>
      if is_commit r o && (decide (cutoff = 0) || decide (cutoff < po.2.date r o)) then
        find_cutoff r refs po.2 (po.2.date r o)
      else find_cutoff r refs po.2 cutoff

/-- The second loop of `everything_local`, lines 440-452. -/
def mark_common_refs (r : Repo) (fuel : Nat) : List Ref → Walk → Option Walk
  | [], w => some w
  | ref :: refs, w =>
    match deref_tag r fuel w (lookup_object w ref.old_sha1) with
    | none => none
    | some (none, w1) => mark_common_refs r fuel refs w1
    | some (some o, w1) =>
      if !is_commit r o || decide (w1.flags o &&& COMPLETE = 0) then
        mark_common_refs r fuel refs w1
      else if w1.flags o &&& SEEN = 0 then
        match mark_common r fuel (rev_list_push r w1 o (COMMON_REF ||| SEEN)) (some o) true true with
        | none => none
        | some w2 => mark_common_refs r fuel refs w2
      else mark_common_refs r fuel refs w1

/-- The last loop of `everything_local`, lines 456-478.  `local_` is what the
automatic array `local`, which is never assigned, happens to hold. -/
def check_local (w : Walk) (local_ : Oid) : List Ref → Bool → Bool × List Ref
  | [], retval => (retval, [])
  | ref :: refs, retval =>
    if !is_complete w ref.old_sha1 then
      let rest := check_local w local_ refs false
      (rest.1, ref :: rest.2)
    else
      let rest := check_local w local_ refs retval
      (rest.1, { ref with new_sha1 := local_ } :: rest.2)

/-- What `everything_local` leaves behind. -/
structure Local where
  /-- the return value -/
  ret : Bool
  /-- the list `*refs` -/
  refs : List Ref
  /-- the array `match` -/
  pats : List String
  st : State

/-- `everything_local`, lines 404-480. -/
def everything_local (r : Repo) (check_ref_format : String → Bool) (args : Args)
    (local_ : Oid) (fuel : Nat) (st : State) (refs : List Ref) (pats : List String) :
    Run Local :=
  let c := find_cutoff r refs st.w 0
  let st1 : State := { st with w := c.1 }
  let marked : Option State :=
    if args.depth = 0 then
      match for_each_ref r (mark_complete r fuel) st1 with
      | none => none
      | some st2 =>
        if c.2 ≠ 0 then mark_recent_complete_commits r fuel st2 c.2 else some st2
    else some st1
  match marked with
  | none => .out_of_fuel
  | some st3 =>
    match mark_common_refs r fuel refs st3.w with
    | none => .out_of_fuel
    | some w4 =>
      match filter_refs check_ref_format args refs pats with
      | none => .crash
      | some fr =>
        let chk := check_local w4 local_ fr.1 true
        .ok { ret := chk.1, refs := chk.2, pats := fr.2, st := { st3 with w := w4 } }

/-! ## Receiving the pack, and the entry points -/

/-- What the surroundings of `get_pack` decide: the pack header on the stream
and the fate of the helper processes. -/
structure PackIo where
  /-- `read_pack_header`: version and number of entries, `none` if it fails -/
  header : Option (Nat × Nat) := some (2, 0)
  /-- the text after `--keep=fetch-pack `: process id and host name -/
  keep_label : String := "1 on localhost"
  /-- `index_pack_lockfile(cmd.out)` -/
  lockfile : String := ""
  start_async_fails : Bool := false
  start_command_fails : Bool := false
  finish_command_fails : Bool := false
  finish_async_fails : Bool := false

/-- What `get_pack` ran. -/
structure Ingest where
  /-- the argument vector of the child process -/
  argv : List String
  /-- the value stored through `pack_lockfile`, if any -/
  pack_lockfile : Option String
  deriving DecidableEq, Repr

/-- The argument vector built by lines 534-558. -/
def get_pack_argv (args : Args) (st : State) (io : PackIo) (do_keep : Bool)
    (hdr_arg : String) : List String :=
  (if do_keep then
      ["index-pack", "--stdin"]
        ++ (if !args.quiet && !args.no_progress then ["-v"] else [])
        ++ (if args.use_thin_pack then ["--fix-thin"] else [])
        ++ (if args.lock_pack || decide (st.unpack_limit ≠ 0) then
              ["--keep=fetch-pack " ++ io.keep_label] else [])
    else
      ["unpack-objects"] ++ (if args.quiet then ["-q"] else []))
    ++ (if hdr_arg ≠ "" then [hdr_arg] else [])

/-- The decision of lines 498 and 520-532: `do_keep` and `hdr_arg`, `none` for
a bad pack header.  The entry count is an unsigned 32-bit number, so the
comparison converts `unpack_limit` to one. -/
def get_pack_keep (args : Args) (st : State) (io : PackIo) : Option (Bool × String) :=
  if !args.keep_pack && decide (st.unpack_limit ≠ 0) then
    match io.header with
    | none => none
    | some (version, entries) =>
      some (!decide ((entries : Int) < st.unpack_limit % 2 ^ 32),
        "--pack_header=" ++ toString version ++ "," ++ toString entries)
  else some (args.keep_pack, "")

/-- `get_pack`, lines 491-574.  `want_lockfile` says that `pack_lockfile` is
not null. -/
def get_pack (args : Args) (st : State) (io : PackIo) (want_lockfile : Bool) :
    Run Ingest :=
  if decide (st.use_sideband ≠ 0) && io.start_async_fails then
    .die "fetch-pack: unable to fork off sideband demultiplexer" []
  else
    match get_pack_keep args st io with
    | none => .die "protocol error: bad pack header" []
    | some (do_keep, hdr_arg) =>
      let argv := get_pack_argv args st io do_keep hdr_arg
      if io.start_command_fails then
        .die ("fetch-pack: unable to fork off " ++ argv.headD "") []
      else if io.finish_command_fails then .die (argv.headD "" ++ " failed") []
      else if decide (st.use_sideband ≠ 0) && io.finish_async_fails then
        .die "error in sideband demultiplexer" []
      else
        .ok { argv := argv,
              pack_lockfile := if do_keep && want_lockfile then some io.lockfile else none }

/-- Everything outside this file that a session depends on. -/
structure Env where
  repo : Repo
  /-- `server_supports`: the capability is on the server's greeting line -/
  server_supports : String → Bool
  /-- `check_ref_format` returns non-zero: the name is malformed -/
  check_ref_format : String → Bool
  /-- the contents of the unassigned array `local` of `everything_local` -/
  local_ : Oid := 0
  pack : PackIo := {}
  /-- `pack_lockfile` is not null -/
  want_lockfile : Bool := false
  /-- the values `git_config` reports, in order -/
  config : List (String × Int) := []
  /-- the modification time of the shallow file when `fetch_pack` starts and
  when `do_fetch_pack` is back; `none` when `stat` fails -/
  shallow_mtime_before : Option Nat := none
  shallow_mtime_after : Option Nat := none

/-- What `do_fetch_pack` leaves behind when it returns. -/
structure Fetched where
  /-- the returned list -/
  refs : List Ref
  /-- the array `match` -/
  pats : List String
  st : State
  /-- the lines not yet read -/
  inp : List Line
  /-- the conversation -/
  trace : List Ev
  /-- the return value of `find_common`, if it was called -/
  found : Option Int
  /-- what `get_pack` ran, if it was called -/
  pack : Option Ingest

/-- The capability handshake of `do_fetch_pack`, lines 587-606. -/
def set_capabilities (e : Env) (st : State) : State :=
  let st1 : State := if e.server_supports "multi_ack" then { st with multi_ack := true } else st
  let st2 : State :=
    if e.server_supports "side-band-64k" then { st1 with use_sideband := 2 }
    else if e.server_supports "side-band" then { st1 with use_sideband := 1 }
    else st1
  if e.server_supports "ofs-delta" then st2 else { st2 with prefer_ofs_delta := false }

/-- `do_fetch_pack`, lines 576-623. -/
def do_fetch_pack (e : Env) (args : Args) (fuel : Nat) (st : State) (orig_ref : List Ref)
    (pats : List String) (inp : List Line) : Run Fetched :=
  if st.is_shallow && !e.server_supports "shallow" then
    .die "Server does not support shallow clients" []
  else
    match everything_local e.repo e.check_ref_format args e.local_ fuel
        (set_capabilities e st) orig_ref pats with
    | .die msg t => .die msg t
    | .crash => .crash
    | .out_of_fuel => .out_of_fuel
    | .ok l =>
      if l.ret then
        .ok { refs := l.refs, pats := l.pats, st := l.st, inp := inp,
              trace := [.send .flush], found := none, pack := none }
      else
        match find_common e.repo args fuel l.st l.refs inp with
        | .die msg t => .die msg t
        | .crash => .crash
        | .out_of_fuel => .out_of_fuel
        | .ok f =>
          match get_pack args f.st e.pack e.want_lockfile with
          | .die msg _ => .die msg f.trace
          | .crash => .crash
          | .out_of_fuel => .out_of_fuel
          | .ok g =>
            .ok { refs := l.refs, pats := l.pats, st := f.st, inp := f.inp,
                  trace := f.trace, found := some f.ret, pack := some g }

/-- `remove_duplicates`, lines 625-645: the value returned and the array as it
is left. -/
def remove_duplicates (nr_heads : Nat) (heads : List String) : Nat × List String :=
  (List.range nr_heads).foldl
    (fun (acc : Nat × List String) src =>
      if (List.range acc.1).any (fun i => acc.2.get? i == acc.2.get? src) then acc
      else
        (acc.1 + 1,
         if src ≠ acc.1 then acc.2.set acc.1 (acc.2.getD src "") else acc.2))
    (0, heads)

/-- `fetch_pack_config`, lines 647-665, for one configuration entry. -/
def fetch_pack_config (st : State) (entry : String × Int) : State :=
  if entry.1 = "fetch.unpacklimit" then { st with fetch_unpack_limit := entry.2 }
  else if entry.1 = "transfer.unpacklimit" then { st with transfer_unpack_limit := entry.2 }
  else if entry.1 = "repack.usedeltabaseoffset" then
    { st with prefer_ofs_delta := decide (entry.2 ≠ 0) }
  else st

/-- `fetch_pack_setup`, lines 669-680. -/
def fetch_pack_setup (e : Env) (st : State) : State :=
  if st.did_setup then st
  else
    let st1 := e.config.foldl fetch_pack_config st
    let st2 : State :=
      if 0 ≤ st1.transfer_unpack_limit then { st1 with unpack_limit := st1.transfer_unpack_limit }
      else if 0 ≤ st1.fetch_unpack_limit then { st1 with unpack_limit := st1.fetch_unpack_limit }
      else st1
    { st2 with did_setup := true }

/-- `fetch_pack`, lines 783-839.  The conversation is kept when it dies. -/
def fetch_pack (e : Env) (my_args : Args) (fuel : Nat) (st : State) (ref : List Ref)
    (heads : List String) (inp : List Line) : Run Fetched :=
  let st1 := fetch_pack_setup e st
  let mtime : Nat := e.shallow_mtime_before.getD 0
  let heads1 : List String :=
    if heads.length ≠ 0 then
      let rd := remove_duplicates heads.length heads
      rd.2.take rd.1
    else heads
  if ref.isEmpty then .die "no matching remote head" [.send .flush]
  else
    match do_fetch_pack e my_args fuel st1 ref heads1 inp with
    | .die msg t => .die msg t
    | .crash => .crash
    | .out_of_fuel => .out_of_fuel
    | .ok f =>
      if my_args.depth > 0 then
        match e.shallow_mtime_after with
        | none =>
          if mtime ≠ 0 then .die "shallow file was removed during fetch" f.trace
          else .ok f
        | some m =>
          if m ≠ mtime then .die "shallow file was changed during fetch" f.trace
          else .ok f
      else .ok f

/-! ## Reading a conversation -/

/-- The names announced by the have packets of a conversation, in order. -/
def haves : List Ev → List Oid
  | [] => []
  | .send (.have o) :: t => o :: haves t
  | _ :: t => haves t

/-- The number of flush packets written. -/
def flushes_sent : List Ev → Nat
  | [] => 0
  | .send .flush :: t => flushes_sent t + 1
  | _ :: t => flushes_sent t

/-- The number of NAK lines read. -/
def naks_read : List Ev → Nat
  | [] => 0
  | .recv .nak :: t => naks_read t + 1
  | _ :: t => naks_read t

/-- The commits `get_rev` yields when it is called again and again and nothing
else touches the walk, up to the first `NULL`. -/
def walk_all (r : Repo) : Nat → Walk → Option (List Oid)
  | 0, _ => none
  | fuel + 1, s =>
    match get_rev r fuel s with
    | none => none
    | some (none, _) => some []
    | some (some c, s1) =>
      match walk_all r fuel s1 with
      | none => none
      | some cs => some (c :: cs)

/-- The conversation of the have loop, also when it died. -/
def loop_trace : Run (Exit × Neg) → Option (List Ev)
  | .ok (_, n) => some n.trace
  | .die _ t => some t
  | _ => none

/-- A chain of three commits, the newest being the only local ref. -/
def chain3 : Repo :=
  { objects := [(1, .commit 1 []), (2, .commit 2 [1]), (3, .commit 3 [2])],
    refs := [("refs/heads/main", 3)] }

/-- The walk after the tip of the chain has been pushed. -/
def chain3_walk : Walk := rev_list_push chain3 Walk.init 3 SEEN

/-- The outcome of the have loop on the chain when the server has one NAK to
say. -/
def chain3_out : Exit × Neg :=
  match have_loop chain3 5 (Neg.start chain3_walk false [.nak]) with
  | .ok p => p
  | _ => (.give_up, Neg.start Walk.init false [])

/-- The windowing discipline of the have loop, read off a conversation: a
flush follows a have exactly when the have is number 32, 64, 96, ...; when a
have is written the flushes sent exceed the NAKs read by none before the 32nd
have has been sent and by one afterwards; a line is read only after 64 haves
and two flushes. -/
def Windowed (t : List Ev) : Prop :=
  (∀ i o, t[i]? = some (.send (.have o)) →
      (t[i + 1]? = some (.send .flush) ↔ ((haves (t.take i)).length + 1) % 32 = 0)
      ∧ ((flushes_sent (t.take i) : Int) - naks_read (t.take i)
          = if (haves (t.take i)).length < 32 then 0 else 1))
  ∧ (∀ i l, t[i]? = some (.recv l) →
      64 ≤ (haves (t.take i)).length ∧ 2 ≤ flushes_sent (t.take i))

/-- What holds of the locals of `find_common` at the head of the have loop. -/
def LoopInv (n : Neg) : Prop :=
  n.count = (haves n.trace).length
  ∧ n.flushes = (flushes_sent n.trace : Int) - naks_read n.trace
  ∧ n.flushes = (if n.count < 32 then 0 else 1)
  ∧ Windowed n.trace

/-- A chain of `k` commits named 1 to `k`, each the child of the one before
it and one second younger; the newest is the only local ref. -/
def chain (k : Nat) : Repo :=
  { objects := (List.range k).map fun i =>
      (i + 1, Object.commit (i + 1) (if i = 0 then [] else [i])),
    refs := [("refs/heads/main", k)] }

/-- The conversation of the have loop on a chain of 65 commits with a server
that says NAK once. -/
def chain65_trace : List Ev :=
  (loop_trace (have_loop (chain 65) 70
    (Neg.start (rev_list_push (chain 65) Walk.init 65 SEEN) false [.nak]))).getD []

/-- The conversation of a session, also of one that died. -/
def session_trace : Run Fetched → List Ev
  | .ok f => f.trace
  | .die _ t => t
  | _ => []

/-- A repository with clock skew: commit 1 (date 5) is the only local ref,
its parent 2 carries the later date 10. -/
def skewed : Repo :=
  { objects := [(1, .commit 5 [2]), (2, .commit 10 [])],
    refs := [("refs/heads/main", 1)] }

/-- A server that offers `multi_ack` and `ofs-delta` and accepts every ref
name; the local repository is `r`. -/
def plain_env (r : Repo) : Env :=
  { repo := r,
    server_supports := fun c => c == "multi_ack" || c == "ofs-delta",
    check_ref_format := fun _ => false }

/-- The session on the skewed repository: the server advertises
`refs/heads/main` at an unknown commit 9, the user asks for that ref, and the
server answers the negotiation with a single NAK. -/
def skewed_session : Run Fetched :=
  fetch_pack (plain_env skewed) {} 20 State.init
    [{ name := "refs/heads/main", old_sha1 := 9 }] ["refs/heads/main"] [.nak]

/-- The queue is in order: its entries are parsed commits and their committer
dates do not increase from the head on. -/
def Queued (r : Repo) (s : Walk) : Prop :=
  (∀ c ∈ s.rev_list, s.parsed c = true)
  ∧ s.rev_list.Pairwise (fun a b => r.date b ≤ r.date a)

/-- No commit has a parent with a later committer date than its own. -/
def DatesDescend (r : Repo) : Prop :=
  ∀ c p, p ∈ r.parents c → r.date p ≤ r.date c

/-- Every queued commit that is not flagged `COMMON` is dated `d` or earlier. -/
def Below (r : Repo) (s : Walk) (d : Nat) : Prop :=
  ∀ c ∈ s.rev_list, s.flags c &&& COMMON = 0 → r.date c ≤ d

/-- What a step of the walker that handles commits dated `D` or earlier does
to the walk: the queue stays in order, no `COMMON` flag is lost, every new
entry is dated `D` or earlier and is `COMMON` unless `nc` holds, and a head
dated `D` or later stays the head. -/
structure Grows (r : Repo) (D : Nat) (nc : Prop) (s s1 : Walk) : Prop where
  queued : Queued r s1
  common : ∀ o, s.flags o &&& COMMON ≠ 0 → s1.flags o &&& COMMON ≠ 0
  fresh : ∀ x ∈ s1.rev_list,
    x ∈ s.rev_list ∨ (r.date x ≤ D ∧ (s1.flags x &&& COMMON ≠ 0 ∨ nc))
  head : ∀ h t, s.rev_list = h :: t → D ≤ r.date h → ∃ t1, s1.rev_list = h :: t1

/-- What holds at the head of the have loop in a graph without clock skew:
the queue is in order, the commits announced so far came in descending date
order, and no queued non-common commit is younger than any of them. -/
def DateInv (r : Repo) (w : Walk) (sent : List Oid) : Prop :=
  Queued r w
  ∧ sent.Pairwise (fun a b => r.date b ≤ r.date a)
  ∧ ∀ x ∈ sent, Below r w (r.date x)

/-- A repository where a merge commit 1 (date 5) has the parents 2 (date 10)
and 3 (date 8), both younger than itself. -/
def skewed_merge : Repo :=
  { objects := [(1, .commit 5 [2, 3]), (2, .commit 10 []), (3, .commit 8 [])],
    refs := [("refs/heads/main", 1)] }

/-- The session on `skewed_merge`: the server advertises `refs/heads/main` at
an unknown commit 9 and answers the negotiation with a single NAK. -/
def skewed_merge_session : Run Fetched :=
  fetch_pack (plain_env skewed_merge) {} 20 State.init
    [{ name := "refs/heads/main", old_sha1 := 9 }] ["refs/heads/main"] [.nak]

/-- The refs a want is sent for: those whose advertised object is not found
flagged `COMPLETE`. -/
def wanted (st : State) (refs : List Ref) : List Ref :=
  refs.filter fun ref => !is_complete st.w ref.old_sha1

/-- The capability tokens as the specification lists them, "chosen from the
enabled set", in order. -/
def capability_tokens (args : Args) (st : State) : List String :=
  (if st.multi_ack then ["multi_ack"] else [])
    ++ (if st.use_sideband = 2 then ["side-band-64k"] else [])
    ++ (if st.use_sideband = 1 then ["side-band"] else [])
    ++ (if args.use_thin_pack then ["thin-pack"] else [])
    ++ (if args.no_progress then ["no-progress"] else [])
    ++ (if args.include_tag then ["include-tag"] else [])
    ++ (if st.prefer_ofs_delta then ["ofs-delta"] else [])

/-- The ref list a session returns; empty when it does not return. -/
def session_refs : Run Fetched → List Ref
  | .ok f => f.refs
  | _ => []

/-- A state for the capability example: `multi_ack` on, no side band,
`prefer_ofs_delta` left at its initial value 1. -/
def multi_ack_state : State := { State.init with multi_ack := true }

/-- The surroundings of an up-to-date fetch: the chain of three commits, and
the array `local` of `everything_local` holding the value 77. -/
def uptodate_env : Env := { plain_env chain3 with local_ := 77 }

/-- What `everything_local` returns when the server advertises the tip of the
chain and the user asks for it. -/
def uptodate_local : Local :=
  match everything_local uptodate_env.repo uptodate_env.check_ref_format {} uptodate_env.local_
      20 (set_capabilities uptodate_env State.init)
      [{ name := "refs/heads/main", old_sha1 := 3 }] ["refs/heads/main"] with
  | .ok l => l
  | _ => { ret := false, refs := [], pats := [], st := State.init }

/-- The up-to-date session: the server advertises `refs/heads/main` at commit
3, which is the local tip. -/
def uptodate_session : Run Fetched :=
  fetch_pack uptodate_env {} 20 State.init
    [{ name := "refs/heads/main", old_sha1 := 3 }] ["refs/heads/main"] []

/-- A step that leaves the queue alone and forgets no parse. -/
def Kept (s s1 : Walk) : Prop :=
  s1.rev_list = s.rev_list ∧ ∀ o, s.parsed o = true → s1.parsed o = true

/-- The session on the chain of three commits: the server advertises
`refs/heads/main` at an unknown commit 9 and answers the negotiation with a
single NAK. -/
def chain3_session : Run Fetched :=
  fetch_pack (plain_env chain3) {} 20 State.init
    [{ name := "refs/heads/main", old_sha1 := 9 }] ["refs/heads/main"] [.nak]

/-- The input sequence with every later repeat of a string removed, as the
comment above `remove_duplicates` describes the result. -/
def without_later_repeats : List String → List String
  | [] => []
  | x :: xs => x :: (without_later_repeats xs).filter (fun y => y ≠ x)

/-- A repository whose only ref is a tag: the tag object 10 points at object
11, which is not a commit. -/
def tag_only : Repo :=
  { objects := [(10, .tag (some 11)), (11, .other)], refs := [("refs/tags/v1", 10)] }

/-- What `everything_local` returns and the list it leaves when the server
advertises `refs/tags/v1` at the tag object 10 of `tag_only` and the user asks
for it. -/
def tag_only_local : Option (Bool × List Ref) :=
  match everything_local tag_only (fun _ => false) {} 0 10 State.init
      [{ name := "refs/tags/v1", old_sha1 := 10 }] ["refs/tags/v1"] with
  | .ok l => some (l.ret, l.refs)
  | _ => none

/-- The first session of a process that clones into an empty repository: the
server advertises `refs/heads/main` at commit 3 and answers `done` with NAK. -/
def clone_session : Run Fetched :=
  fetch_pack (plain_env { objects := [], refs := [] }) {} 20 State.init
    [{ name := "refs/heads/main", old_sha1 := 3 }] ["refs/heads/main"] [.nak]

/-- The file-scope state the first session leaves to a later one. -/
def later_state : State :=
  match clone_session with
  | .ok f => f.st
  | _ => State.init

/-- What the server advertises to the later session: the tip of the chain,
which is by now the local `refs/heads/main`, and a commit 9 that is not here. -/
def later_refs : List Ref :=
  [{ name := "refs/heads/main", old_sha1 := 3 }, { name := "refs/heads/new", old_sha1 := 9 }]

/-- What `everything_local` returns in the later session, run as
`do_fetch_pack` runs it. -/
def later_local : Local :=
  match everything_local chain3 (plain_env chain3).check_ref_format {} 0 20
      (set_capabilities (plain_env chain3) (fetch_pack_setup (plain_env chain3) later_state))
      later_refs ["refs/heads/main", "refs/heads/new"] with
  | .ok l => l
  | _ => { ret := true, refs := [], pats := [], st := State.init }

/-- The flags of commits 3 and 2 after the first lines of `find_common` in
the later session. -/
def later_cleared : Option (Nat × Nat) :=
  (find_common_setup chain3 20 later_local.st).map (fun st => (st.w.flags 3, st.w.flags 2))
/-- The number of `rev_list` entries whose commit has `SEEN` set, `COMMON`
unset and `POPPED` unset: what `non_common_revs` is meant to count. -/
def counted (s : Walk) : Int :=
  ((s.rev_list.filter (fun c =>
    decide (s.flags c &&& SEEN ≠ 0) && decide (s.flags c &&& COMMON = 0)
      && decide (s.flags c &&& POPPED = 0))).length : Nat)

/-- A repository with a hole: commit 1 is the only local ref, its parent 2
cannot be read. -/
def orphaned : Repo :=
  { objects := [(1, .commit 5 [2])], refs := [("refs/heads/main", 1)] }

/-- The walk on `orphaned` after `rev_list_push(1, SEEN)` and one `get_rev`:
what `get_rev` returned and the state. -/
def orphaned_popped : Option (Option Oid × Walk) :=
  get_rev orphaned 5 (rev_list_push orphaned Walk.init 1 SEEN)

/-- The state after `mark_common(1, 0, 1)` next, as for "ACK 1 continue". -/
def orphaned_marked : Option Walk :=
  orphaned_popped.bind (fun p => mark_common orphaned 5 p.2 (some 1) false true)

/-- The walk on `skewed` after `rev_list_push(1, SEEN)` and one `get_rev`. -/
def skewed_popped : Option (Option Oid × Walk) :=
  get_rev skewed 5 (rev_list_push skewed Walk.init 1 SEEN)

/-- The number of ACK lines read, final or continuing. -/
def acks_read : List Ev → Nat
  | [] => 0
  | .recv (.ack _) :: t => acks_read t + 1
  | .recv (.ack_continue _) :: t => acks_read t + 1
  | _ :: t => acks_read t

/-- What the locals `count` and `retval` of `find_common` say about the
conversation: `count` is the number of have lines, `retval` is 0 if an ACK has
been read and -1 if not. -/
def Verdict (n : Neg) : Prop :=
  n.count = (haves n.trace).length
  ∧ (n.retval = 0 ∨ n.retval = -1)
  ∧ (n.retval = 0 ↔ acks_read n.trace ≠ 0)

/-- By how much the counter `flushes` exceeds the flush packets written minus
the NAK lines read. -/
def Neg.surplus (n : Neg) : Int :=
  n.flushes - ((flushes_sent n.trace : Int) - naks_read n.trace)

/-- How one turn of the have loop ends. -/
inductive Turn where
  /-- back to the loop condition with these locals -/
  | next (n : Neg)
  /-- the loop is left -/
  | leave (e : Exit) (n : Neg)
  | die (msg : String) (trace : List Ev)
  | out_of_fuel

/-- One turn of the have loop, lines 246-290: the call of `get_rev` in the
loop condition and the body. -/
def have_turn (r : Repo) (fuel : Nat) (n : Neg) : Turn :=
  match get_rev r fuel n.w with
  | none => .out_of_fuel
  | some (none, w1) => .leave .walk_done { n with w := w1 }
  | some (some sha1, w1) =>
    let n1 : Neg :=
      { n with w := w1, trace := n.trace ++ [.send (.have sha1)],
               in_vain := n.in_vain + 1, count := n.count + 1 }
    if n1.count &&& 31 = 0 then
      let n2 : Neg :=
        { n1 with trace := n1.trace ++ [.send .flush], flushes := n1.flushes + 1 }
      if n2.count = 32 then .next n2
      else
        match poll_acks r fuel n2.inp n2 with
        | .final n3 => .leave .final_ack n3
        | .die n3 => .die "expected ACK/NAK" n3.trace
        | .out_of_fuel => .out_of_fuel
        | .nak n3 =>
          let n4 : Neg := { n3 with flushes := n3.flushes - 1 }
          if n4.got_continue && decide (MAX_IN_VAIN < n4.in_vain) then
            .leave .give_up n4
          else .next n4
    else .next n1

/-- The have loop, turn by turn. -/
def have_turns (r : Repo) (fuel : Nat) (n : Neg) : Run (Exit × Neg) :=
  match have_turn r fuel n with
  | .next n1 => have_loop r fuel n1
  | .leave e n1 => .ok (e, n1)
  | .die msg t => .die msg t
  | .out_of_fuel => .out_of_fuel
/-- What `find_common` leaves on the chain of three commits when the server
advertises an unknown commit 9 and answers with a single NAK. -/
def chain3_found : Found :=
  match find_common chain3 {} 20 State.init [{ name := "refs/heads/main", old_sha1 := 9 }]
      [.nak] with
  | .ok f => f
  | _ => { ret := 1, st := State.init, inp := [], trace := [] }
/-- How the have loop ends on a chain of 65 commits when the server answers
the first poll with a final ACK: the way out, `flushes`, the flush packets
written in the loop and the NAK lines read. -/
def chain65_acked : Option (Exit × Int × Nat × Nat) :=
  match have_loop (chain 65) 70
      (Neg.start (rev_list_push (chain 65) Walk.init 65 SEEN) false [.ack 1]) with
  | .ok (e, n) => some (e, n.flushes, flushes_sent n.trace, naks_read n.trace)
  | _ => none

/-- The test of line 369: the name starts with `refs/` and
`check_ref_format` rejects what follows. -/
def malformed (check_ref_format : String → Bool) (ref : Ref) : Bool :=
  starts_with ref.name "refs/" && check_ref_format (String.mk (ref.name.data.drop 5))

/-- The ref's name matches the pattern, as one turn of `path_match` tests it. -/
def ref_matches (ref : Ref) (pat : String) : Bool :=
  path_match_one ref.name.data pat.data

/-- The test of lines 372-374 once `fetch_all` is set: the ref is kept without
a look at the patterns. -/
def kept_by_all (check_ref_format : String → Bool) (args : Args) (ref : Ref) : Bool :=
  !malformed check_ref_format ref
    && (decide (args.depth = 0) || !starts_with ref.name "refs/tags/")

/-- What holds of `return_refs` (`arr`) and of the array `match` (`pats`)
after the first loop of `filter_refs` has gone through the refs `seen`, when
`fetch_all` is not set and the patterns were `pats0`. -/
structure Assigned (check_ref_format : String → Bool) (pats0 : List String)
    (seen : List Ref) (arr : List (Option Ref)) (pats : List String) : Prop where
  len_arr : arr.length = pats0.length
  len_pats : pats.length = pats0.length
  /-- a slot that is still empty has its pattern untouched -/
  free : ∀ i : Nat, arr[i]? = some none → pats[i]? = pats0[i]?
  /-- a pattern that gave a ref is consumed -/
  used : ∀ (i : Nat) (ref : Ref), arr[i]? = some (some ref) → pats[i]? = some ""
  /-- the ref in slot `i` is well-formed and matches pattern `i` -/
  sound : ∀ (i : Nat) (ref : Ref), arr[i]? = some (some ref) →
    malformed check_ref_format ref = false ∧ ∃ p, pats0[i]? = some p ∧ ref_matches ref p = true
  /-- it matches no earlier pattern that is still unused -/
  stable : ∀ (i : Nat) (ref : Ref), arr[i]? = some (some ref) →
    ∀ (j : Nat) (p : String), j < i → arr[j]? = some none → pats0[j]? = some p → ref_matches ref p = false
  /-- it is the first ref matching pattern `i` that no earlier pattern took -/
  first : ∀ (i : Nat) (ref : Ref), arr[i]? = some (some ref) →
    ∃ pre post, seen = pre ++ ref :: post ∧
      ∀ other ∈ pre, malformed check_ref_format other = false →
        ∀ p, pats0[i]? = some p → ref_matches other p = true →
          ∃ j : Nat, j < i ∧ arr[j]? = some (some other)
  /-- a ref gone through that matches pattern `i` filled slot `i` or an
  earlier slot, or found slot `i` filled -/
  taken : ∀ other ∈ seen, malformed check_ref_format other = false →
    ∀ (i : Nat) (p : String), pats0[i]? = some p → ref_matches other p = true →
      (∃ ref, arr[i]? = some (some ref)) ∨ ∃ j : Nat, j < i ∧ arr[j]? = some (some other)
/-- Three advertised refs, two of which end in `main`. -/
def advertised3 : List Ref :=
  [{ name := "refs/heads/main", old_sha1 := 1 },
   { name := "refs/remotes/origin/main", old_sha1 := 2 },
   { name := "refs/heads/dev", old_sha1 := 3 }]

/-- A step that sets flags and parses, but clears no flag and sets `POPPED`
nowhere. -/
structure FlagsGrow (s s1 : Walk) : Prop where
  flags : ∀ (o : Oid) (k : Nat), s.flags o &&& k ≠ 0 → s1.flags o &&& k ≠ 0
  popped : ∀ o : Oid, s1.flags o &&& POPPED = s.flags o &&& POPPED
  parsed : ∀ o : Oid, s.parsed o = true → s1.parsed o = true

/-- What the walker keeps true of its queue: a queued commit is `SEEN`, a
`POPPED` commit is `SEEN`, and a `POPPED` commit is parsed unless it cannot be
read as a commit. -/
structure WalkSound (r : Repo) (s : Walk) : Prop where
  queued : ∀ c ∈ s.rev_list, s.flags c &&& SEEN ≠ 0
  popped : ∀ c : Oid, s.flags c &&& POPPED ≠ 0 → s.flags c &&& SEEN ≠ 0
  parsed : ∀ c : Oid, s.flags c &&& POPPED ≠ 0 → s.parsed c = true ∨ r.parents c = []

/-- The `COMMON` flag has come to the commit `p` or has gone past it: `p` is
`COMMON`, or `p` is `SEEN`, so that `mark_common(p, 1, 0)` flagged only its
ancestors, and every parent of `p` is `COMMON`. -/
def Spread (r : Repo) (s : Walk) (p : Oid) : Prop :=
  s.flags p &&& COMMON ≠ 0
  ∨ (s.flags p &&& SEEN ≠ 0 ∧ ∀ q ∈ r.parents p, s.flags q &&& COMMON ≠ 0)

/-- How far the `COMMON` flag has spread: outside the set `X` of commits that
are being worked on, the flag has come to or gone past every parent of a commit
that is `COMMON` and `POPPED`. -/
def CommonDown (r : Repo) (X : Oid → Prop) (s : Walk) : Prop :=
  ∀ c : Oid, ¬ X c → s.flags c &&& COMMON ≠ 0 → s.flags c &&& POPPED ≠ 0 →
    ∀ p ∈ r.parents c, Spread r s p

/-- A step of the walker that keeps what `WalkSound` and `CommonDown` say. -/
structure SoundStep (r : Repo) (s s1 : Walk) : Prop where
  grow : FlagsGrow s s1
  walk : WalkSound r s1
  down : ∀ X : Oid → Prop, CommonDown r X s → CommonDown r X s1

/-- The states of the walk that a first session can reach: from the empty walk
by `rev_list_push` with the marks `rev_list_insert_ref` and `everything_local`
pass, by `mark_common`, by `get_rev`, and by steps aside that load and parse
objects or set `COMPLETE` and leave the queue and the flags `COMMON` and
`POPPED` as they are. -/
inductive Reached (r : Repo) : Walk → Prop where
  | init : Reached r Walk.init
  | push (s : Walk) (c : Oid) (mark : Nat) :
      Reached r s → (mark = SEEN ∨ mark = COMMON_REF ||| SEEN) →
      Reached r (rev_list_push r s c mark)
  | mark (s : Walk) (fuel : Nat) (commit : Option Oid) (ancestors_only dont_parse : Bool)
      (s1 : Walk) :
      Reached r s → mark_common r fuel s commit ancestors_only dont_parse = some s1 →
      Reached r s1
  | rev (s : Walk) (fuel : Nat) (res : Option Oid) (s1 : Walk) :
      Reached r s → get_rev r fuel s = some (res, s1) → Reached r s1
  | aside (s s1 : Walk) :
      Reached r s → FlagsGrow s s1 → s1.rev_list = s.rev_list →
      (∀ o : Oid, s1.flags o &&& COMMON = s.flags o &&& COMMON) → Reached r s1

/-- The ancestors of `c` that the `COMMON` flag can have come to: those at the
end of a chain of parent links from `c` on which every commit that is `COMMON`
has been `POPPED`.  A commit on the chain that is not `COMMON` lets the chain
through, a `COMMON` commit that `get_rev` has not popped yet ends it. -/
inductive CommonPath (r : Repo) (s : Walk) (c : Oid) : Oid → Prop where
  | here : CommonPath r s c c
  | step (a p : Oid) :
      CommonPath r s c a → (s.flags a &&& COMMON ≠ 0 → s.flags a &&& POPPED ≠ 0) →
      p ∈ r.parents a → CommonPath r s c p

/-- A chain of four commits with local refs at the tip and at commit 2. -/
def chain4 : Repo :=
  { objects := [(1, .commit 1 []), (2, .commit 2 [1]), (3, .commit 3 [2]),
                (4, .commit 4 [3])],
    refs := [("refs/heads/main", 4), ("refs/heads/old", 2)] }

/-- The walk on the chain of four commits after `everything_local` has found
the advertised tip 4 complete, `rev_list_push(4, COMMON_REF | SEEN)` and
`mark_common(4, 1, 1)`, and `rev_list_insert_ref` has pushed the other ref,
`rev_list_push(2, SEEN)`. -/
def chain4_walk : Walk :=
  rev_list_push chain4
    ((mark_common chain4 6 (rev_list_push chain4 Walk.init 4 (COMMON_REF ||| SEEN)) (some 4)
      true true).getD Walk.init) 2 SEEN

/-- The first `get_rev` on `chain4_walk`: what it returned and the state. -/
def chain4_first : Option Oid × Walk :=
  (get_rev chain4 6 chain4_walk).getD (none, chain4_walk)

/-- The second `get_rev` on `chain4_walk`: what it returned and the state. -/
def chain4_second : Option Oid × Walk :=
  (get_rev chain4 6 chain4_first.2).getD (none, chain4_first.2)

/-- The walk on the chain of three commits after `rev_list_push(3, SEEN)` and
one `get_rev`: what `get_rev` returned and the state. -/
def chain3_popped : Option Oid × Walk :=
  (get_rev chain3 5 chain3_walk).getD (none, chain3_walk)

/-- The walk on the chain of three commits after `everything_local` has found
the advertised tip 3 complete: `rev_list_push(3, COMMON_REF | SEEN)` and
`mark_common(3, 1, 1)`. -/
def chain3_common_ref : Option Walk :=
  mark_common chain3 5 (rev_list_push chain3 Walk.init 3 (COMMON_REF ||| SEEN)) (some 3)
    true true

/-- The chain of three commits with a second local ref at the oldest commit. -/
def chain3_two_refs : Repo :=
  { chain3 with refs := [("refs/heads/main", 3), ("refs/heads/old", 1)] }

/-- The flags of commits 2 and 1 and the have lines at the end of a first
session on `chain3_two_refs`: the server advertises the local tip 3 and an
unknown commit 9, and answers with NAK. -/
def chain3_two_refs_end : Option (Nat × Nat × List Oid) :=
  match fetch_pack (plain_env chain3_two_refs) {} 20 State.init later_refs
      ["refs/heads/main", "refs/heads/new"] [.nak] with
  | .ok f => some (f.st.w.flags 2, f.st.w.flags 1, haves f.trace)
  | _ => none

/-- The number of names in `V` whose object does not carry `SEEN`. -/
def unseen (V : List Oid) (s : Walk) : Nat :=
  (V.filter (fun o => decide (s.flags o &&& SEEN = 0))).length

/-- What is left for `get_rev` to do: the entries of the queue plus the
objects of `V` that may still be queued. -/
def pending (V : List Oid) (s : Walk) : Nat :=
  s.rev_list.length + unseen V s

/-- Every name that is recorded as a parent in the repository. -/
def parents_of (r : Repo) : List Oid :=
  r.objects.flatMap fun e =>
    match e.2 with
    | .commit _ ps => ps
    | _ => []

/-- The names the server acknowledges with "continue" in the lines to come. -/
def acked : List Line → List Oid
  | [] => []
  | .ack_continue sha1 :: rest => sha1 :: acked rest
  | _ :: rest => acked rest

/-- A step of the walker that does not add to what is left to do: `SEEN` is
not cleared, the queue does not shrink and `pending` does not grow. -/
structure Settles (V : List Oid) (s s1 : Walk) : Prop where
  seen : ∀ o : Oid, s.flags o &&& SEEN ≠ 0 → s1.flags o &&& SEEN ≠ 0
  longer : s.rev_list.length ≤ s1.rev_list.length
  less : pending V s1 ≤ pending V s
/-- The have loop on the chain of three commits with a server that says
"ACK 2 continue" and NAK: how it is left and the have lines written. -/
def chain3_loop_end : Option (Exit × List Oid) :=
  match have_loop chain3 6 (Neg.start chain3_walk true [.ack_continue 2, .nak]) with
  | .ok (e, n) => some (e, haves n.trace)
  | _ => none

/-! # Theorems -/

theorem haves_append (a b : List Ev) : haves (a ++ b) = haves a ++ haves b := by
  induction a with
  | nil => rfl
  | cons e t ih =>
    cases e with
    | send p => cases p <;> simp [haves, ih]
    | recv l => simp [haves, ih]

theorem flushes_sent_append (a b : List Ev) :
    flushes_sent (a ++ b) = flushes_sent a + flushes_sent b := by
  induction a with
  | nil => simp [flushes_sent]
  | cons e t ih =>
    cases e with
    | send p =>
      cases p
      case flush =>
        show flushes_sent (t ++ b) + 1 = flushes_sent t + 1 + flushes_sent b
        rw [ih]; omega
      all_goals simp [flushes_sent, ih]
    | recv l => simp [flushes_sent, ih]

theorem naks_read_append (a b : List Ev) :
    naks_read (a ++ b) = naks_read a + naks_read b := by
  induction a with
  | nil => simp [naks_read]
  | cons e t ih =>
    cases e with
    | send p => simp [naks_read, ih]
    | recv l =>
      cases l
      case nak =>
        show naks_read (t ++ b) + 1 = naks_read t + 1 + naks_read b
        rw [ih]; omega
      all_goals simp [naks_read, ih]

/-- When `get_rev` returns `NULL` the queue is empty or nothing non-common is
left in it. -/
theorem get_rev_none (r : Repo) :
    ∀ (fuel : Nat) (s s1 : Walk), get_rev r fuel s = some (none, s1) →
      s1.rev_list = [] ∨ s1.non_common_revs = 0 := by
  intro fuel
  induction fuel with
  | zero => intro s s1 h; simp [get_rev] at h
  | succ k ih =>
    intro s s1 h
    simp only [get_rev] at h
    split at h
    · next hl => simp at h; subst h; exact Or.inl hl
    · next c rest hl =>
      split at h
      · next h0 => simp at h; subst h; exact Or.inr h0
      · split at h
        · simp at h
        · split at h
          · simp at h
          · exact ih _ _ h

/-- Once `get_rev` has returned `NULL`, it does so again without touching the
walk. -/
theorem get_rev_none_again (r : Repo) (fuel : Nat) (s : Walk)
    (h : s.rev_list = [] ∨ s.non_common_revs = 0) :
    get_rev r (fuel + 1) s = some (none, s) := by
  unfold get_rev
  split
  · rfl
  · rcases h with h | h
    · simp_all
    · simp [h]

/-- A poll round that ends with a final ACK has just read it, and has reset
`flushes`, `multi_ack` and `retval`. -/
theorem poll_acks_final (r : Repo) (fuel : Nat) :
    ∀ (inp : List Line) (n n3 : Neg), poll_acks r fuel inp n = .final n3 →
      (∃ sha1, n3.trace.getLast? = some (.recv (.ack sha1))) ∧ n3.flushes = 0
        ∧ n3.retval = 0 ∧ n3.multi_ack = false := by
  intro inp
  induction inp with
  | nil => intro n n3 h; simp [poll_acks] at h
  | cons l rest ih =>
    intro n n3 h
    cases l <;> simp only [poll_acks, get_ack] at h
    case ack sha1 =>
      injection h with h
      subst h
      exact ⟨⟨sha1, by simp⟩, rfl, rfl, rfl⟩
    case ack_continue sha1 =>
      split at h
      · cases h
      · exact ih _ _ h
    all_goals cases h

/-- A poll round that ends with a NAK has just read it and leaves `count` and
`flushes` alone. -/
theorem poll_acks_nak (r : Repo) (fuel : Nat) :
    ∀ (inp : List Line) (n n3 : Neg), poll_acks r fuel inp n = .nak n3 →
      n3.trace.getLast? = some (.recv .nak) ∧ n3.count = n.count ∧ n3.flushes = n.flushes := by
  intro inp
  induction inp with
  | nil => intro n n3 h; simp [poll_acks] at h
  | cons l rest ih =>
    intro n n3 h
    cases l <;> simp only [poll_acks, get_ack] at h
    case nak =>
      injection h with h
      subst h
      exact ⟨by simp, rfl, rfl⟩
    case ack_continue sha1 =>
      split at h
      · cases h
      · obtain ⟨a, b, c⟩ := ih _ _ h
        exact ⟨a, b, c⟩
    all_goals cases h

/-- The three ways out of the have loop. -/
theorem have_loop_exit (r : Repo) :
    ∀ (fuel : Nat) (n : Neg) (e : Exit) (n1 : Neg), have_loop r fuel n = .ok (e, n1) →
      (e = .final_ack ∧ ∃ sha1, n1.trace.getLast? = some (.recv (.ack sha1)))
      ∨ (e = .walk_done ∧ (n1.w.rev_list = [] ∨ n1.w.non_common_revs = 0))
      ∨ (e = .give_up ∧ n1.got_continue = true ∧ MAX_IN_VAIN < n1.in_vain
          ∧ n1.trace.getLast? = some (.recv .nak)) := by
  intro fuel
  induction fuel with
  | zero => intro n e n1 h; simp [have_loop] at h
  | succ k ih =>
    intro n e n1 h
    simp only [have_loop] at h
    split at h
    · cases h
    · next w1 hg =>
      injection h with h
      injection h with h1 h2
      subst h1 h2
      exact Or.inr (Or.inl ⟨rfl, get_rev_none r k _ _ hg⟩)
    · next sha1 w1 hg =>
      split at h
      · split at h
        · exact ih _ _ _ h
        · split at h
          · next n3 hp =>
            injection h with h
            injection h with h1 h2
            subst h1 h2
            exact Or.inl ⟨rfl, (poll_acks_final r k _ _ _ hp).1⟩
          · cases h
          · cases h
          · next n3 hp =>
            split at h
            · next hc =>
              injection h with h
              injection h with h1 h2
              subst h1 h2
              simp only [Bool.and_eq_true, decide_eq_true_eq] at hc
              exact Or.inr (Or.inr ⟨rfl, hc.1, hc.2, (poll_acks_nak r k _ _ _ hp).1⟩)
            · exact ih _ _ _ h
      · exact ih _ _ _ h

/-- With no ACK among the lines to come, a poll round that ends normally has
read one NAK and has not touched the walk. -/
theorem poll_acks_quiet (r : Repo) (fuel : Nat) (inp : List Line) (n : Neg)
    (hs : ∀ sha1, Line.ack sha1 ∉ inp ∧ Line.ack_continue sha1 ∉ inp) :
    (∀ n3, poll_acks r fuel inp n ≠ .final n3) ∧
    (∀ n3, poll_acks r fuel inp n = .nak n3 →
      n3.w = n.w ∧ n3.got_continue = n.got_continue ∧ haves n3.trace = haves n.trace
        ∧ (∀ sha1, Line.ack sha1 ∉ n3.inp ∧ Line.ack_continue sha1 ∉ n3.inp)) := by
  cases inp with
  | nil => simp [poll_acks]
  | cons l rest =>
    cases l <;> simp only [poll_acks, get_ack]
    case nak =>
      refine ⟨by simp, ?_⟩
      intro n3 h
      injection h with h
      subst h
      refine ⟨rfl, rfl, by simp [haves_append, haves], ?_⟩
      intro sha1
      have := hs sha1
      simp only [List.mem_cons, not_or] at this
      exact ⟨this.1.2, this.2.2⟩
    case ack sha1 => exact absurd (List.mem_cons_self _ _) (hs sha1).1
    case ack_continue sha1 => exact absurd (List.mem_cons_self _ _) (hs sha1).2
    all_goals exact ⟨fun _ h => (by cases h), fun _ h => (by cases h)⟩

/-- With no ACK among the lines to come and none seen so far, the have loop
announces every commit of the walk. -/
theorem have_loop_quiet (r : Repo) :
    ∀ (fuel : Nat) (n : Neg) (e : Exit) (n1 : Neg),
      (∀ sha1, Line.ack sha1 ∉ n.inp ∧ Line.ack_continue sha1 ∉ n.inp) →
      n.got_continue = false →
      have_loop r fuel n = .ok (e, n1) →
      e = .walk_done ∧ ∃ revs, walk_all r fuel n.w = some revs
        ∧ haves n1.trace = haves n.trace ++ revs := by
  intro fuel
  induction fuel with
  | zero => intro n e n1 _ _ h; simp [have_loop] at h
  | succ k ih =>
    intro n e n1 hs hg h
    simp only [have_loop] at h
    simp only [walk_all]
    split at h
    · cases h
    · next w1 hr =>
      injection h with h
      injection h with h1 h2
      subst h1 h2
      simp [hr]
    · next sha1 w1 hr =>
      split at h
      · split at h
        · obtain ⟨he, revs, hw, hh⟩ := (fun a b => ih _ e n1 a b h) hs hg
          refine ⟨he, sha1 :: revs, by simp [hw, hr], ?_⟩
          rw [hh]
          simp [haves_append, haves]
        · split at h
          · next n3 hp => exact absurd hp ((poll_acks_quiet r k _ _ hs).1 n3)
          · cases h
          · cases h
          · next n3 hp =>
            obtain ⟨hw3, hg3, hh3, hs3⟩ := (poll_acks_quiet r k _ _ hs).2 n3 hp
            simp only at hw3 hg3 hh3
            split at h
            · next hc => simp [hg3, hg] at hc
            · obtain ⟨he, revs, hw, hh⟩ := (fun a b => ih _ e n1 a b h) hs3 (by simp [hg3, hg])
              simp only [hw3] at hw
              refine ⟨he, sha1 :: revs, by simp [hw, hr], ?_⟩
              rw [hh]
              simp only [hh3]
              simp [haves_append, haves]
      · obtain ⟨he, revs, hw, hh⟩ := (fun a b => ih _ e n1 a b h) hs hg
        refine ⟨he, sha1 :: revs, by simp [hw, hr], ?_⟩
        rw [hh]
        simp [haves_append, haves]

/-- C1: the have loop of `find_common` is left only (a) after a final ACK has
been read, (b) when `get_rev` has returned no commit, or (c) at the end of a
poll round with `got_continue` set and `in_vain` above 256.  If the server
sends neither a continuing nor a final ACK, the loop is not cut short: the have
lines written are the commits `get_rev` yields until it returns none. -/
theorem have_loop_leaves (r : Repo) (fuel : Nat) (w : Walk) (multi_ack : Bool)
    (inp : List Line) (e : Exit) (n : Neg)
    (h : have_loop r fuel (Neg.start w multi_ack inp) = .ok (e, n)) :
    ((e = .final_ack ∧ ∃ sha1, n.trace.getLast? = some (.recv (.ack sha1)))
      ∨ (e = .walk_done ∧ get_rev r fuel n.w = some (none, n.w))
      ∨ (e = .give_up ∧ n.got_continue = true ∧ 256 < n.in_vain
          ∧ n.trace.getLast? = some (.recv .nak)))
    ∧ ((∀ sha1, Line.ack sha1 ∉ inp ∧ Line.ack_continue sha1 ∉ inp) →
        e = .walk_done ∧ walk_all r fuel w = some (haves n.trace)) := by
  constructor
  · rcases have_loop_exit r fuel _ e n h with h1 | h1 | h1
    · exact Or.inl h1
    · refine Or.inr (Or.inl ⟨h1.1, ?_⟩)
      cases fuel with
      | zero => simp [have_loop] at h
      | succ k => exact get_rev_none_again r k n.w h1.2
    · exact Or.inr (Or.inr h1)
  · intro hs
    obtain ⟨he, revs, hw, hh⟩ := have_loop_quiet r fuel _ e n hs rfl h
    refine ⟨he, ?_⟩
    rw [hh]
    simpa [Neg.start, haves] using hw

theorem have_loop_leaves_witness :
    have_loop chain3 5 (Neg.start chain3_walk false [.nak]) = .ok (chain3_out.1, chain3_out.2)
    ∧ haves chain3_out.2.trace = [3, 2, 1]
    ∧ ((chain3_out.1 = .final_ack ∧ ∃ sha1, chain3_out.2.trace.getLast? = some (.recv (.ack sha1)))
      ∨ (chain3_out.1 = .walk_done ∧ get_rev chain3 5 chain3_out.2.w = some (none, chain3_out.2.w))
      ∨ (chain3_out.1 = .give_up ∧ chain3_out.2.got_continue = true ∧ 256 < chain3_out.2.in_vain
          ∧ chain3_out.2.trace.getLast? = some (.recv .nak)))
    ∧ ((∀ sha1, Line.ack sha1 ∉ [Line.nak] ∧ Line.ack_continue sha1 ∉ [Line.nak]) →
        chain3_out.1 = .walk_done ∧ walk_all chain3 5 chain3_walk = some (haves chain3_out.2.trace)) :=
  ⟨rfl, by decide, have_loop_leaves chain3 5 chain3_walk false [.nak] chain3_out.1 chain3_out.2 rfl⟩

theorem windowed_nil : Windowed [] := by
  constructor
  · intro i o h; simp at h
  · intro i l h; simp at h

/-- Reading a line keeps the discipline once 64 haves and two flushes are out. -/
theorem windowed_recv (t : List Ev) (l : Line) (hw : Windowed t)
    (h1 : 64 ≤ (haves t).length) (h2 : 2 ≤ flushes_sent t) :
    Windowed (t ++ [.recv l]) := by
  obtain ⟨ha, hb⟩ := hw
  constructor
  · intro i o hi
    by_cases hlt : i < t.length
    · rw [List.getElem?_append_left hlt] at hi
      rw [List.take_append_of_le_length (Nat.le_of_lt hlt)]
      obtain ⟨p, q⟩ := ha i o hi
      refine ⟨?_, q⟩
      rw [← p]
      by_cases hlt2 : i + 1 < t.length
      · rw [List.getElem?_append_left hlt2]
      · have : t[i + 1]? = none := by simp; omega
        rw [this, List.getElem?_append_right (by omega)]
        have : i + 1 - t.length = 0 := by omega
        simp [this]
    · rw [List.getElem?_append_right (by omega)] at hi
      by_cases h0 : i - t.length = 0
      · simp [h0] at hi
      · have : ([Ev.recv l])[i - t.length]? = none := by simp; omega
        rw [this] at hi
        cases hi
  · intro i l1 hi
    by_cases hlt : i < t.length
    · rw [List.getElem?_append_left hlt] at hi
      rw [List.take_append_of_le_length (Nat.le_of_lt hlt)]
      exact hb i l1 hi
    · by_cases h0 : i = t.length
      · subst h0
        simp [List.take_append_of_le_length, h1, h2]
      · rw [List.getElem?_append_right (by omega)] at hi
        have : ([Ev.recv l])[i - t.length]? = none := by simp; omega
        rw [this] at hi
        cases hi

/-- Writing a have whose number is no multiple of 32 keeps the discipline. -/
theorem windowed_have (t : List Ev) (o : Oid) (hw : Windowed t)
    (h1 : ((haves t).length + 1) % 32 ≠ 0)
    (h2 : (flushes_sent t : Int) - naks_read t = if (haves t).length < 32 then 0 else 1) :
    Windowed (t ++ [.send (.have o)]) := by
  obtain ⟨ha, hb⟩ := hw
  constructor
  · intro i o1 hi
    by_cases hlt : i < t.length
    · rw [List.getElem?_append_left hlt] at hi
      rw [List.take_append_of_le_length (Nat.le_of_lt hlt)]
      obtain ⟨p, q⟩ := ha i o1 hi
      refine ⟨?_, q⟩
      rw [← p]
      by_cases hlt2 : i + 1 < t.length
      · rw [List.getElem?_append_left hlt2]
      · have : t[i + 1]? = none := by simp; omega
        rw [this, List.getElem?_append_right (by omega)]
        have : i + 1 - t.length = 0 := by omega
        simp [this]
    · by_cases h0 : i = t.length
      · subst h0
        simp only [List.take_append_of_le_length (Nat.le_refl _), List.take_length]
        refine ⟨?_, h2⟩
        have : (t ++ [Ev.send (Pkt.have o)])[t.length + 1]? = none := by simp
        rw [this]
        simp [h1]
      · rw [List.getElem?_append_right (by omega)] at hi
        have : ([Ev.send (Pkt.have o)])[i - t.length]? = none := by simp; omega
        rw [this] at hi
        cases hi
  · intro i l1 hi
    by_cases hlt : i < t.length
    · rw [List.getElem?_append_left hlt] at hi
      rw [List.take_append_of_le_length (Nat.le_of_lt hlt)]
      exact hb i l1 hi
    · rw [List.getElem?_append_right (by omega)] at hi
      by_cases h0 : i - t.length = 0
      · simp [h0] at hi
      · have : ([Ev.send (Pkt.have o)])[i - t.length]? = none := by simp; omega
        rw [this] at hi
        cases hi

/-- Writing a have whose number is a multiple of 32, and the flush after it,
keeps the discipline. -/
theorem windowed_have_flush (t : List Ev) (o : Oid) (hw : Windowed t)
    (h1 : ((haves t).length + 1) % 32 = 0)
    (h2 : (flushes_sent t : Int) - naks_read t = if (haves t).length < 32 then 0 else 1) :
    Windowed (t ++ [.send (.have o)] ++ [.send .flush]) := by
  obtain ⟨ha, hb⟩ := hw
  rw [List.append_assoc]
  constructor
  · intro i o1 hi
    by_cases hlt : i < t.length
    · rw [List.getElem?_append_left hlt] at hi
      rw [List.take_append_of_le_length (Nat.le_of_lt hlt)]
      obtain ⟨p, q⟩ := ha i o1 hi
      refine ⟨?_, q⟩
      rw [← p]
      by_cases hlt2 : i + 1 < t.length
      · rw [List.getElem?_append_left hlt2]
      · have : t[i + 1]? = none := by simp; omega
        rw [this, List.getElem?_append_right (by omega)]
        have : i + 1 - t.length = 0 := by omega
        simp [this]
    · by_cases h0 : i = t.length
      · subst h0
        simp only [List.take_append_of_le_length (Nat.le_refl _), List.take_length]
        refine ⟨?_, h2⟩
        rw [List.getElem?_append_right (by omega)]
        simp [h1]
      · rw [List.getElem?_append_right (by omega)] at hi
        by_cases h01 : i - t.length = 1
        · simp [h01] at hi
        · have : ([Ev.send (Pkt.have o)] ++ [Ev.send Pkt.flush])[i - t.length]? = none := by
            simp; omega
          rw [this] at hi
          cases hi
  · intro i l1 hi
    by_cases hlt : i < t.length
    · rw [List.getElem?_append_left hlt] at hi
      rw [List.take_append_of_le_length (Nat.le_of_lt hlt)]
      exact hb i l1 hi
    · rw [List.getElem?_append_right (by omega)] at hi
      by_cases h0 : i - t.length = 0
      · simp [h0] at hi
      · by_cases h01 : i - t.length = 1
        · simp [h01] at hi
        · have : ([Ev.send (Pkt.have o)] ++ [Ev.send Pkt.flush])[i - t.length]? = none := by
            simp; omega
          rw [this] at hi
          cases hi

/-- The masking of line 251 is a remainder. -/
theorem and_31 (x : Nat) : x &&& 31 = x % 32 :=
  Nat.and_pow_two_sub_one_eq_mod x 5

/-- A poll round keeps the discipline; when it ends with a NAK it has read
exactly one. -/
theorem poll_acks_window (r : Repo) (fuel : Nat) :
    ∀ (inp : List Line) (n : Neg), Windowed n.trace → 64 ≤ (haves n.trace).length →
      2 ≤ flushes_sent n.trace →
      (∀ n3, poll_acks r fuel inp n = .final n3 → Windowed n3.trace) ∧
      (∀ n3, poll_acks r fuel inp n = .die n3 → Windowed n3.trace) ∧
      (∀ n3, poll_acks r fuel inp n = .nak n3 →
        Windowed n3.trace ∧ haves n3.trace = haves n.trace
          ∧ flushes_sent n3.trace = flushes_sent n.trace
          ∧ naks_read n3.trace = naks_read n.trace + 1
          ∧ n3.count = n.count ∧ n3.flushes = n.flushes) := by
  intro inp
  induction inp with
  | nil =>
    intro n hw _ _
    refine ⟨?_, ?_, ?_⟩ <;> intro n3 h <;> simp only [poll_acks] at h
    · cases h
    · injection h with h; subst h; exact hw
    · cases h
  | cons l rest ih =>
    intro n hw h1 h2
    have hw1 : Windowed (n.trace ++ [.recv l]) := windowed_recv _ l hw h1 h2
    cases l
    case ack_continue sha1 =>
      simp only [poll_acks, get_ack]
      split
      · refine ⟨?_, ?_, ?_⟩ <;> intro n3 h <;> cases h
      · next w1 _ =>
        have key := ih
          { n with w := w1, retval := 0, in_vain := 0, got_continue := true, inp := rest,
                   trace := n.trace ++ [.recv (.ack_continue sha1)] }
          hw1 (by simpa [haves_append, haves] using h1)
          (by simpa [flushes_sent_append, flushes_sent] using h2)
        refine ⟨key.1, key.2.1, ?_⟩
        intro n3 h
        obtain ⟨a, b, c, d, e, f⟩ := key.2.2 n3 h
        refine ⟨a, ?_, ?_, ?_, e, f⟩
        · simpa [haves_append, haves] using b
        · simpa [flushes_sent_append, flushes_sent] using c
        · simpa [naks_read_append, naks_read] using d
    case nak =>
      simp only [poll_acks, get_ack]
      refine ⟨?_, ?_, ?_⟩ <;> intro n3 h
      · cases h
      · cases h
      · injection h with h
        subst h
        refine ⟨hw1, ?_, ?_, ?_, rfl, rfl⟩
        · simp [haves_append, haves]
        · simp [flushes_sent_append, flushes_sent]
        · simp [naks_read_append, naks_read]
    case ack sha1 =>
      simp only [poll_acks, get_ack]
      refine ⟨?_, ?_, ?_⟩ <;> intro n3 h
      · injection h with h; subst h; exact hw1
      · cases h
      · cases h
    all_goals
      simp only [poll_acks, get_ack]
      refine ⟨?_, ?_, ?_⟩ <;> intro n3 h
      · cases h
      · injection h with h; subst h; exact hw1
      · cases h

/-- The have loop keeps the windowing discipline, however it ends. -/
theorem have_loop_windowed (r : Repo) :
    ∀ (fuel : Nat) (n : Neg), LoopInv n →
      ∀ t, loop_trace (have_loop r fuel n) = some t → Windowed t := by
  intro fuel
  induction fuel with
  | zero => intro n _ t h; simp [have_loop, loop_trace] at h
  | succ k ih =>
    intro n hinv t h
    obtain ⟨hc, hf, hf2, hw⟩ := hinv
    simp only [have_loop] at h
    split at h
    · simp [loop_trace] at h
    · simp only [loop_trace, Option.some.injEq] at h
      subst h
      exact hw
    · next sha1 w1 _ =>
      split at h
      · next hm =>
        rw [and_31] at hm
        have hm1 : ((haves n.trace).length + 1) % 32 = 0 := by rw [← hc]; exact hm
        have hbal : (flushes_sent n.trace : Int) - naks_read n.trace
            = if (haves n.trace).length < 32 then 0 else 1 := by
          rw [← hc, ← hf, hf2]
        have hw2 := windowed_have_flush n.trace sha1 hw hm1 hbal
        split at h
        · next h32 =>
          refine ih _ ?_ t h
          refine ⟨?_, ?_, ?_, hw2⟩
          · simp [haves_append, haves, hc]
          · simp only [flushes_sent_append, naks_read_append, flushes_sent, naks_read, hf]
            push_cast
            ring
          · simp only
            have : n.count < 32 := by omega
            rw [hf2]
            simp [this, h32]
        · next h32 =>
          have h64 : 64 ≤ n.count + 1 := by omega
          have hpoll := poll_acks_window r k n.inp
            { n with w := w1, trace := n.trace ++ [.send (.have sha1)] ++ [.send .flush],
                     in_vain := n.in_vain + 1, count := n.count + 1,
                     flushes := n.flushes + 1 }
            hw2 (by simp [haves_append, haves, ← hc]; omega)
            (by
              simp only [flushes_sent_append, flushes_sent]
              have : ¬ n.count < 32 := by omega
              rw [hf2] at hf
              simp only [this, if_false] at hf
              omega)
          split at h
          · next n3 hp =>
            simp only [loop_trace, Option.some.injEq] at h
            subst h
            exact hpoll.1 n3 hp
          · next n3 hp =>
            simp only [loop_trace, Option.some.injEq] at h
            subst h
            exact hpoll.2.1 n3 hp
          · simp [loop_trace] at h
          · next n3 hp =>
            obtain ⟨a, b, c, d, e, f⟩ := hpoll.2.2 n3 hp
            simp only at b c d e f
            split at h
            · simp only [loop_trace, Option.some.injEq] at h
              subst h
              exact a
            · refine ih _ ?_ t h
              refine ⟨?_, ?_, ?_, a⟩
              · simp [e, b, haves_append, haves, hc]
              · simp only [f, c, d, flushes_sent_append, naks_read_append, flushes_sent,
                  naks_read, hf]
                push_cast
                ring
              · show n3.flushes - 1 = if n3.count < 32 then 0 else 1
                rw [f, e, hf2]
                have g1 : ¬ n.count < 32 := by omega
                have g2 : ¬ n.count + 1 < 32 := by omega
                simp [g1, g2]
      · next hm =>
        rw [and_31] at hm
        have hm1 : ((haves n.trace).length + 1) % 32 ≠ 0 := by rw [← hc]; exact hm
        have hbal : (flushes_sent n.trace : Int) - naks_read n.trace
            = if (haves n.trace).length < 32 then 0 else 1 := by
          rw [← hc, ← hf, hf2]
        refine ih _ ?_ t h
        refine ⟨?_, ?_, ?_, windowed_have n.trace sha1 hw hm1 hbal⟩
        · simp [haves_append, haves, hc]
        · simp only [flushes_sent_append, naks_read_append, flushes_sent, naks_read, hf]
          push_cast
          ring
        · simp only
          rw [hf2]
          by_cases h32 : n.count < 32
          · have : n.count + 1 < 32 := by omega
            simp [h32, this]
          · have : ¬ n.count + 1 < 32 := by omega
            simp [h32, this]

/-- C2: in the have loop of `find_common` a flush packet follows the k-th have
exactly when k is a positive multiple of 32; no ACK or NAK is read before the
64th have and its flush are written; and whenever a have is written, the
flush packets written so far in the loop exceed the NAKs read by 0 while fewer
than 32 haves have been sent and by exactly 1 afterwards.  This holds of the
conversation of every run, also one that dies while reading. -/
theorem have_loop_one_window_ahead (r : Repo) (fuel : Nat) (w : Walk) (multi_ack : Bool)
    (inp : List Line) (t : List Ev)
    (h : loop_trace (have_loop r fuel (Neg.start w multi_ack inp)) = some t) :
    (∀ i o, t[i]? = some (.send (.have o)) →
      (t[i + 1]? = some (.send .flush) ↔ ((haves (t.take i)).length + 1) % 32 = 0)
      ∧ ((flushes_sent (t.take i) : Int) - naks_read (t.take i)
          = if (haves (t.take i)).length < 32 then 0 else 1))
    ∧ (∀ i l, t[i]? = some (.recv l) →
      64 ≤ (haves (t.take i)).length ∧ 2 ≤ flushes_sent (t.take i)) :=
  have_loop_windowed r fuel (Neg.start w multi_ack inp)
    ⟨rfl, rfl, rfl, windowed_nil⟩ t h

set_option maxRecDepth 1000000 in
theorem have_loop_one_window_ahead_witness :
    loop_trace (have_loop (chain 65) 70
        (Neg.start (rev_list_push (chain 65) Walk.init 65 SEEN) false [.nak]))
      = some chain65_trace
    ∧ chain65_trace.length = 68
    ∧ chain65_trace[66]? = some (.recv .nak)
    ∧ ((∀ i o, chain65_trace[i]? = some (.send (.have o)) →
        (chain65_trace[i + 1]? = some (.send .flush)
          ↔ ((haves (chain65_trace.take i)).length + 1) % 32 = 0)
        ∧ ((flushes_sent (chain65_trace.take i) : Int) - naks_read (chain65_trace.take i)
            = if (haves (chain65_trace.take i)).length < 32 then 0 else 1))
      ∧ (∀ i l, chain65_trace[i]? = some (.recv l) →
        64 ≤ (haves (chain65_trace.take i)).length
          ∧ 2 ≤ flushes_sent (chain65_trace.take i))) :=
  ⟨rfl, by decide, by decide,
    have_loop_one_window_ahead (chain 65) 70 (rev_list_push (chain 65) Walk.init 65 SEEN)
      false [.nak] chain65_trace rfl⟩

/-- C3, evaluated where the code breaks it: on a repository whose commit 1 has
a parent 2 with a later committer date, `get_rev` inserts the parent in front
of the head it is working on and then drops the front of the queue, so commit
1 stays queued and is returned a second time: the session writes `have` for
commit 1 twice and never for commit 2. -/
theorem have_written_twice :
    session_trace skewed_session
      = [.send (.want 9 " multi_ack ofs-delta"), .send .flush,
         .send (.have 1), .send (.have 1), .send .done, .recv .nak]
    ∧ ¬ (haves (session_trace skewed_session)).Nodup := by
  constructor
  · decide
  · decide

/-! ## Flag arithmetic -/

theorem or_eq_zero_left {a b : Nat} (h : a ||| b = 0) : a = 0 := by
  apply Nat.eq_of_testBit_eq
  intro i
  have := congrArg (fun x => x.testBit i) h
  simp only [Nat.testBit_or, Nat.zero_testBit, Bool.or_eq_false_iff] at this
  simp [this.1]

theorem or_eq_zero_right {a b : Nat} (h : a ||| b = 0) : b = 0 := by
  apply Nat.eq_of_testBit_eq
  intro i
  have := congrArg (fun x => x.testBit i) h
  simp only [Nat.testBit_or, Nat.zero_testBit, Bool.or_eq_false_iff] at this
  simp [this.2]

/-- Setting bits clears none. -/
theorem flag_kept {a k : Nat} (m : Nat) (h : a &&& k ≠ 0) : (a ||| m) &&& k ≠ 0 := by
  rw [Nat.and_distrib_right]
  intro h0
  exact h (or_eq_zero_left h0)

/-- A bit that was set is set. -/
theorem flag_set (a : Nat) {m k : Nat} (h : m &&& k ≠ 0) : (a ||| m) &&& k ≠ 0 := by
  rw [Nat.and_distrib_right]
  intro h0
  exact h (or_eq_zero_right h0)

/-- Setting other bits does not touch this one. -/
theorem flag_other (a : Nat) {m k : Nat} (h : m &&& k = 0) : (a ||| m) &&& k = a &&& k := by
  rw [Nat.and_distrib_right, h, Nat.or_zero]

theorem orFlags_flags (s : Walk) (o : Oid) (m : Nat) (x : Oid) :
    (s.orFlags o m).flags x = if x = o then s.flags o ||| m else s.flags x := by
  simp only [Walk.orFlags, Function.update_apply]

theorem orFlags_common (s : Walk) (o : Oid) (m : Nat) (x : Oid)
    (h : s.flags x &&& COMMON ≠ 0) : (s.orFlags o m).flags x &&& COMMON ≠ 0 := by
  rw [orFlags_flags]
  split
  · next hx => subst hx; exact flag_kept m h
  · exact h

/-! ## The queue stays in order -/

theorem insert_by_date_congr (f g : Oid → Nat) (item : Oid) :
    ∀ l : List Oid, (∀ x ∈ item :: l, f x = g x) →
      insert_by_date f item l = insert_by_date g item l := by
  intro l
  induction l with
  | nil => intro _; rfl
  | cons p rest ih =>
    intro h
    have hp : f p = g p := h p (by simp)
    have hi : f item = g item := h item (by simp)
    simp only [insert_by_date, hp, hi]
    split
    · rfl
    · rw [ih]
      intro x hx
      apply h
      simp only [List.mem_cons] at hx ⊢
      rcases hx with hx | hx
      · exact Or.inl hx
      · exact Or.inr (Or.inr hx)

theorem mem_insert_by_date (g : Oid → Nat) (item x : Oid) :
    ∀ l : List Oid, x ∈ insert_by_date g item l ↔ x = item ∨ x ∈ l := by
  intro l
  induction l with
  | nil => simp [insert_by_date]
  | cons p rest ih =>
    simp only [insert_by_date]
    split
    · simp
    · simp only [List.mem_cons, ih]
      constructor
      · rintro (h | h | h)
        · exact Or.inr (Or.inl h)
        · exact Or.inl h
        · exact Or.inr (Or.inr h)
      · rintro (h | h | h)
        · exact Or.inr (Or.inl h)
        · exact Or.inl h
        · exact Or.inr (Or.inr h)

theorem insert_by_date_sorted (g : Oid → Nat) (item : Oid) :
    ∀ l : List Oid, l.Pairwise (fun a b => g b ≤ g a) →
      (insert_by_date g item l).Pairwise (fun a b => g b ≤ g a) := by
  intro l
  induction l with
  | nil => intro _; simp [insert_by_date]
  | cons p rest ih =>
    intro h
    rw [List.pairwise_cons] at h
    simp only [insert_by_date]
    split
    · next hlt =>
      rw [List.pairwise_cons]
      refine ⟨?_, List.pairwise_cons.mpr h⟩
      intro y hy
      simp only [List.mem_cons] at hy
      rcases hy with hy | hy
      · subst hy; omega
      · have := h.1 y hy; omega
    · next hge =>
      rw [List.pairwise_cons]
      refine ⟨?_, ih h.2⟩
      intro y hy
      rw [mem_insert_by_date] at hy
      rcases hy with hy | hy
      · subst hy; omega
      · exact h.1 y hy

/-- An item that is not younger than the head goes in behind it. -/
theorem insert_by_date_head (g : Oid → Nat) (item h : Oid) (t : List Oid)
    (hle : g item ≤ g h) :
    insert_by_date g item (h :: t) = h :: insert_by_date g item t := by
  simp only [insert_by_date]
  split
  · omega
  · rfl

theorem Grows.refl {r : Repo} {D : Nat} {nc : Prop} {s : Walk} (hq : Queued r s) :
    Grows r D nc s s :=
  ⟨hq, fun _ h => h, fun _ h => Or.inl h, fun _ t h _ => ⟨t, h⟩⟩

theorem Grows.trans {r : Repo} {D : Nat} {nc : Prop} {s s1 s2 : Walk}
    (h1 : Grows r D nc s s1) (h2 : Grows r D nc s1 s2) : Grows r D nc s s2 := by
  refine ⟨h2.queued, fun o h => h2.common o (h1.common o h), ?_, ?_⟩
  · intro x hx
    rcases h2.fresh x hx with hx1 | hx1
    · rcases h1.fresh x hx1 with hx0 | ⟨hd, hc | hn⟩
      · exact Or.inl hx0
      · exact Or.inr ⟨hd, Or.inl (h2.common x hc)⟩
      · exact Or.inr ⟨hd, Or.inr hn⟩
    · exact Or.inr hx1
  · intro h t hl hD
    obtain ⟨t1, ht1⟩ := h1.head h t hl hD
    exact h2.head h t1 ht1 hD

theorem Grows.weaken {r : Repo} {D D1 : Nat} {nc nc1 : Prop} {s s1 : Walk}
    (h : Grows r D nc s s1) (hD : D ≤ D1) (hn : nc → nc1) : Grows r D1 nc1 s s1 := by
  refine ⟨h.queued, h.common, ?_, ?_⟩
  · intro x hx
    rcases h.fresh x hx with hx0 | ⟨hd, hc | hc⟩
    · exact Or.inl hx0
    · exact Or.inr ⟨Nat.le_trans hd hD, Or.inl hc⟩
    · exact Or.inr ⟨Nat.le_trans hd hD, Or.inr (hn hc)⟩
  · intro h0 t hl hle
    exact h.head h0 t hl (Nat.le_trans hD hle)

/-- A step that leaves the queue alone and loses neither a parse nor a
`COMMON` flag. -/
theorem Grows.same {r : Repo} {D : Nat} {nc : Prop} {s s1 : Walk} (hq : Queued r s)
    (hl : s1.rev_list = s.rev_list) (hp : ∀ o, s.parsed o = true → s1.parsed o = true)
    (hc : ∀ o, s.flags o &&& COMMON ≠ 0 → s1.flags o &&& COMMON ≠ 0) :
    Grows r D nc s s1 := by
  refine ⟨⟨?_, ?_⟩, hc, ?_, ?_⟩
  · intro c hcm
    rw [hl] at hcm
    exact hp c (hq.1 c hcm)
  · rw [hl]; exact hq.2
  · intro x hx
    rw [hl] at hx
    exact Or.inl hx
  · intro h t hst _
    exact ⟨t, by rw [hl, hst]⟩

theorem parse_commit_rev_list (r : Repo) (s : Walk) (c : Oid) :
    (parse_commit r s c).1.rev_list = s.rev_list := by
  unfold parse_commit
  split
  · rfl
  · split <;> rfl

theorem parse_commit_flags (r : Repo) (s : Walk) (c : Oid) :
    (parse_commit r s c).1.flags = s.flags := by
  unfold parse_commit
  split
  · rfl
  · split <;> rfl

theorem parse_commit_parsed (r : Repo) (s : Walk) (c o : Oid)
    (h : s.parsed o = true) : (parse_commit r s c).1.parsed o = true := by
  unfold parse_commit
  split
  · exact h
  · split
    · simp only [Function.update_apply]
      split
      · rfl
      · exact h
    · exact h

/-- A parse that did not fail leaves the commit parsed. -/
theorem parse_commit_ok (r : Repo) (s : Walk) (c : Oid)
    (h : (parse_commit r s c).2 = false) : (parse_commit r s c).1.parsed c = true := by
  unfold parse_commit at h ⊢
  split
  · assumption
  · split
    · simp
    · next hr =>
      rw [if_neg (by assumption)] at h
      split at h
      · simp_all
      · simp at h

theorem walk_date_parsed (r : Repo) (s : Walk) (c : Oid) (h : s.parsed c = true) :
    s.date r c = r.date c := by
  simp [Walk.date, h]

theorem walk_parents_sub (r : Repo) (s : Walk) (c p : Oid) (h : p ∈ s.parents r c) :
    p ∈ r.parents c := by
  unfold Walk.parents at h
  split at h
  · exact h
  · simp at h

/-- The parse that `rev_list_push`, `mark_common` and `get_rev` make only when
the commit is not parsed yet. -/
theorem maybe_parse_spec (r : Repo) (s : Walk) (c : Oid) (b : Bool) (pr : Walk × Bool)
    (h : (if b then (s, false) else parse_commit r s c) = pr) :
    pr.1.rev_list = s.rev_list ∧ pr.1.flags = s.flags
      ∧ (∀ o, s.parsed o = true → pr.1.parsed o = true)
      ∧ (b = s.parsed c → pr.2 = false → pr.1.parsed c = true) := by
  subst h
  cases b
  · simp only [Bool.false_eq_true, if_false]
    refine ⟨parse_commit_rev_list r s c, parse_commit_flags r s c,
      fun o ho => parse_commit_parsed r s c o ho, fun _ h2 => parse_commit_ok r s c h2⟩
  · exact ⟨rfl, rfl, fun _ ho => ho, fun hb _ => hb.symm⟩

/-- The flags after `rev_list_push`. -/
theorem rev_list_push_flags (r : Repo) (s : Walk) (c : Oid) (mark : Nat) (o : Oid) :
    (rev_list_push r s c mark).flags o
      = if o = c ∧ s.flags c &&& mark = 0 then s.flags c ||| mark else s.flags o := by
  unfold rev_list_push
  by_cases hm : s.flags c &&& mark = 0
  · simp only [hm, if_true, and_true]
    generalize hpr : (if (s.orFlags c mark).parsed c = true then (s.orFlags c mark, false)
      else parse_commit r (s.orFlags c mark) c) = pr
    obtain ⟨_, hf, _, _⟩ := maybe_parse_spec r _ c _ pr hpr
    have hfo : pr.1.flags o = if o = c then s.flags c ||| mark else s.flags o := by
      rw [hf, orFlags_flags]
    split
    · exact hfo
    · split <;> exact hfo
  · simp [hm]

/-- The queue after `rev_list_push`: untouched, or the commit, now parsed, has
been inserted by date. -/
theorem rev_list_push_spec (r : Repo) (s : Walk) (c : Oid) (mark : Nat) :
    (∀ o, s.parsed o = true → (rev_list_push r s c mark).parsed o = true)
    ∧ ((rev_list_push r s c mark).rev_list = s.rev_list
      ∨ (s.flags c &&& mark = 0 ∧ (rev_list_push r s c mark).parsed c = true
          ∧ (rev_list_push r s c mark).rev_list
              = insert_by_date ((rev_list_push r s c mark).date r) c s.rev_list)) := by
  unfold rev_list_push
  by_cases hm : s.flags c &&& mark = 0
  · simp only [hm, if_true]
    generalize hpr : (if (s.orFlags c mark).parsed c = true then (s.orFlags c mark, false)
      else parse_commit r (s.orFlags c mark) c) = pr
    obtain ⟨hl, _, hp, hok⟩ := maybe_parse_spec r _ c _ pr hpr
    have hl0 : pr.1.rev_list = s.rev_list := hl
    have hp0 : ∀ o, s.parsed o = true → pr.1.parsed o = true := fun o ho => hp o ho
    by_cases hfail : pr.2 = true
    · simp only [hfail, if_true]
      exact ⟨hp0, Or.inl hl0⟩
    · have hpc : pr.1.parsed c = true :=
        hok (by cases h : (s.orFlags c mark).parsed c <;> simp [h]) (by simpa using hfail)
      have hf : pr.2 = false := by simpa using hfail
      simp only [hf, Bool.false_eq_true, if_false]
      by_cases hcm : pr.1.flags c &&& COMMON = 0
      · simp only [hcm, if_true]
        refine ⟨hp0, Or.inr ⟨trivial, hpc, ?_⟩⟩
        rw [hl0]
        rfl
      · simp only [hcm, if_false]
        refine ⟨hp0, Or.inr ⟨trivial, hpc, ?_⟩⟩
        rw [hl0]
        rfl
  · simp only [hm, if_false]
    exact ⟨fun _ h => h, Or.inl trivial⟩

/-- `rev_list_push` of a commit dated `D` or earlier. -/
theorem rev_list_push_grows (r : Repo) (D : Nat) (nc : Prop) (s : Walk) (c : Oid)
    (mark : Nat) (hq : Queued r s) (hD : r.date c ≤ D)
    (hc : s.flags c &&& mark = 0 → (s.flags c ||| mark) &&& COMMON ≠ 0 ∨ nc) :
    Grows r D nc s (rev_list_push r s c mark) := by
  have hfl := rev_list_push_flags r s c mark
  have hcommon : ∀ o, s.flags o &&& COMMON ≠ 0 →
      (rev_list_push r s c mark).flags o &&& COMMON ≠ 0 := by
    intro o ho
    rw [hfl]
    split
    · next h => rw [← h.1]; exact flag_kept mark ho
    · exact ho
  obtain ⟨hp, hl | ⟨hm, hpc, hl⟩⟩ := rev_list_push_spec r s c mark
  · exact Grows.same hq hl hp hcommon
  · have hins : (rev_list_push r s c mark).rev_list = insert_by_date r.date c s.rev_list := by
      rw [hl]
      apply insert_by_date_congr
      intro x hx
      simp only [List.mem_cons] at hx
      rcases hx with hx | hx
      · subst hx; exact walk_date_parsed r _ _ hpc
      · exact walk_date_parsed r _ _ (hp x (hq.1 x hx))
    refine ⟨⟨?_, ?_⟩, hcommon, ?_, ?_⟩
    · intro x hx
      rw [hins, mem_insert_by_date] at hx
      rcases hx with hx | hx
      · subst hx; exact hpc
      · exact hp x (hq.1 x hx)
    · rw [hins]
      exact insert_by_date_sorted r.date c _ hq.2
    · intro x hx
      rw [hins, mem_insert_by_date] at hx
      rcases hx with hx | hx
      · subst hx
        refine Or.inr ⟨hD, ?_⟩
        rw [hfl]
        simp only [hm, and_self, if_true]
        exact hc hm
      · exact Or.inl hx
    · intro h t hst hle
      rw [hins, hst, insert_by_date_head r.date c h t (Nat.le_trans hD hle)]
      exact ⟨_, rfl⟩

/-- A loop over commits dated `D` or earlier whose every turn grows the walk. -/
theorem foldlM_grows {r : Repo} {D : Nat} {nc : Prop} (f : Walk → Oid → Option Walk)
    (step : ∀ s p s1, Queued r s → r.date p ≤ D → f s p = some s1 → Grows r D nc s s1) :
    ∀ (ps : List Oid) (s s1 : Walk), (∀ p ∈ ps, r.date p ≤ D) → Queued r s →
      ps.foldlM f s = some s1 → Grows r D nc s s1 := by
  intro ps
  induction ps with
  | nil =>
    intro s s1 _ hq h
    simp only [List.foldlM_nil, pure, Option.some.injEq] at h
    subst h
    exact Grows.refl hq
  | cons p rest ih =>
    intro s s1 hps hq h
    simp only [List.foldlM_cons, bind, Option.bind] at h
    split at h
    · cases h
    · next s2 h2 =>
      have g1 := step s p s2 hq (hps p (by simp)) h2
      exact g1.trans (ih s2 s1 (fun q hq1 => hps q (by simp [hq1])) g1.queued h)

/-- `mark_common` on a commit dated `D` or earlier, in a graph without clock
skew: whatever it queues is dated `D` or earlier and is `COMMON`, except the
commit itself when only its ancestors are being marked and it was neither
`SEEN` nor `COMMON`. -/
theorem mark_common_grows (r : Repo) (hd : DatesDescend r) :
    ∀ (fuel : Nat) (s : Walk) (c : Oid) (ao dp : Bool) (s1 : Walk) (D : Nat),
      Queued r s → r.date c ≤ D → mark_common r fuel s (some c) ao dp = some s1 →
      Grows r D (ao = true ∧ s.flags c &&& SEEN = 0 ∧ s.flags c &&& COMMON = 0) s s1 := by
  intro fuel
  induction fuel with
  | zero => intro s c ao dp s1 D _ _ h; simp [mark_common] at h
  | succ k ih =>
    intro s c ao dp s1 D hq hD h
    simp only [mark_common] at h
    by_cases hcom : s.flags c &&& COMMON = 0
    · simp only [hcom, if_true] at h
      -- the walk after `o->flags |= COMMON`
      have g0 : Grows r D (ao = true ∧ s.flags c &&& SEEN = 0 ∧ s.flags c &&& COMMON = 0) s
          (if ao = true then s else s.orFlags c COMMON) := by
        cases ao
        · exact Grows.same hq rfl (fun _ h => h) (fun o ho => orFlags_common s c COMMON o ho)
        · exact Grows.refl hq
      generalize hs0 : (if ao = true then s else s.orFlags c COMMON) = s0 at h g0
      have hfl0 : s0.flags c = if ao = true then s.flags c else s.flags c ||| COMMON := by
        subst hs0
        cases ao
        · simp [orFlags_flags]
        · simp
      by_cases hseen : s0.flags c &&& SEEN = 0
      · simp only [hseen, if_true, Option.some.injEq] at h
        subst h
        refine g0.trans (rev_list_push_grows r D _ s0 c SEEN g0.queued hD ?_)
        intro _
        cases ao
        · left
          rw [hfl0]
          simp only [Bool.false_eq_true, if_false]
          exact flag_kept SEEN (flag_set _ (by decide))
        · right
          simp only [if_true] at hfl0
          rw [hfl0] at hseen
          exact ⟨rfl, hseen, hcom⟩
      · simp only [hseen, if_false] at h
        -- the countdown of line 98 and the parse of lines 99-101
        generalize hs2 : (if (!ao && decide (s0.flags c &&& POPPED = 0)) = true then
            ({ s0 with non_common_revs := s0.non_common_revs - 1 } : Walk) else s0) = s2 at h
        have g2 : Grows r D (ao = true ∧ s.flags c &&& SEEN = 0 ∧ s.flags c &&& COMMON = 0) s0 s2 := by
          subst hs2
          split
          · exact Grows.same g0.queued rfl (fun _ h => h) (fun _ h => h)
          · exact Grows.refl g0.queued
        generalize hpr : (if (!s2.parsed c && !dp) = true then parse_commit r s2 c
          else (s2, false)) = pr at h
        have hprs : pr.1.rev_list = s2.rev_list ∧ pr.1.flags = s2.flags
            ∧ (∀ o, s2.parsed o = true → pr.1.parsed o = true) := by
          subst hpr
          split
          · exact ⟨parse_commit_rev_list r s2 c, parse_commit_flags r s2 c,
              fun o ho => parse_commit_parsed r s2 c o ho⟩
          · exact ⟨rfl, rfl, fun _ ho => ho⟩
        have g3 : Grows r D (ao = true ∧ s.flags c &&& SEEN = 0 ∧ s.flags c &&& COMMON = 0) s2 pr.1 :=
          Grows.same g2.queued hprs.1 hprs.2.2 (fun o ho => by rw [hprs.2.1]; exact ho)
        have g03 := g0.trans (g2.trans g3)
        by_cases hfail : pr.2 = true
        · simp only [hfail, if_true, Option.some.injEq] at h
          subst h
          exact g03
        · have hf : pr.2 = false := by simpa using hfail
          simp only [hf, Bool.false_eq_true, if_false] at h
          refine g03.trans ?_
          refine foldlM_grows _ ?_ (pr.1.parents r c) pr.1 s1 ?_ g03.queued h
          · intro s3 p s4 hq3 hp3 h3
            exact (ih s3 p false dp s4 D hq3 hp3 h3).weaken (Nat.le_refl D)
              (fun hn => absurd hn.1 (by simp))
          · intro p hp
            exact Nat.le_trans (hd c p (walk_parents_sub r _ c p hp)) hD
    · simp only [hcom, if_false, Option.some.injEq] at h
      subst h
      exact Grows.refl hq

theorem get_rev_mark_cases (f : Nat) :
    get_rev_mark f = SEEN ∨ get_rev_mark f = COMMON ||| SEEN := by
  unfold get_rev_mark
  split
  · exact Or.inr rfl
  · split
    · exact Or.inr rfl
    · exact Or.inl rfl

/-- Parents are pushed without `COMMON` only by a commit that is not
`COMMON`. -/
theorem get_rev_mark_plain (f : Nat) (h : get_rev_mark f &&& COMMON = 0) :
    f &&& COMMON = 0 := by
  unfold get_rev_mark at h
  split at h
  · exact absurd h (by decide)
  · next hc => simpa using hc

/-- One turn of the loop over the parents in `get_rev`, for a parent dated `D`
or earlier. -/
theorem get_rev_parent_grows (r : Repo) (hd : DatesDescend r) (fuel mark : Nat)
    (s : Walk) (p : Oid) (s1 : Walk) (D : Nat)
    (hmark : mark = SEEN ∨ mark = COMMON ||| SEEN) (hq : Queued r s) (hD : r.date p ≤ D)
    (h : get_rev_parent r fuel mark s p = some s1) :
    Grows r D (mark &&& COMMON = 0) s s1 := by
  unfold get_rev_parent at h
  have g0 : Grows r D (mark &&& COMMON = 0) s
      (if s.flags p &&& SEEN = 0 then rev_list_push r s p mark else s) := by
    split
    · apply rev_list_push_grows r D _ s p mark hq hD
      intro _
      by_cases hm : mark &&& COMMON = 0
      · exact Or.inr hm
      · exact Or.inl (flag_set _ hm)
    · exact Grows.refl hq
  have hfl : (s.flags p &&& SEEN = 0 → s.flags p &&& COMMON = 0 → mark = COMMON ||| SEEN →
      (if s.flags p &&& SEEN = 0 then rev_list_push r s p mark else s).flags p &&& SEEN ≠ 0) := by
    intro h1 h2 h3
    rw [if_pos h1, rev_list_push_flags]
    have hm : s.flags p &&& mark = 0 := by
      rw [h3, Nat.and_or_distrib_left, h1, h2]
      rfl
    simp only [hm, and_self, if_true]
    exact flag_set _ (by rw [h3]; decide)
  generalize hs0 : (if s.flags p &&& SEEN = 0 then rev_list_push r s p mark else s) = s0
    at h g0 hfl
  rcases hmark with hm | hm
  · have : mark &&& COMMON = 0 := by rw [hm]; decide
    simp only [this, if_true, Option.some.injEq] at h
    subst h
    exact g0
  · have hne : ¬ mark &&& COMMON = 0 := by rw [hm]; decide
    simp only [hne, if_false] at h
    refine g0.trans ((mark_common_grows r hd fuel s0 p true false s1 D g0.queued hD h).weaken
      (Nat.le_refl D) ?_)
    rintro ⟨_, hs, hc⟩
    exfalso
    by_cases h1 : s.flags p &&& SEEN = 0
    · by_cases h2 : s.flags p &&& COMMON = 0
      · exact hfl h1 h2 hm hs
      · exact g0.common p h2 hc
    · rw [if_neg h1] at hs0
      subst hs0
      exact h1 hs

/-- What `get_rev_pop` does: the queue is left alone, no parse is lost, the
`COMMON` flags are the same. -/
theorem get_rev_pop_spec (r : Repo) (s : Walk) (c : Oid) :
    (get_rev_pop r s c).rev_list = s.rev_list
    ∧ (∀ o, s.parsed o = true → (get_rev_pop r s c).parsed o = true)
    ∧ (∀ o, (get_rev_pop r s c).flags o &&& COMMON = s.flags o &&& COMMON) := by
  have key : ∀ s1 : Walk, s1.rev_list = s.rev_list → s1.flags = s.flags →
      (∀ o, s.parsed o = true → s1.parsed o = true) →
      (let s2 := s1.orFlags c POPPED
       (if s2.flags c &&& COMMON = 0 then
          ({ s2 with non_common_revs := s2.non_common_revs - 1 } : Walk) else s2)).rev_list
          = s.rev_list
      ∧ (∀ o, s.parsed o = true →
          (let s2 := s1.orFlags c POPPED
           (if s2.flags c &&& COMMON = 0 then
              ({ s2 with non_common_revs := s2.non_common_revs - 1 } : Walk) else s2)).parsed o
            = true)
      ∧ (∀ o,
          (let s2 := s1.orFlags c POPPED
           (if s2.flags c &&& COMMON = 0 then
              ({ s2 with non_common_revs := s2.non_common_revs - 1 } : Walk) else s2)).flags o
            &&& COMMON = s.flags o &&& COMMON) := by
    intro s1 h1 h2 h3
    have hf : ∀ o, (s1.orFlags c POPPED).flags o &&& COMMON = s.flags o &&& COMMON := by
      intro o
      rw [orFlags_flags, h2]
      split
      · next ho => subst ho; exact flag_other _ (by decide)
      · rfl
    simp only
    split
    · exact ⟨h1, h3, hf⟩
    · exact ⟨h1, h3, hf⟩
  unfold get_rev_pop
  by_cases hp : s.parsed c = true
  · simp only [hp, if_true]
    exact key s rfl rfl (fun _ h => h)
  · simp only [hp]
    exact key _ (parse_commit_rev_list r s c) (parse_commit_flags r s c)
      (fun o ho => parse_commit_parsed r s c o ho)

/-- `get_rev` in a graph without clock skew: the queue stays in order, a bound
on the dates of the queued non-common commits is kept and holds for the commit
returned, and nothing left in the queue is younger than the commit returned. -/
theorem get_rev_dates (r : Repo) (hd : DatesDescend r) :
    ∀ (fuel : Nat) (s : Walk) (res : Option Oid) (s1 : Walk), Queued r s →
      get_rev r fuel s = some (res, s1) →
      Queued r s1
      ∧ (∀ d, Below r s d → Below r s1 d ∧ ∀ c, res = some c → r.date c ≤ d)
      ∧ (∀ c, res = some c → ∀ x ∈ s1.rev_list, r.date x ≤ r.date c) := by
  intro fuel
  induction fuel with
  | zero => intro s res s1 _ h; simp [get_rev] at h
  | succ k ih =>
    intro s res s1 hq h
    simp only [get_rev] at h
    split at h
    · simp only [Option.some.injEq, Prod.mk.injEq] at h
      obtain ⟨h1, h2⟩ := h
      subst h1 h2
      exact ⟨hq, fun d hb => ⟨hb, fun c hc => by cases hc⟩, fun c hc => by cases hc⟩
    · next c rest hl =>
      split at h
      · simp only [Option.some.injEq, Prod.mk.injEq] at h
        obtain ⟨h1, h2⟩ := h
        subst h1 h2
        exact ⟨hq, fun d hb => ⟨hb, fun c hc => by cases hc⟩, fun c hc => by cases hc⟩
      · obtain ⟨p1, p2, p3⟩ := get_rev_pop_spec r s c
        generalize hs3 : get_rev_pop r s c = s3 at h p1 p2 p3
        have hq3 : Queued r s3 :=
          ⟨fun x hx => p2 x (hq.1 x (by rw [← p1]; exact hx)), by rw [p1]; exact hq.2⟩
        split at h
        · cases h
        · next s4 hfold =>
          have gf : Grows r (r.date c) (get_rev_mark (s3.flags c) &&& COMMON = 0) s3 s4 := by
            refine foldlM_grows _ ?_ (s3.parents r c) s3 s4 ?_ hq3 hfold
            · intro sa p sb hqa hpa hab
              exact get_rev_parent_grows r hd k _ sa p sb _ (get_rev_mark_cases _) hqa hpa hab
            · intro p hp
              exact hd c p (walk_parents_sub r _ c p hp)
          obtain ⟨t4, ht4⟩ := gf.head c rest (by rw [p1, hl]) (Nat.le_refl _)
          have hq5 : Queued r ({ s4 with rev_list := s4.rev_list.tail } : Walk) := by
            refine ⟨?_, ?_⟩
            · intro x hx
              exact gf.queued.1 x (List.mem_of_mem_tail hx)
            · have := gf.queued.2
              rw [ht4] at this ⊢
              exact (List.pairwise_cons.mp this).2
          have hb5 : ∀ d, Below r s d →
              Below r ({ s4 with rev_list := s4.rev_list.tail } : Walk) d := by
            intro d hb x hx hxc
            have hx4 : x ∈ s4.rev_list := List.mem_of_mem_tail hx
            rcases gf.fresh x hx4 with hold | ⟨hle, hc | hm⟩
            · rw [p1] at hold
              apply hb x hold
              rw [← p3 x]
              by_contra hne
              exact gf.common x hne hxc
            · exact absurd hxc hc
            · have hcc : s.flags c &&& COMMON = 0 := by
                rw [← p3 c]; exact get_rev_mark_plain _ hm
              exact Nat.le_trans hle (hb c (by rw [hl]; simp) hcc)
          split at h
          · next hsend =>
            simp only [Option.some.injEq, Prod.mk.injEq] at h
            obtain ⟨h1, h2⟩ := h
            subst h1 h2
            refine ⟨hq5, ?_, ?_⟩
            · intro d hb
              refine ⟨hb5 d hb, ?_⟩
              intro c1 hc1
              cases hc1
              exact hb c (by rw [hl]; simp) (by rw [← p3 c]; exact hsend)
            · intro c1 hc1 x hx
              cases hc1
              have hx4 : x ∈ s4.rev_list := List.mem_of_mem_tail hx
              rcases gf.fresh x hx4 with hold | ⟨hle, _⟩
              · rw [p1, hl] at hold
                simp only [List.mem_cons] at hold
                rcases hold with hold | hold
                · rw [hold]
                · have := hq.2
                  rw [hl] at this
                  exact (List.pairwise_cons.mp this).1 x hold
              · exact hle
          · obtain ⟨a, b, c2⟩ := ih _ res s1 hq5 h
            exact ⟨a, fun d hb => b d (hb5 d hb), c2⟩

/-- `lookup_commit` touches neither the queue nor a flag nor a parse. -/
theorem lookup_commit_spec (r : Repo) (s : Walk) (sha1 : Oid) :
    (lookup_commit r s sha1).2.rev_list = s.rev_list
    ∧ (lookup_commit r s sha1).2.flags = s.flags
    ∧ (lookup_commit r s sha1).2.parsed = s.parsed := by
  unfold lookup_commit
  split <;> exact ⟨rfl, rfl, rfl⟩

/-- A step that grows the walk by `COMMON` entries only keeps every bound on
the dates of the non-common entries. -/
theorem Grows.below {r : Repo} {D : Nat} {s s1 : Walk} (g : Grows r D False s s1)
    (d : Nat) (hb : Below r s d) : Below r s1 d := by
  intro x hx hxc
  rcases g.fresh x hx with hold | ⟨_, hc | hf⟩
  · apply hb x hold
    by_contra hne
    exact g.common x hne hxc
  · exact absurd hxc hc
  · exact absurd hf id

/-- A poll round in a graph without clock skew keeps the queue in order and
every bound on the dates of its non-common entries. -/
theorem poll_acks_dates (r : Repo) (hd : DatesDescend r) (fuel : Nat) :
    ∀ (inp : List Line) (n n3 : Neg), Queued r n.w →
      (poll_acks r fuel inp n = .final n3 ∨ poll_acks r fuel inp n = .nak n3
        ∨ poll_acks r fuel inp n = .die n3) →
      Queued r n3.w ∧ (∀ d, Below r n.w d → Below r n3.w d)
        ∧ haves n3.trace = haves n.trace := by
  intro inp
  induction inp with
  | nil =>
    intro n n3 hq h
    simp only [poll_acks] at h
    rcases h with h | h | h
    · cases h
    · cases h
    · injection h with h; subst h; exact ⟨hq, fun _ hb => hb, rfl⟩
  | cons l rest ih =>
    intro n n3 hq h
    cases l
    case ack_continue sha1 =>
      simp only [poll_acks, get_ack] at h
      obtain ⟨q1, q2, q3⟩ := lookup_commit_spec r n.w sha1
      have hq0 : Queued r (lookup_commit r n.w sha1).2 := by
        refine ⟨?_, ?_⟩
        · intro c hc; rw [q3]; rw [q1] at hc; exact hq.1 c hc
        · rw [q1]; exact hq.2
      have hb0 : ∀ d, Below r n.w d → Below r (lookup_commit r n.w sha1).2 d := by
        intro d hb x hx hxc
        rw [q1] at hx
        rw [q2] at hxc
        exact hb x hx hxc
      split at h
      · rcases h with h | h | h <;> cases h
      · next w1 hmc =>
        have gm : Grows r 0 False (lookup_commit r n.w sha1).2 w1 ∨
            ∃ D, Grows r D False (lookup_commit r n.w sha1).2 w1 := by
          cases hlc : (lookup_commit r n.w sha1).1 with
          | none =>
            rw [hlc] at hmc
            cases k : fuel with
            | zero => rw [k] at hmc; simp [mark_common] at hmc
            | succ k1 =>
              rw [k] at hmc
              simp only [mark_common, Option.some.injEq] at hmc
              subst hmc
              exact Or.inl (Grows.refl hq0)
          | some c =>
            rw [hlc] at hmc
            exact Or.inr ⟨r.date c,
              (mark_common_grows r hd fuel _ c false true w1 (r.date c) hq0 (Nat.le_refl _)
                hmc).weaken (Nat.le_refl _) (fun hn => absurd hn.1 (by simp))⟩
        have gm1 : ∃ D, Grows r D False (lookup_commit r n.w sha1).2 w1 := by
          rcases gm with g | g
          · exact ⟨0, g⟩
          · exact g
        obtain ⟨D, g⟩ := gm1
        obtain ⟨a, b, c⟩ := ih
          { n with w := w1, retval := 0, in_vain := 0, got_continue := true, inp := rest,
                   trace := n.trace ++ [.recv (.ack_continue sha1)] } n3 g.queued h
        refine ⟨a, fun d hb => b d (g.below d (hb0 d hb)), ?_⟩
        rw [c]
        simp [haves_append, haves]
    case nak =>
      simp only [poll_acks, get_ack] at h
      rcases h with h | h | h
      · cases h
      · injection h with h; subst h
        exact ⟨hq, fun _ hb => hb, by simp [haves_append, haves]⟩
      · cases h
    case ack sha1 =>
      simp only [poll_acks, get_ack] at h
      rcases h with h | h | h
      · injection h with h; subst h
        exact ⟨hq, fun _ hb => hb, by simp [haves_append, haves]⟩
      · cases h
      · cases h
    all_goals
      simp only [poll_acks, get_ack] at h
      rcases h with h | h | h
      · cases h
      · cases h
      · injection h with h; subst h
        exact ⟨hq, fun _ hb => hb, by simp [haves_append, haves]⟩

/-- The have loop in a graph without clock skew announces commits in
descending date order. -/
theorem have_loop_dates (r : Repo) (hd : DatesDescend r) :
    ∀ (fuel : Nat) (n : Neg), DateInv r n.w (haves n.trace) →
      ∀ t, loop_trace (have_loop r fuel n) = some t →
        (haves t).Pairwise (fun a b => r.date b ≤ r.date a) := by
  intro fuel
  induction fuel with
  | zero => intro n _ t h; simp [have_loop, loop_trace] at h
  | succ k ih =>
    intro n hinv t h
    obtain ⟨hq, hs, hb⟩ := hinv
    simp only [have_loop] at h
    split at h
    · simp [loop_trace] at h
    · simp only [loop_trace, Option.some.injEq] at h
      subst h
      exact hs
    · next sha1 w1 hg =>
      obtain ⟨q1, b1, l1⟩ := get_rev_dates r hd k n.w (some sha1) w1 hq hg
      have hinv1 : DateInv r w1 (haves n.trace ++ [sha1]) := by
        refine ⟨q1, ?_, ?_⟩
        · rw [List.pairwise_append]
          refine ⟨hs, List.pairwise_singleton _ _, ?_⟩
          intro a ha b hb1
          simp only [List.mem_singleton] at hb1
          subst hb1
          exact (b1 (r.date a) (hb a ha)).2 b rfl
        · intro x hx
          simp only [List.mem_append, List.mem_singleton] at hx
          rcases hx with hx | hx
          · exact (b1 (r.date x) (hb x hx)).1
          · subst hx
            intro y hy _
            exact l1 x rfl y hy
      split at h
      · split at h
        · refine ih _ ?_ t h
          simpa [haves_append, haves] using hinv1
        · have hp := poll_acks_dates r hd k n.inp
            { n with w := w1, trace := n.trace ++ [.send (.have sha1)] ++ [.send .flush],
                     in_vain := n.in_vain + 1, count := n.count + 1,
                     flushes := n.flushes + 1 }
          have hh : haves (n.trace ++ [.send (.have sha1)] ++ [.send .flush])
              = haves n.trace ++ [sha1] := by
            simp [haves_append, haves]
          split at h
          · next n3 hp3 =>
            simp only [loop_trace, Option.some.injEq] at h
            subst h
            obtain ⟨_, _, c⟩ := hp n3 q1 (Or.inl hp3)
            rw [c, hh]
            exact hinv1.2.1
          · next n3 hp3 =>
            simp only [loop_trace, Option.some.injEq] at h
            subst h
            obtain ⟨_, _, c⟩ := hp n3 q1 (Or.inr (Or.inr hp3))
            rw [c, hh]
            exact hinv1.2.1
          · simp [loop_trace] at h
          · next n3 hp3 =>
            obtain ⟨a, b, c⟩ := hp n3 q1 (Or.inr (Or.inl hp3))
            have hinv3 : DateInv r n3.w (haves n3.trace) := by
              rw [c, hh]
              exact ⟨a, hinv1.2.1, fun x hx => b _ (hinv1.2.2 x hx)⟩
            split at h
            · simp only [loop_trace, Option.some.injEq] at h
              subst h
              exact hinv3.2.1
            · exact ih { n3 with flushes := n3.flushes - 1 } hinv3 t h
      · refine ih _ ?_ t h
        simpa [haves_append, haves] using hinv1

/-- In a commit graph where no commit has a parent with a later committer
date than its own, and from a walk whose queue is in descending date order
(the order `insert_by_date` keeps), the commits that the successive `get_rev`
calls of the have loop return, which are the have lines written, have
non-increasing committer dates. -/
theorem have_lines_descend (r : Repo) (hd : DatesDescend r) (fuel : Nat) (w : Walk)
    (hq : Queued r w) (multi_ack : Bool) (inp : List Line) (t : List Ev)
    (h : loop_trace (have_loop r fuel (Neg.start w multi_ack inp)) = some t) :
    (haves t).Pairwise (fun a b => r.date b ≤ r.date a) :=
  have_loop_dates r hd fuel (Neg.start w multi_ack inp)
    ⟨hq, List.Pairwise.nil, fun _ hx => by simp [Neg.start, haves] at hx⟩ t h

/-- C4 as stated fails: on `skewed_merge` the session announces commit 1 (date
5) and then commit 3 (date 8). -/
theorem have_lines_ascend :
    haves (session_trace skewed_merge_session) = [1, 3, 1]
    ∧ ¬ (haves (session_trace skewed_merge_session)).Pairwise
        (fun a b => skewed_merge.date b ≤ skewed_merge.date a) := by
  constructor
  · decide
  · decide

theorem chain3_dates : DatesDescend chain3 := by
  intro c p hp
  by_cases h1 : c = 1
  · subst h1; simp [Repo.parents, Repo.read, chain3, List.lookup] at hp
  · by_cases h2 : c = 2
    · subst h2
      simp [Repo.parents, Repo.read, chain3, List.lookup] at hp
      subst hp
      decide
    · by_cases h3 : c = 3
      · subst h3
        simp [Repo.parents, Repo.read, chain3, List.lookup] at hp
        subst hp
        decide
      · have : chain3.parents c = [] := by
          have e1 : (c == 1) = false := by simpa using h1
          have e2 : (c == 2) = false := by simpa using h2
          have e3 : (c == 3) = false := by simpa using h3
          simp [Repo.parents, Repo.read, chain3, List.lookup, e1, e2, e3]
        rw [this] at hp
        cases hp

theorem chain3_queued : Queued chain3 chain3_walk := by
  have hl : chain3_walk.rev_list = [3] := by decide
  refine ⟨?_, ?_⟩
  · intro c hc
    rw [hl] at hc
    simp only [List.mem_singleton] at hc
    subst hc
    decide
  · rw [hl]
    exact List.pairwise_singleton _ _

theorem have_lines_descend_witness :
    DatesDescend chain3 ∧ Queued chain3 chain3_walk
    ∧ loop_trace (have_loop chain3 5 (Neg.start chain3_walk false [.nak]))
        = some chain3_out.2.trace
    ∧ haves chain3_out.2.trace = [3, 2, 1]
    ∧ (haves chain3_out.2.trace).Pairwise (fun a b => chain3.date b ≤ chain3.date a) :=
  ⟨chain3_dates, chain3_queued, rfl, by decide,
    have_lines_descend chain3 chain3_dates 5 chain3_walk chain3_queued false [.nak]
      chain3_out.2.trace rfl⟩

/-- After the first want, every ref not found complete gets a bare want. -/
theorem send_wants_later (args : Args) (st : State) :
    ∀ (refs : List Ref) (fetching : Nat), fetching ≠ 0 →
      send_wants args st refs fetching
        = ((wanted st refs).map fun ref => Pkt.want ref.old_sha1 "",
           fetching + (wanted st refs).length) := by
  intro refs
  induction refs with
  | nil => intro f _; simp [send_wants, wanted]
  | cons ref rest ih =>
    intro f hf
    cases hc : is_complete st.w ref.old_sha1
    · have e1 : wanted st (ref :: rest) = ref :: wanted st rest := by
        simp [wanted, List.filter_cons, hc]
      rw [e1]
      simp only [send_wants, hc, Bool.false_eq_true, if_false, hf]
      rw [ih (f + 1) (by omega)]
      simp only [List.map_cons, List.length_cons, Prod.mk.injEq, true_and]
      omega
    · have e1 : wanted st (ref :: rest) = wanted st rest := by
        simp [wanted, List.filter_cons, hc]
      rw [e1]
      simp only [send_wants, hc, if_true]
      exact ih f hf

/-- The want packets: the first ref not found complete gets the capability
suffix, every later one a bare want. -/
theorem send_wants_first (args : Args) (st : State) :
    ∀ refs : List Ref,
      send_wants args st refs 0
        = ((match wanted st refs with
            | [] => []
            | first :: later =>
              Pkt.want first.old_sha1 (want_caps args st)
                :: later.map fun ref => Pkt.want ref.old_sha1 ""),
           (wanted st refs).length) := by
  intro refs
  induction refs with
  | nil => simp [send_wants, wanted]
  | cons ref rest ih =>
    cases hc : is_complete st.w ref.old_sha1
    · have e1 : wanted st (ref :: rest) = ref :: wanted st rest := by
        simp [wanted, List.filter_cons, hc]
      rw [e1]
      simp only [send_wants, hc, Bool.false_eq_true, if_false, if_true]
      rw [send_wants_later args st rest 1 (by omega)]
      simp only [List.length_cons, Prod.mk.injEq, true_and]
      omega
    · have e1 : wanted st (ref :: rest) = wanted st rest := by
        simp [wanted, List.filter_cons, hc]
      rw [e1]
      simp only [send_wants, hc, if_true]
      exact ih

/-- The packets of Phase 1, in order. -/
theorem send_request_packets (args : Args) (st : State) (refs : List Ref) :
    (send_request args st refs).1
      = (match wanted st refs with
          | [] => []
          | first :: later =>
            Pkt.want first.old_sha1 (want_caps args st)
              :: later.map fun ref => Pkt.want ref.old_sha1 "")
        ++ (if st.is_shallow then st.shallow.map Pkt.shallow else [])
        ++ (if args.depth > 0 then [Pkt.deepen args.depth] else [])
        ++ [Pkt.flush] := by
  simp only [send_request, send_wants_first, write_shallow_commits]

/-- C5: Phase 1 of `find_common` writes, in this order and nothing else: one
want packet for each ref of the list whose advertised object is not found
flagged `COMPLETE`, in list order, the first with the capability suffix and
every later one bare (`want <hex40>` and the line end); then the shallow lines
iff the repository is shallow; then `deepen <depth>` iff depth > 0; then one
flush packet.  `fetching` counts the wants. -/
theorem send_request_writes (args : Args) (st : State) (refs : List Ref) :
    (send_request args st refs).1
      = (match wanted st refs with
          | [] => []
          | first :: later =>
            Pkt.want first.old_sha1 (want_caps args st)
              :: later.map fun ref => Pkt.want ref.old_sha1 "")
        ++ (if st.is_shallow then st.shallow.map Pkt.shallow else [])
        ++ (if args.depth > 0 then [Pkt.deepen args.depth] else [])
        ++ [Pkt.flush]
    ∧ (send_request args st refs).2 = (wanted st refs).length
    ∧ (∀ remote, (Pkt.want remote "").payload = "want " ++ sha1_to_hex remote ++ "\n")
    ∧ (∀ depth, (Pkt.deepen depth).payload = "deepen " ++ toString depth) := by
  refine ⟨send_request_packets args st refs, ?_, ?_, ?_⟩
  · simp only [send_request, send_wants_first]
  · intro remote
    simp [Pkt.payload]
  · intro depth
    rfl

theorem sha1_to_hex_length (sha1 : Oid) : (sha1_to_hex sha1).length = 40 := by
  simp [sha1_to_hex, String.length]

theorem mem_ite_singleton (c : Prop) [Decidable c] (x y : String) :
    x ∈ (if c then [y] else []) ↔ c ∧ x = y := by
  split <;> simp [*]

/-- Which tokens are in the list. -/
theorem mem_capability_tokens (args : Args) (st : State) (x : String) :
    x ∈ capability_tokens args st ↔
      (st.multi_ack = true ∧ x = "multi_ack") ∨ (st.use_sideband = 2 ∧ x = "side-band-64k")
      ∨ (st.use_sideband = 1 ∧ x = "side-band") ∨ (args.use_thin_pack = true ∧ x = "thin-pack")
      ∨ (args.no_progress = true ∧ x = "no-progress")
      ∨ (args.include_tag = true ∧ x = "include-tag")
      ∨ (st.prefer_ofs_delta = true ∧ x = "ofs-delta") := by
  simp only [capability_tokens, List.mem_append, mem_ite_singleton, or_assoc]

/-- C6: the payload of the first want packet is `want `, the forty hex digits
of the name, the capability suffix and the line end; the suffix is made of the
tokens `multi_ack` (iff `multi_ack`), `side-band-64k` (iff `use_sideband` is
2), `side-band` (iff it is 1), `thin-pack`, `no-progress`, `include-tag`,
`ofs-delta` (iff the option of that name is set), in this order, each after
one space; the two side-band tokens never both appear; with only `multi_ack`
and `ofs-delta` enabled the line is `want <hex40> multi_ack ofs-delta`. -/
theorem first_want_payload (args : Args) (st : State) (remote : Oid) :
    (Pkt.want remote (want_caps args st)).payload
      = "want " ++ sha1_to_hex remote
          ++ String.join ((capability_tokens args st).map fun tok => " " ++ tok) ++ "\n"
    ∧ (sha1_to_hex remote).length = 40
    ∧ ("multi_ack" ∈ capability_tokens args st ↔ st.multi_ack = true)
    ∧ ("side-band-64k" ∈ capability_tokens args st ↔ st.use_sideband = 2)
    ∧ ("side-band" ∈ capability_tokens args st ↔ st.use_sideband = 1)
    ∧ ("thin-pack" ∈ capability_tokens args st ↔ args.use_thin_pack = true)
    ∧ ("no-progress" ∈ capability_tokens args st ↔ args.no_progress = true)
    ∧ ("include-tag" ∈ capability_tokens args st ↔ args.include_tag = true)
    ∧ ("ofs-delta" ∈ capability_tokens args st ↔ st.prefer_ofs_delta = true)
    ∧ ¬ ("side-band-64k" ∈ capability_tokens args st ∧ "side-band" ∈ capability_tokens args st)
    ∧ (st.multi_ack = true → st.prefer_ofs_delta = true → st.use_sideband = 0 →
        args.use_thin_pack = false → args.no_progress = false → args.include_tag = false →
        (Pkt.want remote (want_caps args st)).payload
          = "want " ++ sha1_to_hex remote ++ " multi_ack ofs-delta" ++ "\n") := by
  have hcaps : want_caps args st
      = String.join ((capability_tokens args st).map fun tok => " " ++ tok) := by
    unfold want_caps capability_tokens
    cases st.multi_ack <;> cases args.use_thin_pack <;> cases args.no_progress
      <;> cases args.include_tag <;> cases st.prefer_ofs_delta
      <;> by_cases h2 : st.use_sideband = 2 <;> by_cases h1 : st.use_sideband = 1
      <;> simp only [h1, h2, if_true, if_false, Bool.false_eq_true] <;> rfl
  refine ⟨?_, sha1_to_hex_length remote, ?_, ?_, ?_, ?_, ?_, ?_, ?_, ?_, ?_⟩
  · simp only [Pkt.payload, hcaps]
  case refine_10 =>
    intro a b c d e f
    simp only [Pkt.payload, want_caps, a, b, c, d, e, f]
    rfl
  case refine_9 =>
    rw [mem_capability_tokens, mem_capability_tokens]
    have e1 : ¬ ("side-band-64k" = "multi_ack") := by decide
    have e2 : ¬ ("side-band-64k" = "side-band") := by decide
    have e3 : ¬ ("side-band" = "side-band-64k") := by decide
    have e4 : ¬ ("side-band" = "multi_ack") := by decide
    have e5 : ¬ ("side-band-64k" = "thin-pack") := by decide
    have e6 : ¬ ("side-band-64k" = "no-progress") := by decide
    have e7 : ¬ ("side-band-64k" = "include-tag") := by decide
    have e8 : ¬ ("side-band-64k" = "ofs-delta") := by decide
    have f5 : ¬ ("side-band" = "thin-pack") := by decide
    have f6 : ¬ ("side-band" = "no-progress") := by decide
    have f7 : ¬ ("side-band" = "include-tag") := by decide
    have f8 : ¬ ("side-band" = "ofs-delta") := by decide
    simp only [e1, e2, e3, e4, e5, e6, e7, e8, f5, f6, f7, f8, and_false, false_or, or_false,
      and_true]
    omega
  all_goals
    rw [mem_capability_tokens]
    simp

theorem first_want_payload_witness :
    multi_ack_state.multi_ack = true ∧ multi_ack_state.prefer_ofs_delta = true
    ∧ multi_ack_state.use_sideband = 0
    ∧ (Pkt.want 11 (want_caps {} multi_ack_state)).payload
        = "want 000000000000000000000000000000000000000b multi_ack ofs-delta\n" :=
  ⟨rfl, rfl, rfl,
    ((first_want_payload {} multi_ack_state 11).2.2.2.2.2.2.2.2.2.2
      rfl rfl rfl rfl rfl rfl).trans (by decide)⟩

/-- The last loop of `everything_local`: the value returned says that every
ref of the list is found complete, and the list comes back with `local`
copied into `new_sha1` of every such ref. -/
theorem check_local_spec (w : Walk) (local_ : Oid) :
    ∀ (refs : List Ref) (retval : Bool),
      (check_local w local_ refs retval).2
        = refs.map (fun ref =>
            if is_complete w ref.old_sha1 then { ref with new_sha1 := local_ } else ref)
      ∧ ((check_local w local_ refs retval).1 = true ↔
          retval = true ∧ ∀ ref ∈ refs, is_complete w ref.old_sha1 = true) := by
  intro refs
  induction refs with
  | nil => intro retval; simp [check_local]
  | cons ref rest ih =>
    intro retval
    cases hc : is_complete w ref.old_sha1
    · simp only [check_local, hc, Bool.not_false, if_true, List.map_cons, Bool.false_eq_true,
        if_false, (ih false).1, true_and]
      rw [(ih false).2]
      simp [hc]
    · simp only [check_local, hc, Bool.not_true, Bool.false_eq_true, if_false, List.map_cons,
        if_true, (ih retval).1, true_and]
      rw [(ih retval).2]
      simp [hc]

/-- C7: if `everything_local` returns true (every ref that survived the filter
is found complete), `do_fetch_pack` writes one flush packet and nothing else,
reads nothing, calls neither `find_common` nor `get_pack`, and returns the
filtered list.  (`everything_local` is reached unless the repository is
shallow and the server does not support that.) -/
theorem do_fetch_pack_all_local (e : Env) (args : Args) (fuel : Nat) (st : State)
    (orig_ref : List Ref) (pats : List String) (inp : List Line) (l : Local)
    (hs : ¬ (st.is_shallow = true ∧ e.server_supports "shallow" = false))
    (h : everything_local e.repo e.check_ref_format args e.local_ fuel
          (set_capabilities e st) orig_ref pats = .ok l)
    (hret : l.ret = true) :
    ∃ f, do_fetch_pack e args fuel st orig_ref pats inp = .ok f
      ∧ f.trace = [.send .flush] ∧ f.inp = inp ∧ f.found = none ∧ f.pack = none
      ∧ f.refs = l.refs := by
  have hs1 : (st.is_shallow && !e.server_supports "shallow") = false := by
    cases h1 : st.is_shallow <;> cases h2 : e.server_supports "shallow" <;> simp_all
  refine ⟨{ refs := l.refs, pats := l.pats, st := l.st, inp := inp,
            trace := [.send .flush], found := none, pack := none }, ?_, rfl, rfl, rfl, rfl, rfl⟩
  simp only [do_fetch_pack, hs1, Bool.false_eq_true, if_false, h, hret, if_true]

theorem do_fetch_pack_all_local_witness :
    ¬ (State.init.is_shallow = true ∧ uptodate_env.server_supports "shallow" = false)
    ∧ everything_local uptodate_env.repo uptodate_env.check_ref_format {} uptodate_env.local_ 20
        (set_capabilities uptodate_env State.init)
        [{ name := "refs/heads/main", old_sha1 := 3 }] ["refs/heads/main"] = .ok uptodate_local
    ∧ uptodate_local.ret = true
    ∧ ∃ f, do_fetch_pack uptodate_env {} 20 State.init
          [{ name := "refs/heads/main", old_sha1 := 3 }] ["refs/heads/main"] [] = .ok f
        ∧ f.trace = [.send .flush] ∧ f.inp = [] ∧ f.found = none ∧ f.pack = none
        ∧ f.refs = uptodate_local.refs :=
  ⟨by decide, rfl, by decide,
    do_fetch_pack_all_local uptodate_env {} 20 State.init
      [{ name := "refs/heads/main", old_sha1 := 3 }] ["refs/heads/main"] [] uptodate_local
      (by decide) rfl (by decide)⟩

/-- C8, evaluated where the code breaks it: `everything_local` copies the
array `local`, which it never assigns, into `new_sha1` of every ref found
complete, so the returned ref carries whatever `local` held (here 77), not the
advertised name 3. -/
theorem new_sha1_from_unassigned_local :
    (∀ (w : Walk) (local_ : Oid) (refs : List Ref) (retval : Bool),
      (check_local w local_ refs retval).2
        = refs.map (fun ref =>
            if is_complete w ref.old_sha1 then { ref with new_sha1 := local_ } else ref))
    ∧ session_trace uptodate_session = [.send .flush]
    ∧ session_refs uptodate_session
        = [{ name := "refs/heads/main", old_sha1 := 3, new_sha1 := 77 }] := by
  refine ⟨fun w local_ refs retval => (check_local_spec w local_ refs retval).1, ?_, ?_⟩
  · decide
  · decide

/-- C9, as the code has it: when the advertised ref list is empty `fetch_pack`
dies with "no matching remote head" after it has written one flush packet, and
nothing else. -/
theorem fetch_pack_no_refs (e : Env) (my_args : Args) (fuel : Nat) (st : State)
    (heads : List String) (inp : List Line) :
    fetch_pack e my_args fuel st [] heads inp
      = .die "no matching remote head" [.send .flush] := by
  simp [fetch_pack]

/-- C9 as stated fails: with an empty advertised list the conversation is not
empty when `fetch_pack` dies, a flush packet has been written. -/
theorem fetch_pack_no_refs_writes :
    session_trace (fetch_pack (plain_env chain3) {} 5 State.init [] [] []) = [.send .flush]
    ∧ session_trace (fetch_pack (plain_env chain3) {} 5 State.init [] [] []) ≠ [] := by
  constructor
  · decide
  · decide

/-- C10, evaluated where the code breaks it: with `--all`, a non-zero depth
and the pattern `refs/tags/v1`, the advertised ref `refs/tags/v1` is not kept:
`filter_refs` reaches `return_refs[order-1] = ref` with `return_refs` null.
(Without `--all` the same ref is kept.) -/
theorem filter_refs_null_store :
    filter_refs (fun _ => false) { fetch_all := true, depth := 1 }
        [{ name := "refs/tags/v1", old_sha1 := 1 }] ["refs/tags/v1"] = none
    ∧ filter_refs (fun _ => false) { fetch_all := false, depth := 1 }
        [{ name := "refs/tags/v1", old_sha1 := 1 }] ["refs/tags/v1"]
        = some ([{ name := "refs/tags/v1", old_sha1 := 1 }], [""]) := by
  constructor
  · decide
  · decide

/-! ## The queue stays in order through a whole session -/

theorem Kept.self (s : Walk) : Kept s s := ⟨rfl, fun _ h => h⟩

theorem Kept.comp {s s1 s2 : Walk} (h1 : Kept s s1) (h2 : Kept s1 s2) : Kept s s2 :=
  ⟨h2.1.trans h1.1, fun o h => h2.2 o (h1.2 o h)⟩

theorem Kept.queued {r : Repo} {s s1 : Walk} (h : Kept s s1) (hq : Queued r s) :
    Queued r s1 := by
  refine ⟨?_, ?_⟩
  · intro c hc
    rw [h.1] at hc
    exact h.2 c (hq.1 c hc)
  · rw [h.1]; exact hq.2

theorem queued_init (r : Repo) : Queued r Walk.init :=
  ⟨fun c hc => by simp [Walk.init] at hc, by simp [Walk.init]⟩

theorem parse_commit_kept (r : Repo) (s : Walk) (c : Oid) : Kept s (parse_commit r s c).1 :=
  ⟨parse_commit_rev_list r s c, fun o h => parse_commit_parsed r s c o h⟩

theorem orFlags_kept (s : Walk) (o : Oid) (m : Nat) : Kept s (s.orFlags o m) :=
  ⟨rfl, fun _ h => h⟩

theorem lookup_commit_kept (r : Repo) (s : Walk) (sha1 : Oid) :
    Kept s (lookup_commit r s sha1).2 := by
  obtain ⟨a, _, c⟩ := lookup_commit_spec r s sha1
  exact ⟨a, fun o h => by rw [c]; exact h⟩

theorem parse_object_kept (r : Repo) (s : Walk) (sha1 : Oid) :
    Kept s (parse_object r s sha1).2 := by
  unfold parse_object
  split
  · exact Kept.self s
  · exact ⟨parse_commit_rev_list r s sha1, fun o h => parse_commit_parsed r s sha1 o h⟩
  · refine ⟨rfl, fun o h => ?_⟩
    simp only [Function.update_apply]
    split
    · rfl
    · exact h
  · refine ⟨rfl, fun o h => ?_⟩
    simp only [Function.update_apply]
    split
    · rfl
    · exact h

theorem deref_tag_kept (r : Repo) :
    ∀ (fuel : Nat) (s : Walk) (o : Option Oid) (res : Option Oid) (s1 : Walk),
      deref_tag r fuel s o = some (res, s1) → Kept s s1 := by
  intro fuel
  induction fuel with
  | zero => intro s o res s1 h; simp [deref_tag] at h
  | succ k ih =>
    intro s o res s1 h
    cases o with
    | none =>
      simp only [deref_tag, Option.some.injEq, Prod.mk.injEq] at h
      rw [← h.2]
      exact Kept.self s
    | some o =>
      simp only [deref_tag] at h
      split at h
      · split at h
        · exact (parse_object_kept r s _).comp (ih _ _ _ _ h)
        · simp only [Option.some.injEq, Prod.mk.injEq] at h
          rw [← h.2]
          exact Kept.self s
      · simp only [Option.some.injEq, Prod.mk.injEq] at h
        rw [← h.2]
        exact Kept.self s

theorem mark_complete_tags_kept (r : Repo) :
    ∀ (fuel : Nat) (s : Walk) (o : Option Oid) (res : Option Oid) (s1 : Walk),
      mark_complete_tags r fuel s o = some (res, s1) → Kept s s1 := by
  intro fuel
  induction fuel with
  | zero => intro s o res s1 h; simp [mark_complete_tags] at h
  | succ k ih =>
    intro s o res s1 h
    cases o with
    | none =>
      simp only [mark_complete_tags, Option.some.injEq, Prod.mk.injEq] at h
      rw [← h.2]
      exact Kept.self s
    | some o =>
      simp only [mark_complete_tags] at h
      split at h
      · split at h
        · simp only [Option.some.injEq, Prod.mk.injEq] at h
          rw [← h.2]
          exact Kept.self s
        · exact ((orFlags_kept s o COMPLETE).comp (parse_object_kept r _ _)).comp
            (ih _ _ _ _ h)
      · simp only [Option.some.injEq, Prod.mk.injEq] at h
        rw [← h.2]
        exact Kept.self s

theorem mark_complete_kept (r : Repo) (fuel : Nat) (st st1 : State) (sha1 : Oid)
    (h : mark_complete r fuel st sha1 = some st1) : Kept st.w st1.w := by
  simp only [mark_complete] at h
  split at h
  · cases h
  · next w1 hm =>
    simp only [Option.some.injEq] at h
    subst h
    exact (parse_object_kept r st.w sha1).comp (mark_complete_tags_kept r fuel _ _ _ _ hm)
  · next o w1 hm =>
    have k1 := (parse_object_kept r st.w sha1).comp (mark_complete_tags_kept r fuel _ _ _ _ hm)
    split at h
    · simp only [Option.some.injEq] at h
      subst h
      exact k1.comp (orFlags_kept w1 o COMPLETE)
    · simp only [Option.some.injEq] at h
      subst h
      exact k1

/-- A loop over a list whose every turn keeps the queue. -/
theorem foldlM_kept {σ : Type} (π : σ → Walk) (f : σ → Oid → Option σ)
    (step : ∀ s p s1, f s p = some s1 → Kept (π s) (π s1)) :
    ∀ (ps : List Oid) (s s1 : σ), ps.foldlM f s = some s1 → Kept (π s) (π s1) := by
  intro ps
  induction ps with
  | nil =>
    intro s s1 h
    simp only [List.foldlM_nil, pure, Option.some.injEq] at h
    subst h
    exact Kept.self _
  | cons p rest ih =>
    intro s s1 h
    simp only [List.foldlM_cons, bind, Option.bind] at h
    split at h
    · cases h
    · next s2 h2 => exact (step s p s2 h2).comp (ih s2 s1 h)

theorem pop_most_recent_commit_kept (r : Repo) (w : Walk) (list : List Oid) (mark : Nat) :
    Kept w (pop_most_recent_commit r w list mark).1 := by
  unfold pop_most_recent_commit
  split
  · exact Kept.self w
  · next ret rest =>
    generalize w.parents r ret = ps
    have key : ∀ (ps : List Oid) (acc : Walk × List Oid),
        Kept acc.1 (ps.foldl
          (fun (acc : Walk × List Oid) commit =>
            if (parse_commit r acc.1 commit).1.flags commit &&& mark = 0 then
              (((parse_commit r acc.1 commit).1.orFlags commit mark),
                insert_by_date (((parse_commit r acc.1 commit).1.orFlags commit mark).date r)
                  commit acc.2)
            else ((parse_commit r acc.1 commit).1, acc.2)) acc).1 := by
      intro ps
      induction ps with
      | nil => intro acc; exact Kept.self _
      | cons p rest1 ih =>
        intro acc
        simp only [List.foldl_cons]
        refine Kept.comp ?_ (ih _)
        split
        · exact (parse_commit_kept r acc.1 p).comp (orFlags_kept _ _ _)
        · exact parse_commit_kept r acc.1 p
    exact key ps (w, rest)

theorem mark_recent_complete_commits_kept (r : Repo) :
    ∀ (fuel : Nat) (st : State) (cutoff : Nat) (st1 : State),
      mark_recent_complete_commits r fuel st cutoff = some st1 → Kept st.w st1.w := by
  intro fuel
  induction fuel with
  | zero => intro st cutoff st1 h; simp [mark_recent_complete_commits] at h
  | succ k ih =>
    intro st cutoff st1 h
    simp only [mark_recent_complete_commits] at h
    split at h
    · simp only [Option.some.injEq] at h
      subst h
      exact Kept.self _
    · split at h
      · exact (pop_most_recent_commit_kept r st.w st.complete COMPLETE).comp (ih _ _ _ h)
      · simp only [Option.some.injEq] at h
        subst h
        exact Kept.self _

theorem find_cutoff_kept (r : Repo) :
    ∀ (refs : List Ref) (w : Walk) (cutoff : Nat), Kept w (find_cutoff r refs w cutoff).1 := by
  intro refs
  induction refs with
  | nil => intro w cutoff; exact Kept.self w
  | cons ref rest ih =>
    intro w cutoff
    simp only [find_cutoff]
    split
    · exact (parse_object_kept r w _).comp (ih _ _)
    · split
      · exact (parse_object_kept r w _).comp (ih _ _)
      · exact (parse_object_kept r w _).comp (ih _ _)

theorem rev_list_push_queued (r : Repo) (s : Walk) (c : Oid) (mark : Nat)
    (hq : Queued r s) : Queued r (rev_list_push r s c mark) :=
  (rev_list_push_grows r (r.date c) True s c mark hq (Nat.le_refl _)
    (fun _ => Or.inr trivial)).queued

theorem mark_common_queued (r : Repo) (hd : DatesDescend r) (fuel : Nat) (s : Walk)
    (commit : Option Oid) (ao dp : Bool) (s1 : Walk) (hq : Queued r s)
    (h : mark_common r fuel s commit ao dp = some s1) : Queued r s1 := by
  cases commit with
  | none =>
    cases fuel with
    | zero => simp [mark_common] at h
    | succ k =>
      simp only [mark_common, Option.some.injEq] at h
      subst h
      exact hq
  | some c =>
    exact (mark_common_grows r hd fuel s c ao dp s1 (r.date c) hq (Nat.le_refl _) h).queued

theorem mark_common_refs_queued (r : Repo) (hd : DatesDescend r) (fuel : Nat) :
    ∀ (refs : List Ref) (w w1 : Walk), Queued r w →
      mark_common_refs r fuel refs w = some w1 → Queued r w1 := by
  intro refs
  induction refs with
  | nil =>
    intro w w1 hq h
    simp only [mark_common_refs, Option.some.injEq] at h
    subst h
    exact hq
  | cons ref rest ih =>
    intro w w1 hq h
    simp only [mark_common_refs] at h
    split at h
    · cases h
    · next wa hdt => exact ih _ _ ((deref_tag_kept r fuel _ _ _ _ hdt).queued hq) h
    · next o wa hdt =>
      have hqa : Queued r wa := (deref_tag_kept r fuel _ _ _ _ hdt).queued hq
      split at h
      · exact ih _ _ hqa h
      · split at h
        · split at h
          · cases h
          · next wb hmc =>
            exact ih _ _ (mark_common_queued r hd fuel _ _ _ _ wb
              (rev_list_push_queued r wa o _ hqa) hmc) h
        · exact ih _ _ hqa h

/-- `everything_local` leaves the queue in order. -/
theorem everything_local_queued (r : Repo) (hd : DatesDescend r)
    (check_ref_format : String → Bool) (args : Args) (local_ : Oid) (fuel : Nat) (st : State)
    (refs : List Ref) (pats : List String) (l : Local) (hq : Queued r st.w)
    (h : everything_local r check_ref_format args local_ fuel st refs pats = .ok l) :
    Queued r l.st.w := by
  simp only [everything_local] at h
  have hq1 : Queued r (find_cutoff r refs st.w 0).1 := (find_cutoff_kept r refs st.w 0).queued hq
  split at h
  · cases h
  · next st3 hm =>
    have hq3 : Queued r st3.w := by
      split at hm
      · split at hm
        · cases hm
        · next st2 hfe =>
          have k2 : Kept (find_cutoff r refs st.w 0).1 st2.w :=
            foldlM_kept (fun (x : State) => x.w) (mark_complete r fuel)
              (fun s p s1 hs => mark_complete_kept r fuel s s1 p hs) _ _ _ hfe
          split at hm
          · exact (k2.comp (mark_recent_complete_commits_kept r fuel _ _ _ hm)).queued hq1
          · simp only [Option.some.injEq] at hm
            subst hm
            exact k2.queued hq1
      · simp only [Option.some.injEq] at hm
        subst hm
        exact hq1
    split at h
    · cases h
    · next w4 hmr =>
      have hq4 := mark_common_refs_queued r hd fuel refs st3.w w4 hq3 hmr
      split at h
      · cases h
      · simp only [Run.ok.injEq] at h
        subst h
        exact hq4

theorem clear_commit_marks_kept (r : Repo) :
    ∀ (fuel : Nat) (s : Walk) (c : Oid) (mark : Nat) (s1 : Walk),
      clear_commit_marks r fuel s c mark = some s1 → Kept s s1 := by
  intro fuel
  induction fuel with
  | zero => intro s c mark s1 h; simp [clear_commit_marks] at h
  | succ k ih =>
    intro s c mark s1 h
    simp only [clear_commit_marks] at h
    split at h
    · simp only [Option.some.injEq] at h
      subst h
      exact Kept.self s
    · refine Kept.comp ?_ (foldlM_kept (fun (x : Walk) => x)
        (fun s2 p => clear_commit_marks r k s2 p mark)
        (fun sa p sb hs => ih sa p mark sb hs) _ _ _ h)
      exact ⟨rfl, fun _ ho => ho⟩

theorem clear_marks_kept (r : Repo) (fuel : Nat) (s : Walk) (sha1 : Oid) (s1 : Walk)
    (h : clear_marks r fuel s sha1 = some s1) : Kept s s1 := by
  simp only [clear_marks] at h
  split at h
  · cases h
  · next wa hdt =>
    simp only [Option.some.injEq] at h
    subst h
    exact (parse_object_kept r s sha1).comp (deref_tag_kept r fuel _ _ _ _ hdt)
  · next o wa hdt =>
    have k1 := (parse_object_kept r s sha1).comp (deref_tag_kept r fuel _ _ _ _ hdt)
    split at h
    · exact k1.comp (clear_commit_marks_kept r fuel _ _ _ _ h)
    · simp only [Option.some.injEq] at h
      subst h
      exact k1

theorem rev_list_insert_ref_queued (r : Repo) (fuel : Nat) (s : Walk) (sha1 : Oid)
    (s1 : Walk) (hq : Queued r s) (h : rev_list_insert_ref r fuel s sha1 = some s1) :
    Queued r s1 := by
  simp only [rev_list_insert_ref] at h
  split at h
  · cases h
  · next wa hdt =>
    simp only [Option.some.injEq] at h
    subst h
    exact ((parse_object_kept r s sha1).comp (deref_tag_kept r fuel _ _ _ _ hdt)).queued hq
  · next o wa hdt =>
    have hqa : Queued r wa :=
      ((parse_object_kept r s sha1).comp (deref_tag_kept r fuel _ _ _ _ hdt)).queued hq
    split at h
    · simp only [Option.some.injEq] at h
      subst h
      exact rev_list_push_queued r wa o SEEN hqa
    · simp only [Option.some.injEq] at h
      subst h
      exact hqa

/-- A loop over a list whose every turn keeps the queue in order. -/
theorem foldlM_queued {r : Repo} (f : Walk → Oid → Option Walk)
    (step : ∀ s p s1, Queued r s → f s p = some s1 → Queued r s1) :
    ∀ (ps : List Oid) (s s1 : Walk), Queued r s → ps.foldlM f s = some s1 → Queued r s1 := by
  intro ps
  induction ps with
  | nil =>
    intro s s1 hq h
    simp only [List.foldlM_nil, pure, Option.some.injEq] at h
    subst h
    exact hq
  | cons p rest ih =>
    intro s s1 hq h
    simp only [List.foldlM_cons, bind, Option.bind] at h
    split at h
    · cases h
    · next s2 h2 => exact ih s2 s1 (step s p s2 hq h2) h

/-- The start of `find_common` leaves the queue in order. -/
theorem find_common_setup_queued (r : Repo) (fuel : Nat) (st st1 : State)
    (hq : Queued r st.w) (h : find_common_setup r fuel st = some st1) : Queued r st1.w := by
  simp only [find_common_setup] at h
  split at h
  · cases h
  · next w1 hc =>
    have hq1 : Queued r w1 := by
      split at hc
      · exact (foldlM_kept (fun (x : Walk) => x) (clear_marks r fuel)
          (fun s p s1 hs => clear_marks_kept r fuel s p s1 hs) _ _ _ hc).queued hq
      · simp only [Option.some.injEq] at hc
        subst hc
        exact hq
    split at h
    · cases h
    · next w2 hi =>
      simp only [Option.some.injEq] at h
      subst h
      exact foldlM_queued (rev_list_insert_ref r fuel)
        (fun s p s1 hqs hs => rev_list_insert_ref_queued r fuel s p s1 hqs hs) _ _ _ hq1 hi

theorem haves_sends (ps : List Pkt) (h : ∀ p ∈ ps, ∀ o, p ≠ Pkt.have o) :
    haves (ps.map Ev.send) = [] := by
  induction ps with
  | nil => rfl
  | cons p rest ih =>
    have hp := h p (by simp)
    have hr := ih (fun q hq => h q (by simp [hq]))
    cases p with
    | «have» o => exact absurd rfl (hp o)
    | _ => simpa [haves] using hr

theorem haves_recvs (ls : List Line) : haves (ls.map Ev.recv) = [] := by
  induction ls with
  | nil => rfl
  | cons l rest ih => simpa [haves] using ih

/-- Phase 1 writes no have line. -/
theorem send_request_haves (args : Args) (st : State) (refs : List Ref) :
    haves ((send_request args st refs).1.map Ev.send) = [] := by
  apply haves_sends
  intro p hp o
  rw [send_request_packets args st refs] at hp
  simp only [List.mem_append, List.mem_singleton] at hp
  rcases hp with ((hp | hp) | hp) | hp
  · split at hp
    · simp at hp
    · simp only [List.mem_cons, List.mem_map] at hp
      rcases hp with hp | ⟨_, _, hp⟩
      · rw [hp]; exact fun h => by cases h
      · rw [← hp]; exact fun h => by cases h
  · split at hp
    · simp only [List.mem_map] at hp
      obtain ⟨_, _, hp⟩ := hp
      rw [← hp]; exact fun h => by cases h
    · simp at hp
  · split at hp
    · simp only [List.mem_singleton] at hp
      rw [hp]; exact fun h => by cases h
    · simp at hp
  · rw [hp]; exact fun h => by cases h

/-- Phase 2 keeps the queue in order and reads only. -/
theorem read_shallow_spec (r : Repo) :
    ∀ (inp : List Line) (st : State), Queued r st.w →
      (∀ st2 inp2 evs, read_shallow r inp st = .ok (st2, inp2, evs) →
        Queued r st2.w ∧ haves evs = [])
      ∧ (∀ msg t, read_shallow r inp st = .die msg t → haves t = []) := by
  intro inp
  induction inp with
  | nil =>
    intro st _
    refine ⟨?_, ?_⟩
    · intro st2 inp2 evs h; simp [read_shallow] at h
    · intro msg t h
      simp only [read_shallow, Run.die.injEq] at h
      rw [← h.2]; rfl
  | cons l rest ih =>
    intro st hq
    cases l
    case flush =>
      refine ⟨?_, ?_⟩
      · intro st2 inp2 evs h
        simp only [read_shallow, Run.ok.injEq, Prod.mk.injEq] at h
        obtain ⟨h1, _, h3⟩ := h
        subst h1 h3
        exact ⟨hq, rfl⟩
      · intro msg t h; simp [read_shallow] at h
    case shallow sha1 =>
      have hq1 : Queued r (lookup_commit r st.w sha1).2 :=
        (lookup_commit_kept r st.w sha1).queued hq
      obtain ⟨a, b⟩ := ih
        { st with shallow := sha1 :: st.shallow, w := (lookup_commit r st.w sha1).2 } hq1
      refine ⟨?_, ?_⟩
      · intro st2 inp2 evs h
        simp only [read_shallow] at h
        split at h
        · next sa ia ea hr =>
          simp only [Run.after, Run.ok.injEq, Prod.mk.injEq] at h
          obtain ⟨h1, _, h3⟩ := h
          subst h1 h3
          obtain ⟨c, d⟩ := a _ _ _ hr
          exact ⟨c, by simpa [haves] using d⟩
        · next other hne =>
          cases hr : read_shallow r rest
            { st with shallow := sha1 :: st.shallow, w := (lookup_commit r st.w sha1).2 } with
          | ok p => exact absurd hr (hne p.1 p.2.1 p.2.2)
          | die m t1 => rw [hr] at h; simp [Run.after] at h
          | crash => rw [hr] at h; simp [Run.after] at h
          | out_of_fuel => rw [hr] at h; simp [Run.after] at h
      · intro msg t h
        simp only [read_shallow] at h
        split at h
        · simp [Run.after] at h
        · next other hne =>
          cases hr : read_shallow r rest
            { st with shallow := sha1 :: st.shallow, w := (lookup_commit r st.w sha1).2 } with
          | ok p => exact absurd hr (hne p.1 p.2.1 p.2.2)
          | die m t1 =>
            rw [hr] at h
            simp only [Run.after, Run.die.injEq] at h
            rw [← h.2]
            simpa [haves] using b m t1 hr
          | crash => rw [hr] at h; simp [Run.after] at h
          | out_of_fuel => rw [hr] at h; simp [Run.after] at h
    case unshallow sha1 =>
      have hq1 : Queued r (parse_object r st.w sha1).2 :=
        (parse_object_kept r st.w sha1).queued hq
      obtain ⟨a, b⟩ := ih
        { st with w := (parse_object r st.w sha1).2,
                  shallow := st.shallow.filter (· ≠ sha1) } hq1
      refine ⟨?_, ?_⟩
      · intro st2 inp2 evs h
        simp only [read_shallow] at h
        split at h
        · cases h
        · split at h
          · cases h
          · split at h
            · cases h
            · split at h
              · next sa ia ea hr =>
                simp only [Run.after, Run.ok.injEq, Prod.mk.injEq] at h
                obtain ⟨h1, _, h3⟩ := h
                subst h1 h3
                obtain ⟨c, d⟩ := a _ _ _ hr
                exact ⟨c, by simpa [haves] using d⟩
              · next other hne =>
                cases hr : read_shallow r rest
                  { st with w := (parse_object r st.w sha1).2,
                            shallow := st.shallow.filter (· ≠ sha1) } with
                | ok p => exact absurd hr (hne p.1 p.2.1 p.2.2)
                | die m t1 => rw [hr] at h; simp [Run.after] at h
                | crash => rw [hr] at h; simp [Run.after] at h
                | out_of_fuel => rw [hr] at h; simp [Run.after] at h
      · intro msg t h
        simp only [read_shallow] at h
        split at h
        · simp only [Run.die.injEq] at h
          rw [← h.2]; rfl
        · split at h
          · simp only [Run.die.injEq] at h
            rw [← h.2]; rfl
          · split at h
            · simp only [Run.die.injEq] at h
              rw [← h.2]; rfl
            · split at h
              · simp [Run.after] at h
              · next other hne =>
                cases hr : read_shallow r rest
                  { st with w := (parse_object r st.w sha1).2,
                            shallow := st.shallow.filter (· ≠ sha1) } with
                | ok p => exact absurd hr (hne p.1 p.2.1 p.2.2)
                | die m t1 =>
                  rw [hr] at h
                  simp only [Run.after, Run.die.injEq] at h
                  rw [← h.2]
                  simpa [haves] using b m t1 hr
                | crash => rw [hr] at h; simp [Run.after] at h
                | out_of_fuel => rw [hr] at h; simp [Run.after] at h
    all_goals
      refine ⟨?_, ?_⟩
      · intro st2 inp2 evs h; simp [read_shallow] at h
      · intro msg t h
        simp only [read_shallow, Run.die.injEq] at h
        rw [← h.2]; rfl

/-- Phase 4 writes no have line. -/
theorem drain_acks_haves :
    ∀ (inp : List Line) (n : Neg),
      (∀ ret n1, drain_acks inp n = .ok (ret, n1) → haves n1.trace = haves n.trace)
      ∧ (∀ msg t, drain_acks inp n = .die msg t → haves t = haves n.trace) := by
  intro inp
  induction inp with
  | nil =>
    intro n
    refine ⟨?_, ?_⟩
    · intro ret n1 h
      simp only [drain_acks] at h
      split at h
      · cases h
      · simp only [Run.ok.injEq, Prod.mk.injEq] at h
        rw [← h.2]
    · intro msg t h
      simp only [drain_acks] at h
      split at h
      · simp only [Run.die.injEq] at h
        rw [← h.2]
      · cases h
  | cons l rest ih =>
    intro n
    have e1 : haves (n.trace ++ [.recv l]) = haves n.trace := by
      simp [haves_append, haves]
    refine ⟨?_, ?_⟩
    · intro ret n1 h
      simp only [drain_acks] at h
      split at h
      · split at h
        · cases h
        · simp only [Run.ok.injEq, Prod.mk.injEq] at h
          rw [← h.2]; exact e1
        · rw [(ih _).1 ret n1 h]; exact e1
        · rw [(ih _).1 ret n1 h]; exact e1
      · simp only [Run.ok.injEq, Prod.mk.injEq] at h
        rw [← h.2]
    · intro msg t h
      simp only [drain_acks] at h
      split at h
      · split at h
        · simp only [Run.die.injEq] at h
          rw [← h.2]; exact e1
        · cases h
        · rw [(ih _).2 msg t h]; exact e1
        · rw [(ih _).2 msg t h]; exact e1
      · cases h

theorem send_done_haves (n : Neg) :
    (∀ ret n1, send_done n = .ok (ret, n1) → haves n1.trace = haves n.trace)
    ∧ (∀ msg t, send_done n = .die msg t → haves t = haves n.trace) := by
  have e1 : haves (n.trace ++ [.send .done]) = haves n.trace := by
    simp [haves_append, haves]
  simp only [send_done]
  split
  · refine ⟨fun ret n1 h => ?_, fun msg t h => ?_⟩
    · rw [(drain_acks_haves _ _).1 ret n1 h]; exact e1
    · rw [(drain_acks_haves _ _).2 msg t h]; exact e1
  · refine ⟨fun ret n1 h => ?_, fun msg t h => ?_⟩
    · rw [(drain_acks_haves _ _).1 ret n1 h]; exact e1
    · rw [(drain_acks_haves _ _).2 msg t h]; exact e1

/-- Phase 4 does not touch the walk. -/
theorem drain_acks_w :
    ∀ (inp : List Line) (n : Neg) (ret : Int) (n1 : Neg),
      drain_acks inp n = .ok (ret, n1) → n1.w = n.w := by
  intro inp
  induction inp with
  | nil =>
    intro n ret n1 h
    simp only [drain_acks] at h
    split at h
    · cases h
    · simp only [Run.ok.injEq, Prod.mk.injEq] at h
      rw [← h.2]
  | cons l rest ih =>
    intro n ret n1 h
    simp only [drain_acks] at h
    split at h
    · split at h
      · cases h
      · simp only [Run.ok.injEq, Prod.mk.injEq] at h
        rw [← h.2]
      · rw [ih _ ret n1 h]
      · rw [ih _ ret n1 h]
    · simp only [Run.ok.injEq, Prod.mk.injEq] at h
      rw [← h.2]

theorem send_done_w (n : Neg) (ret : Int) (n1 : Neg) (h : send_done n = .ok (ret, n1)) :
    n1.w = n.w := by
  simp only [send_done] at h
  split at h
  · rw [drain_acks_w _ _ ret n1 h]
  · rw [drain_acks_w _ _ ret n1 h]

/-- The have loop leaves the queue in order. -/
theorem have_loop_queued (r : Repo) (hd : DatesDescend r) :
    ∀ (fuel : Nat) (n : Neg) (e : Exit) (n1 : Neg), Queued r n.w →
      have_loop r fuel n = .ok (e, n1) → Queued r n1.w := by
  intro fuel
  induction fuel with
  | zero => intro n e n1 _ h; simp [have_loop] at h
  | succ k ih =>
    intro n e n1 hq h
    simp only [have_loop] at h
    split at h
    · cases h
    · next w1 hg =>
      simp only [Run.ok.injEq, Prod.mk.injEq] at h
      rw [← h.2]
      exact (get_rev_dates r hd k n.w none w1 hq hg).1
    · next sha1 w1 hg =>
      have q1 := (get_rev_dates r hd k n.w (some sha1) w1 hq hg).1
      split at h
      · split at h
        · exact ih _ e n1 q1 h
        · have hp := poll_acks_dates r hd k n.inp
            { n with w := w1, trace := n.trace ++ [.send (.have sha1)] ++ [.send .flush],
                     in_vain := n.in_vain + 1, count := n.count + 1,
                     flushes := n.flushes + 1 }
          split at h
          · next n3 hp3 =>
            simp only [Run.ok.injEq, Prod.mk.injEq] at h
            rw [← h.2]
            exact (hp n3 q1 (Or.inl hp3)).1
          · cases h
          · cases h
          · next n3 hp3 =>
            have q3 := (hp n3 q1 (Or.inr (Or.inl hp3))).1
            split at h
            · simp only [Run.ok.injEq, Prod.mk.injEq] at h
              rw [← h.2]
              exact q3
            · exact ih { n3 with flushes := n3.flushes - 1 } e n1 q3 h
      · exact ih _ e n1 q1 h

/-- `find_common` in a graph without clock skew: the have lines of the
conversation come in descending date order, also when it dies, and the queue
is left in order. -/
theorem find_common_dates (r : Repo) (hd : DatesDescend r) (args : Args) (fuel : Nat)
    (st : State) (refs : List Ref) (inp : List Line) (hq : Queued r st.w) :
    (∀ f, find_common r args fuel st refs inp = .ok f →
      (haves f.trace).Pairwise (fun a b => r.date b ≤ r.date a) ∧ Queued r f.st.w)
    ∧ (∀ msg t, find_common r args fuel st refs inp = .die msg t →
      (haves t).Pairwise (fun a b => r.date b ≤ r.date a)) := by
  simp only [find_common]
  split
  · exact ⟨fun f h => (by cases h), fun msg t h => (by cases h)⟩
  · next st1 hset =>
    have hq1 := find_common_setup_queued r fuel st st1 hq hset
    have ht1 := send_request_haves args st1 refs
    split
    · refine ⟨fun f h => ?_, fun msg t h => (by cases h)⟩
      simp only [Run.ok.injEq] at h
      subst h
      simp only [ht1]
      exact ⟨List.Pairwise.nil, hq1⟩
    · have hph : (∀ st2 inp2 evs,
            (if args.depth > 0 then read_shallow r inp st1 else .ok (st1, inp, []))
              = .ok (st2, inp2, evs) → Queued r st2.w ∧ haves evs = [])
          ∧ (∀ msg t,
            (if args.depth > 0 then read_shallow r inp st1 else .ok (st1, inp, []))
              = .die msg t → haves t = []) := by
        split
        · exact read_shallow_spec r inp st1 hq1
        · refine ⟨fun st2 inp2 evs h => ?_, fun msg t h => (by cases h)⟩
          simp only [Run.ok.injEq, Prod.mk.injEq] at h
          obtain ⟨h1, _, h3⟩ := h
          subst h1 h3
          exact ⟨hq1, rfl⟩
      generalize (if args.depth > 0 then read_shallow r inp st1 else Run.ok (st1, inp, []))
        = ph2 at hph
      obtain ⟨hpa, hpb⟩ := hph
      split
      · next msg0 t0 =>
        refine ⟨fun f h => (by cases h), fun msg t h => ?_⟩
        simp only [Run.die.injEq] at h
        rw [← h.2, haves_append, ht1, hpb msg0 t0 rfl]
        exact List.Pairwise.nil
      · exact ⟨fun f h => (by cases h), fun msg t h => (by cases h)⟩
      · exact ⟨fun f h => (by cases h), fun msg t h => (by cases h)⟩
      · next st2 inp2 t2 =>
        obtain ⟨hq2, ht2⟩ := hpa st2 inp2 t2 rfl
        have hloop := have_lines_descend r hd fuel st2.w hq2 st2.multi_ack inp2
        split
        · next msg0 t0 hl =>
          refine ⟨fun f h => (by simp [Run.after] at h), fun msg t h => ?_⟩
          simp only [Run.after, Run.die.injEq] at h
          rw [← h.2]
          simp only [haves_append, ht1, ht2, List.nil_append]
          exact hloop t0 (by rw [hl]; rfl)
        · exact ⟨fun f h => (by simp [Run.after] at h), fun msg t h => (by simp [Run.after] at h)⟩
        · exact ⟨fun f h => (by simp [Run.after] at h), fun msg t h => (by simp [Run.after] at h)⟩
        · next e0 n hl =>
          have hn := hloop n.trace (by rw [hl]; rfl)
          have hqn := have_loop_queued r hd fuel _ e0 n hq2 hl
          obtain ⟨sa, sb⟩ := send_done_haves n
          split
          · next msg0 t0 hsd =>
            refine ⟨fun f h => (by simp [Run.after] at h), fun msg t h => ?_⟩
            simp only [Run.after, Run.die.injEq] at h
            rw [← h.2]
            simp only [haves_append, ht1, ht2, List.nil_append]
            rw [sb msg0 t0 hsd]
            exact hn
          · exact ⟨fun f h => (by simp [Run.after] at h),
              fun msg t h => (by simp [Run.after] at h)⟩
          · exact ⟨fun f h => (by simp [Run.after] at h),
              fun msg t h => (by simp [Run.after] at h)⟩
          · next ret n1 hsd =>
            refine ⟨fun f h => ?_, fun msg t h => (by simp [Run.after] at h)⟩
            simp only [Run.after, Run.ok.injEq] at h
            subst h
            simp only [haves_append, ht1, ht2, List.nil_append]
            rw [sa ret n1 hsd]
            refine ⟨hn, ?_⟩
            show Queued r n1.w
            rw [send_done_w n ret n1 hsd]
            exact hqn

theorem set_capabilities_w (e : Env) (st : State) : (set_capabilities e st).w = st.w := by
  simp only [set_capabilities]
  split_ifs <;> rfl

theorem fetch_pack_setup_w (e : Env) (st : State) : (fetch_pack_setup e st).w = st.w := by
  have hc : ∀ (entry : String × Int) (s : State), (fetch_pack_config s entry).w = s.w := by
    intro entry s
    unfold fetch_pack_config
    split
    · rfl
    · split
      · rfl
      · split <;> rfl
  have hf : ∀ (cfg : List (String × Int)) (s : State),
      (cfg.foldl fetch_pack_config s).w = s.w := by
    intro cfg
    induction cfg with
    | nil => intro s; rfl
    | cons c rest ih => intro s; simp only [List.foldl_cons]; rw [ih, hc]
  unfold fetch_pack_setup
  split
  · rfl
  · simp only
    split
    · exact hf _ _
    · split
      · exact hf _ _
      · exact hf _ _

/-- `do_fetch_pack` in a graph without clock skew. -/
theorem do_fetch_pack_dates (e : Env) (hd : DatesDescend e.repo) (args : Args) (fuel : Nat)
    (st : State) (orig_ref : List Ref) (pats : List String) (inp : List Line)
    (hq : Queued e.repo st.w) :
    (∀ f, do_fetch_pack e args fuel st orig_ref pats inp = .ok f →
      (haves f.trace).Pairwise (fun a b => e.repo.date b ≤ e.repo.date a)
        ∧ Queued e.repo f.st.w)
    ∧ (∀ msg t, do_fetch_pack e args fuel st orig_ref pats inp = .die msg t →
      (haves t).Pairwise (fun a b => e.repo.date b ≤ e.repo.date a)) := by
  simp only [do_fetch_pack]
  split
  · refine ⟨fun f h => (by cases h), fun msg t h => ?_⟩
    simp only [Run.die.injEq] at h
    rw [← h.2]
    exact List.Pairwise.nil
  · split
    · next msg0 t0 hev =>
      exfalso
      simp only [everything_local] at hev
      split at hev
      · cases hev
      · split at hev
        · cases hev
        · split at hev <;> cases hev
    · exact ⟨fun f h => (by cases h), fun msg t h => (by cases h)⟩
    · exact ⟨fun f h => (by cases h), fun msg t h => (by cases h)⟩
    · next l hev =>
      have hql : Queued e.repo l.st.w :=
        everything_local_queued e.repo hd _ args _ fuel _ orig_ref pats l
          (by rw [set_capabilities_w]; exact hq) hev
      split
      · refine ⟨fun f h => ?_, fun msg t h => (by cases h)⟩
        simp only [Run.ok.injEq] at h
        subst h
        exact ⟨by simp [haves], hql⟩
      · obtain ⟨fa, fb⟩ := find_common_dates e.repo hd args fuel l.st l.refs inp hql
        split
        · next msg0 t0 hfc =>
          refine ⟨fun f h => (by cases h), fun msg t h => ?_⟩
          simp only [Run.die.injEq] at h
          rw [← h.2]
          exact fb msg0 t0 hfc
        · exact ⟨fun f h => (by cases h), fun msg t h => (by cases h)⟩
        · exact ⟨fun f h => (by cases h), fun msg t h => (by cases h)⟩
        · next f0 hfc =>
          obtain ⟨p1, p2⟩ := fa f0 hfc
          split
          · refine ⟨fun f h => (by cases h), fun msg t h => ?_⟩
            simp only [Run.die.injEq] at h
            rw [← h.2]
            exact p1
          · exact ⟨fun f h => (by cases h), fun msg t h => (by cases h)⟩
          · exact ⟨fun f h => (by cases h), fun msg t h => (by cases h)⟩
          · refine ⟨fun f h => ?_, fun msg t h => (by cases h)⟩
            simp only [Run.ok.injEq] at h
            subst h
            exact ⟨p1, p2⟩

/-- C4, as the code has it: in a commit graph where no commit has a parent
with a later committer date than its own, the have lines of a session are
written in date-descending order: the commits returned by the successive
`get_rev` calls have non-increasing committer dates.  This holds for the
conversation of every session, also one that dies, that starts with the walk
queue in descending date order, as it is in a fresh process and, by the second
part, after every session that returns. -/
theorem session_have_lines_descend (e : Env) (hd : DatesDescend e.repo) (my_args : Args)
    (fuel : Nat) (st : State) (hq : Queued e.repo st.w) (ref : List Ref)
    (heads : List String) (inp : List Line) :
    (haves (session_trace (fetch_pack e my_args fuel st ref heads inp))).Pairwise
        (fun a b => e.repo.date b ≤ e.repo.date a)
    ∧ (∀ f, fetch_pack e my_args fuel st ref heads inp = .ok f → Queued e.repo f.st.w) := by
  simp only [fetch_pack]
  split
  · exact ⟨by simp [session_trace, haves], fun f h => (by cases h)⟩
  · obtain ⟨da, db⟩ := do_fetch_pack_dates e hd my_args fuel (fetch_pack_setup e st) ref
      (if heads.length ≠ 0 then
        (remove_duplicates heads.length heads).2.take (remove_duplicates heads.length heads).1
       else heads) inp (by rw [fetch_pack_setup_w]; exact hq)
    split
    · next msg0 t0 hdo => exact ⟨db msg0 t0 hdo, fun f h => (by cases h)⟩
    · exact ⟨by simp [session_trace, haves], fun f h => (by cases h)⟩
    · exact ⟨by simp [session_trace, haves], fun f h => (by cases h)⟩
    · next f0 hdo =>
      obtain ⟨p1, p2⟩ := da f0 hdo
      split
      · split
        · split
          · exact ⟨p1, fun f h => (by cases h)⟩
          · refine ⟨p1, fun f h => ?_⟩
            simp only [Run.ok.injEq] at h
            subst h
            exact p2
        · split
          · exact ⟨p1, fun f h => (by cases h)⟩
          · refine ⟨p1, fun f h => ?_⟩
            simp only [Run.ok.injEq] at h
            subst h
            exact p2
      · refine ⟨p1, fun f h => ?_⟩
        simp only [Run.ok.injEq] at h
        subst h
        exact p2

theorem session_have_lines_descend_witness :
    DatesDescend (plain_env chain3).repo ∧ Queued (plain_env chain3).repo State.init.w
    ∧ haves (session_trace chain3_session) = [3, 2, 1]
    ∧ ((haves (session_trace chain3_session)).Pairwise
        (fun a b => (plain_env chain3).repo.date b ≤ (plain_env chain3).repo.date a)
      ∧ (∀ f, chain3_session = .ok f → Queued (plain_env chain3).repo f.st.w)) :=
  ⟨chain3_dates, queued_init chain3, by decide,
    session_have_lines_descend (plain_env chain3) chain3_dates {} 20 State.init
      (queued_init chain3) [{ name := "refs/heads/main", old_sha1 := 9 }]
      ["refs/heads/main"] [.nak]⟩

/-! ## `remove_duplicates` -/

theorem mem_without_later_repeats (l : List String) (x : String) :
    x ∈ without_later_repeats l ↔ x ∈ l := by
  induction l with
  | nil => simp [without_later_repeats]
  | cons y ys ih =>
    simp only [without_later_repeats, List.mem_cons, List.mem_filter, ih]
    by_cases h : x = y
    · simp [h]
    · simp [h]

theorem without_later_repeats_nodup (l : List String) :
    (without_later_repeats l).Nodup := by
  induction l with
  | nil => simp [without_later_repeats]
  | cons y ys ih =>
    simp only [without_later_repeats, List.nodup_cons, List.mem_filter]
    exact ⟨by simp, ih.filter _⟩

theorem without_later_repeats_sublist (l : List String) :
    (without_later_repeats l).Sublist l := by
  induction l with
  | nil => simp [without_later_repeats]
  | cons y ys ih =>
    simp only [without_later_repeats]
    exact ((List.filter_sublist _).trans ih).cons₂ y

theorem without_later_repeats_snoc (l : List String) (x : String) :
    without_later_repeats (l ++ [x]) =
      if x ∈ l then without_later_repeats l else without_later_repeats l ++ [x] := by
  induction l with
  | nil => simp [without_later_repeats]
  | cons y ys ih =>
    show y :: (without_later_repeats (ys ++ [x])).filter (fun z => z ≠ y) =
      if x ∈ y :: ys then y :: (without_later_repeats ys).filter (fun z => z ≠ y)
      else y :: (without_later_repeats ys).filter (fun z => z ≠ y) ++ [x]
    rw [ih]
    by_cases hxy : x = y
    · subst hxy
      by_cases hm : x ∈ ys
      · simp [hm]
      · simp [hm, List.filter_append]
    · by_cases hm : x ∈ ys
      · simp [hm, hxy]
      · simp [hm, hxy, List.filter_append]
theorem mem_take_iff_any (arr : List String) (d : Nat) (x : Option String) (hx : x ≠ none) :
    (List.range d).any (fun i => arr.get? i == x) = true ↔
      ∃ y, x = some y ∧ y ∈ arr.take d := by
  simp only [List.any_eq_true, List.mem_range, beq_iff_eq, List.get?_eq_getElem?]
  constructor
  · rintro ⟨i, hi, h⟩
    cases x with
    | none => exact absurd rfl hx
    | some y =>
      refine ⟨y, rfl, ?_⟩
      rw [List.mem_iff_getElem?]
      exact ⟨i, by rw [List.getElem?_take_of_lt hi]; exact h⟩
  · rintro ⟨y, rfl, hy⟩
    rw [List.mem_iff_getElem?] at hy
    obtain ⟨i, hi⟩ := hy
    have hlt : i < d := by
      by_contra hge
      rw [List.getElem?_take_eq_none (by omega)] at hi
      cases hi
    rw [List.getElem?_take_of_lt hlt] at hi
    exact ⟨i, hlt, hi⟩

theorem take_succ_set (arr : List String) (d : Nat) (x : String) (hd : d < arr.length) :
    (arr.set d x).take (d + 1) = arr.take d ++ [x] := by
  induction arr generalizing d with
  | nil => simp at hd
  | cons a as ih =>
    cases d with
    | zero => simp
    | succ d =>
      simp only [List.set_cons_succ, List.take_succ_cons, List.cons_append, List.cons.injEq,
        true_and]
      exact ih d (by simpa using hd)

theorem take_succ_of_getElem (arr : List String) (d : Nat) (x : String)
    (h : arr[d]? = some x) : arr.take (d + 1) = arr.take d ++ [x] := by
  rw [List.take_succ, h]; rfl

theorem remove_duplicates_loop (heads : List String) (k : Nat) (hk : k ≤ heads.length) :
    ∃ d arr, (List.range k).foldl
      (fun (acc : Nat × List String) src =>
        if (List.range acc.1).any (fun i => acc.2.get? i == acc.2.get? src) then acc
        else
          (acc.1 + 1,
           if src ≠ acc.1 then acc.2.set acc.1 (acc.2.getD src "") else acc.2))
      (0, heads) = (d, arr) ∧ d ≤ k ∧ arr.length = heads.length ∧
      arr.take d = without_later_repeats (heads.take k) ∧
      ∀ i, k ≤ i → arr[i]? = heads[i]? := by
  induction k with
  | zero => exact ⟨0, heads, rfl, le_refl _, rfl, by simp [without_later_repeats], fun _ _ => rfl⟩
  | succ k ih =>
    obtain ⟨d, arr, he, hd, hlen, htake, hrest⟩ := ih (by omega)
    rw [List.range_succ, List.foldl_append, he]
    have hkl : k < heads.length := hk
    obtain ⟨x, hx⟩ : ∃ x, heads[k]? = some x := ⟨heads[k], List.getElem?_eq_getElem hkl⟩
    have hak : arr.get? k = some x := by
      rw [List.get?_eq_getElem?, hrest k (le_refl _), hx]
    have hsnoc : heads.take (k + 1) = heads.take k ++ [x] := take_succ_of_getElem _ _ _ hx
    have hmem : x ∈ arr.take d ↔ x ∈ heads.take k := by
      rw [htake, mem_without_later_repeats]
    simp only [List.foldl_cons, List.foldl_nil]
    by_cases hany : (List.range d).any (fun i => arr.get? i == arr.get? k) = true
    · rw [if_pos hany]
      have hin : x ∈ heads.take k := by
        rw [mem_take_iff_any arr d _ (by rw [hak]; simp)] at hany
        obtain ⟨y, hy, hym⟩ := hany
        rw [hak] at hy
        cases hy
        exact hmem.1 hym
      refine ⟨d, arr, rfl, by omega, hlen, ?_, fun i hi => hrest i (by omega)⟩
      rw [htake, hsnoc, without_later_repeats_snoc, if_pos hin]
    · rw [if_neg hany]
      have hnin : x ∉ heads.take k := by
        intro hin
        apply hany
        rw [mem_take_iff_any arr d _ (by rw [hak]; simp)]
        exact ⟨x, hak, hmem.2 hin⟩
      have hgetD : arr.getD k "" = x := by
        rw [List.getD_eq_getElem?_getD, ← List.get?_eq_getElem?, hak]; rfl
      have hdl : d < arr.length := by omega
      refine ⟨d + 1, _, rfl, by omega, ?_, ?_, ?_⟩
      · split_ifs
        · rw [List.length_set]; exact hlen
        · exact hlen
      · rw [hsnoc, without_later_repeats_snoc, if_neg hnin, ← htake]
        by_cases hkd : k = d
        · rw [if_neg (by simpa using hkd)]
          subst hkd
          exact take_succ_of_getElem _ _ _ (by rw [← List.get?_eq_getElem?]; exact hak)
        · rw [if_pos hkd, hgetD]
          exact take_succ_set _ _ _ hdl
      · intro i hi
        split_ifs
        · rw [List.getElem?_set_ne (by omega)]; exact hrest i (by omega)
        · exact hrest i (by omega)

/-- C13.  For every array of head names, `remove_duplicates` returns a count
`d` that is at most the number of heads and leaves in `heads[0..d)` the input
with every later repeat of a string removed: the entries are pairwise distinct,
they are exactly the strings that occur in the input, and they stand in the
order of their first occurrence (a subsequence of the input that starts with
each string where it first occurs); `[main, main, dev]` gives 2 and
`[main, dev]`. -/
theorem remove_duplicates_keeps_first (heads : List String) :
    (remove_duplicates heads.length heads).1 ≤ heads.length ∧
    (remove_duplicates heads.length heads).2.take (remove_duplicates heads.length heads).1
      = without_later_repeats heads ∧
    (without_later_repeats heads).Nodup ∧
    (∀ x, x ∈ without_later_repeats heads ↔ x ∈ heads) ∧
    (without_later_repeats heads).Sublist heads ∧
    (remove_duplicates 3 ["main", "main", "dev"]).1 = 2 ∧
    (remove_duplicates 3 ["main", "main", "dev"]).2.take 2 = ["main", "dev"] := by
  obtain ⟨d, arr, he, hd, _, htake, _⟩ := remove_duplicates_loop heads heads.length (le_refl _)
  have hr : remove_duplicates heads.length heads = (d, arr) := he
  rw [hr]
  refine ⟨hd, ?_, without_later_repeats_nodup heads, mem_without_later_repeats heads,
    without_later_repeats_sublist heads, by decide, by decide⟩
  rw [htake, List.take_length]

/-! ## `get_pack` -/

theorem fix_thin_ne_keep (l : String) : "--fix-thin" ≠ "--keep=fetch-pack " ++ l := by
  intro h
  have h3 := congrArg (fun s => s.data.get? 2) h
  simp at h3

theorem fix_thin_ne_header (a b : String) :
    "--fix-thin" ≠ "--pack_header=" ++ a ++ "," ++ b := by
  intro h
  have h3 := congrArg (fun s => s.data.get? 2) h
  simp at h3

theorem get_pack_keep_spec (args : Args) (st : State) (io : PackIo) (version entries : Nat)
    (hlim : 0 ≤ st.unpack_limit) (hint : st.unpack_limit < 2 ^ 31)
    (hhdr : io.header = some (version, entries)) :
    ∃ do_keep hdr_arg, get_pack_keep args st io = some (do_keep, hdr_arg) ∧
      (do_keep = true ↔
        (args.keep_pack = true ∨ (0 < st.unpack_limit ∧ st.unpack_limit ≤ entries))) ∧
      (hdr_arg = "" ∨ hdr_arg = "--pack_header=" ++ toString version ++ "," ++ toString entries) := by
  unfold get_pack_keep
  by_cases hk : args.keep_pack = true
  · simp [hk]
  · by_cases hz : st.unpack_limit = 0
    · simp [hk, hz]
    · have hmod : st.unpack_limit % 2 ^ 32 = st.unpack_limit :=
        Int.emod_eq_of_lt hlim (by omega)
      have hpos : 0 < st.unpack_limit := lt_of_le_of_ne hlim (Ne.symm hz)
      have hcond : (!args.keep_pack && decide (st.unpack_limit ≠ 0)) = true := by
        simp [hk, hz]
      simp only [hhdr, hmod, hcond, if_true]
      refine ⟨_, _, rfl, ?_, Or.inr rfl⟩
      simp only [Bool.not_eq_true', decide_eq_false_iff_not, not_lt]
      constructor
      · intro h; exact Or.inr ⟨hpos, h⟩
      · rintro (h | h)
        · exact absurd h hk
        · exact h.2

/-- C15.  `get_pack` chooses the ingester by this rule, for every `keep_pack`
flag, every `unpack_limit` that is a non-negative `int` and every pack entry
count: whenever it returns, the program run is `index-pack` exactly when
`keep_pack` is set or `unpack_limit` is positive and the entry count is at
least `unpack_limit`, and `unpack-objects` otherwise; `index-pack` is run with
`--stdin` as its first argument and with `--fix-thin` exactly when a thin pack
was requested.  With the default limit 100 a pack of 200 entries goes to
`index-pack` and a pack of fewer than 100 entries to `unpack-objects`. -/
theorem get_pack_ingester (args : Args) (st : State) (io : PackIo) (want_lockfile : Bool)
    (g : Ingest) (version entries : Nat)
    (hlim : 0 ≤ st.unpack_limit) (hint : st.unpack_limit < 2 ^ 31)
    (hhdr : io.header = some (version, entries))
    (hrun : get_pack args st io want_lockfile = .ok g) :
    (g.argv.head? = some "index-pack" ↔
      (args.keep_pack = true ∨ (0 < st.unpack_limit ∧ st.unpack_limit ≤ entries))) ∧
    (g.argv.head? = some "index-pack" →
      g.argv.get? 1 = some "--stdin" ∧
      ("--fix-thin" ∈ g.argv ↔ args.use_thin_pack = true)) ∧
    (g.argv.head? ≠ some "index-pack" → g.argv.head? = some "unpack-objects") ∧
    (st.unpack_limit = 100 → args.keep_pack = false → entries = 200 →
      g.argv.head? = some "index-pack") ∧
    (st.unpack_limit = 100 → args.keep_pack = false → entries < 100 →
      g.argv.head? = some "unpack-objects") := by
  obtain ⟨do_keep, hdr_arg, hk, hiff, hhdr2⟩ :=
    get_pack_keep_spec args st io version entries hlim hint hhdr
  have hargv : g.argv = get_pack_argv args st io do_keep hdr_arg := by
    unfold get_pack at hrun
    rw [hk] at hrun
    simp only at hrun
    split_ifs at hrun <;> (cases hrun; rfl)
  have hhead : g.argv.head? = some "index-pack" ↔ do_keep = true := by
    rw [hargv]
    unfold get_pack_argv
    cases do_keep
    · simp
    · simp
  have hun : g.argv.head? ≠ some "index-pack" → g.argv.head? = some "unpack-objects" := by
    intro hne
    have hdk : do_keep = false := by
      cases do_keep
      · rfl
      · exact absurd (hhead.2 rfl) hne
    rw [hargv, hdk]
    simp [get_pack_argv]
  refine ⟨hhead.trans hiff, ?_, hun, ?_, ?_⟩
  · intro hh
    have hdk : do_keep = true := hhead.1 hh
    rw [hargv, hdk]
    unfold get_pack_argv
    refine ⟨by simp, ?_⟩
    have h1 := fix_thin_ne_keep io.keep_label
    have h2 := fix_thin_ne_header (toString version) (toString entries)
    rcases hhdr2 with h0 | h0
    · rw [h0]
      by_cases ht : args.use_thin_pack = true <;> simp [ht, h1]
    · rw [h0]
      by_cases ht : args.use_thin_pack = true <;> simp [ht, h1, h2]
  · intro h100 hkp he
    exact (hhead.trans hiff).2 (Or.inr (by omega))
  · intro h100 hkp he
    apply hun
    intro hh
    rcases (hhead.trans hiff).1 hh with h | h
    · rw [hkp] at h; cases h
    · omega

/-- The rule of C15 at the default limit with a pack of 200 entries. -/
theorem get_pack_ingester_witness :
    get_pack {} State.init { header := some (2, 200) } true
        = .ok { argv := ["index-pack", "--stdin", "-v", "--keep=fetch-pack 1 on localhost",
                         "--pack_header=2,200"],
                pack_lockfile := some "" } ∧
      ["index-pack", "--stdin", "-v", "--keep=fetch-pack 1 on localhost",
        "--pack_header=2,200"].head? = some "index-pack" :=
  ⟨rfl,
   (get_pack_ingester {} State.init { header := some (2, 200) } true
      { argv := ["index-pack", "--stdin", "-v", "--keep=fetch-pack 1 on localhost",
                 "--pack_header=2,200"],
        pack_lockfile := some "" } 2 200 (by decide) (by decide) rfl rfl).2.2.2.1
      rfl rfl rfl⟩

/-! ## The verdict of `everything_local` -/

/-- C19 as amended: `everything_local` returns true iff, for every ref that
survives `filter_refs`, the advertised object is in the object table and
flagged `COMPLETE`, whatever kind of object it is; it returns false as soon as
one surviving ref's advertised object is absent locally or not flagged
`COMPLETE`.  The refs it leaves are the surviving refs, in order. -/
theorem everything_local_iff_flagged (r : Repo) (check_ref_format : String → Bool)
    (args : Args) (local_ : Oid) (fuel : Nat) (st : State) (refs : List Ref)
    (pats : List String) (l : Local)
    (h : everything_local r check_ref_format args local_ fuel st refs pats = .ok l) :
    ∃ fr, filter_refs check_ref_format args refs pats = some fr ∧
      l.refs.map (fun ref => (ref.name, ref.old_sha1))
        = fr.1.map (fun ref => (ref.name, ref.old_sha1)) ∧
      (l.ret = true ↔
        ∀ ref ∈ fr.1, l.st.w.loaded ref.old_sha1 = true ∧
          l.st.w.flags ref.old_sha1 &&& COMPLETE ≠ 0) := by
  unfold everything_local at h
  simp only at h
  split at h
  · cases h
  · rename_i st3 _
    split at h
    · cases h
    · rename_i w4 _
      split at h
      · cases h
      · rename_i fr hfr
        cases h
        refine ⟨fr, hfr, ?_, ?_⟩
        · rw [(check_local_spec w4 local_ fr.1 true).1, List.map_map]
          apply List.map_congr_left
          intro ref _
          simp only [Function.comp]
          split_ifs <;> rfl
        · rw [(check_local_spec w4 local_ fr.1 true).2]
          simp [is_complete]

theorem everything_local_iff_flagged_witness :
    everything_local uptodate_env.repo uptodate_env.check_ref_format {} uptodate_env.local_ 20
        (set_capabilities uptodate_env State.init)
        [{ name := "refs/heads/main", old_sha1 := 3 }] ["refs/heads/main"] = .ok uptodate_local
    ∧ ∃ fr, filter_refs uptodate_env.check_ref_format {}
          [{ name := "refs/heads/main", old_sha1 := 3 }] ["refs/heads/main"] = some fr ∧
        uptodate_local.refs.map (fun ref => (ref.name, ref.old_sha1))
          = fr.1.map (fun ref => (ref.name, ref.old_sha1)) ∧
        (uptodate_local.ret = true ↔
          ∀ ref ∈ fr.1, uptodate_local.st.w.loaded ref.old_sha1 = true ∧
            uptodate_local.st.w.flags ref.old_sha1 &&& COMPLETE ≠ 0) :=
  ⟨rfl, everything_local_iff_flagged uptodate_env.repo uptodate_env.check_ref_format {}
    uptodate_env.local_ 20 (set_capabilities uptodate_env State.init)
    [{ name := "refs/heads/main", old_sha1 := 3 }] ["refs/heads/main"] uptodate_local rfl⟩

/-- C19 as stated fails: the server advertises `refs/tags/v1` at object 10,
which the local repository holds as a tag of object 11, not a commit.
`mark_complete` flags the tag `COMPLETE`, the last loop of `everything_local`
asks for nothing but that flag, and the function returns true although the
surviving ref resolves to no commit at all. -/
theorem everything_local_complete_tag :
    tag_only_local = some (true, [{ name := "refs/tags/v1", old_sha1 := 10, new_sha1 := 0 }]) ∧
    filter_refs (fun _ => false) {} [{ name := "refs/tags/v1", old_sha1 := 10 }]
        ["refs/tags/v1"]
      = some ([{ name := "refs/tags/v1", old_sha1 := 10 }], [""]) ∧
    is_commit tag_only 10 = false ∧
    tag_only.read 10 = some (.tag (some 11)) ∧
    is_commit tag_only 11 = false := by
  decide

/-! ## Flags within a later session -/

/-- C20, evaluated where the code breaks it.  A process clones into an empty
repository and then fetches again.  In the second session `everything_local`
sets `COMMON_REF` and `SEEN` on the advertised local tip 3 and `COMMON` and
`SEEN` on its parent 2, none of which was set before; `find_common` then
starts with the clearing pass (`marked` is set since the first session) and
clears `COMMON_REF` on 3 and `COMMON` and `SEEN` on 2 within the same session.
The negotiation goes on without them: it announces 3, 3, 2, 2, where the same
request in a first session announces 3 alone. -/
theorem later_session_clears_flags :
    later_state.marked = true ∧ later_state.w.flags 3 = 0 ∧ later_state.w.flags 2 = 0 ∧
    everything_local chain3 (plain_env chain3).check_ref_format {} 0 20
        (set_capabilities (plain_env chain3) (fetch_pack_setup (plain_env chain3) later_state))
        later_refs ["refs/heads/main", "refs/heads/new"] = .ok later_local ∧
    later_local.ret = false ∧
    later_local.st.w.flags 3 = COMPLETE ||| COMMON_REF ||| SEEN ∧
    later_local.st.w.flags 2 = COMPLETE ||| COMMON ||| SEEN ∧
    later_cleared = some (COMPLETE ||| SEEN, COMPLETE) ∧
    haves (session_trace (fetch_pack (plain_env chain3) {} 20 later_state later_refs
      ["refs/heads/main", "refs/heads/new"] [.nak])) = [3, 3, 2, 2] ∧
    haves (session_trace (fetch_pack (plain_env chain3) {} 20 State.init later_refs
      ["refs/heads/main", "refs/heads/new"] [.nak])) = [3] := by
  refine ⟨by decide, by decide, by decide, rfl, by decide, by decide, by decide, by decide,
    by decide, by decide⟩
/-! ## The counter `non_common_revs` -/

/-- C16, evaluated where the code breaks it.  Commit 1 has a parent 2 that
cannot be parsed.  After `rev_list_push(1, SEEN)` and `get_rev`, which pushes
the parent, the parent carries `SEEN` although `rev_list_push` returned before
queueing or counting it; `mark_common(1, 0, 1)` then reaches the parent,
finds it `SEEN` and not `POPPED` and counts it down: `non_common_revs` is -1
with an empty queue.  With clock skew the counter is off without any parse
failure: after one `get_rev` on `skewed` the queue holds only the popped
commit 1 and the counter says 1. -/
theorem non_common_revs_miscounts :
    counted Walk.init = 0 ∧ Walk.init.non_common_revs = 0 ∧
    orphaned_popped.map (fun p => (p.1, p.2.rev_list, p.2.non_common_revs, counted p.2,
        p.2.flags 2))
      = some (some 1, [], 0, 0, SEEN) ∧
    orphaned_marked.map (fun s => (s.rev_list, s.non_common_revs, counted s, s.flags 2))
      = some ([], -1, 0, COMMON ||| SEEN) ∧
    skewed_popped.map (fun p => (p.1, p.2.rev_list, p.2.non_common_revs, counted p.2,
        p.2.flags 1))
      = some (some 1, [1], 1, 0, SEEN ||| POPPED) := by
  refine ⟨by decide, by decide, by decide, by decide, by decide⟩

/-! ## The counters of `find_common` -/

theorem acks_read_append (a b : List Ev) :
    acks_read (a ++ b) = acks_read a + acks_read b := by
  induction a with
  | nil => simp [acks_read]
  | cons e t ih =>
    cases e with
    | send p => simp [acks_read, ih]
    | recv l =>
      cases l
      case ack sha1 =>
        show acks_read (t ++ b) + 1 = acks_read t + 1 + acks_read b
        rw [ih]; omega
      case ack_continue sha1 =>
        show acks_read (t ++ b) + 1 = acks_read t + 1 + acks_read b
        rw [ih]; omega
      all_goals simp [acks_read, ih]

/-- The have loop is its turns, one after the other. -/
theorem have_loop_turns (r : Repo) (fuel : Nat) (n : Neg) :
    have_loop r (fuel + 1) n = have_turns r fuel n := by
  simp only [have_loop, have_turns, have_turn]
  split
  · rfl
  · rfl
  · split
    · split
      · rfl
      · split <;> try rfl
        split <;> rfl
    · rfl

/-- What a poll round does to the counters. -/
theorem poll_acks_ledger (r : Repo) (fuel : Nat) :
    ∀ (inp : List Line) (n : Neg),
      (∀ n3, poll_acks r fuel inp n = .nak n3 →
        n3.count = n.count ∧ haves n3.trace = haves n.trace
        ∧ flushes_sent n3.trace = flushes_sent n.trace
        ∧ naks_read n3.trace = naks_read n.trace + 1
        ∧ n3.flushes = n.flushes
        ∧ ((n3.retval = n.retval ∧ acks_read n3.trace = acks_read n.trace)
            ∨ (n3.retval = 0 ∧ acks_read n3.trace ≠ 0)))
      ∧ (∀ n3, poll_acks r fuel inp n = .final n3 →
        n3.count = n.count ∧ haves n3.trace = haves n.trace
        ∧ flushes_sent n3.trace = flushes_sent n.trace
        ∧ naks_read n3.trace = naks_read n.trace
        ∧ n3.flushes = 0 ∧ n3.retval = 0 ∧ acks_read n3.trace ≠ 0) := by
  intro inp
  induction inp with
  | nil => intro n; simp [poll_acks]
  | cons l rest ih =>
    intro n
    cases l <;> simp only [poll_acks, get_ack]
    case nak =>
      refine ⟨?_, fun _ h => (by cases h)⟩
      intro n3 h
      injection h with h
      subst h
      simp [haves_append, haves, flushes_sent_append, flushes_sent, naks_read_append,
        naks_read, acks_read_append, acks_read]
    case ack sha1 =>
      refine ⟨fun _ h => (by cases h), ?_⟩
      intro n3 h
      injection h with h
      subst h
      simp [haves_append, haves, flushes_sent_append, flushes_sent, naks_read_append,
        naks_read, acks_read_append, acks_read]
    case ack_continue sha1 =>
      split
      · exact ⟨fun _ h => (by cases h), fun _ h => (by cases h)⟩
      · next w1 _ =>
        have e1 : haves (n.trace ++ [Ev.recv (Line.ack_continue sha1)]) = haves n.trace := by
          simp [haves_append, haves]
        have e2 : flushes_sent (n.trace ++ [Ev.recv (Line.ack_continue sha1)])
            = flushes_sent n.trace := by
          simp [flushes_sent_append, flushes_sent]
        have e3 : naks_read (n.trace ++ [Ev.recv (Line.ack_continue sha1)])
            = naks_read n.trace := by
          simp [naks_read_append, naks_read]
        have e4 : acks_read (n.trace ++ [Ev.recv (Line.ack_continue sha1)])
            = acks_read n.trace + 1 := by
          simp [acks_read_append, acks_read]
        constructor
        · intro n3 h
          obtain ⟨h1, h2, h3, h4, h5, h6⟩ := (ih _).1 n3 h
          simp only at h1 h2 h3 h4 h5 h6
          rw [e1] at h2; rw [e2] at h3; rw [e3] at h4; rw [e4] at h6
          refine ⟨h1, h2, h3, h4, h5, Or.inr ?_⟩
          rcases h6 with ⟨h6, h7⟩ | h6
          · exact ⟨h6, by omega⟩
          · exact h6
        · intro n3 h
          obtain ⟨h1, h2, h3, h4, h5⟩ := (ih _).2 n3 h
          simp only at h1 h2 h3 h4 h5
          rw [e1] at h2; rw [e2] at h3; rw [e3] at h4
          exact ⟨h1, h2, h3, h4, h5⟩
    all_goals exact ⟨fun _ h => (by cases h), fun _ h => (by cases h)⟩
/-- One turn of the have loop keeps `count` and `retval` true to the
conversation. -/
theorem have_turn_verdict (r : Repo) (fuel : Nat) (n : Neg) (hv : Verdict n) :
    (∀ n1, have_turn r fuel n = .next n1 → Verdict n1)
    ∧ (∀ e n1, have_turn r fuel n = .leave e n1 → Verdict n1) := by
  obtain ⟨hc, hr, ha⟩ := hv
  have step : ∀ sha1 w1, Verdict
      { n with w := w1, trace := n.trace ++ [Ev.send (Pkt.have sha1)],
               in_vain := n.in_vain + 1, count := n.count + 1 } := by
    intro sha1 w1
    refine ⟨?_, hr, ?_⟩
    · simp [haves_append, haves, hc]
    · simpa [acks_read_append, acks_read] using ha
  have stepf : ∀ sha1 w1, Verdict
      { n with w := w1, trace := n.trace ++ [Ev.send (Pkt.have sha1)] ++ [Ev.send Pkt.flush],
               in_vain := n.in_vain + 1, count := n.count + 1, flushes := n.flushes + 1 } := by
    intro sha1 w1
    refine ⟨?_, hr, ?_⟩
    · simp [haves_append, haves, hc]
    · simpa [acks_read_append, acks_read] using ha
  have poll : ∀ (m n3 : Neg), Verdict m →
      (n3.count = m.count ∧ haves n3.trace = haves m.trace
        ∧ ((n3.retval = m.retval ∧ acks_read n3.trace = acks_read m.trace)
            ∨ (n3.retval = 0 ∧ acks_read n3.trace ≠ 0))) → Verdict n3 := by
    intro m n3 ⟨mc, mr, ma⟩ ⟨h1, h2, h3⟩
    refine ⟨by rw [h1, h2]; exact mc, ?_, ?_⟩
    · rcases h3 with ⟨h3, _⟩ | ⟨h3, _⟩
      · rw [h3]; exact mr
      · exact Or.inl h3
    · rcases h3 with ⟨h3, h4⟩ | ⟨h3, h4⟩
      · rw [h3, h4]; exact ma
      · exact ⟨fun _ => h4, fun _ => h3⟩
  simp only [have_turn]
  split
  · exact ⟨fun _ h => (by cases h), fun _ _ h => (by cases h)⟩
  · refine ⟨fun _ h => (by cases h), ?_⟩
    intro e n1 h
    injection h with _ h
    subst h
    exact ⟨hc, hr, ha⟩
  · next sha1 w1 _ =>
    split
    · split
      · refine ⟨?_, fun _ _ h => (by cases h)⟩
        intro n1 h
        injection h with h
        subst h
        exact stepf sha1 w1
      · split
        · next n3 hp =>
          refine ⟨fun _ h => (by cases h), ?_⟩
          intro e n1 h
          injection h with _ h
          subst h
          obtain ⟨h1, h2, _, _, _, h6, h7⟩ := (poll_acks_ledger r fuel _ _).2 n3 hp
          exact poll _ _ (stepf sha1 w1) ⟨h1, h2, Or.inr ⟨h6, h7⟩⟩
        · exact ⟨fun _ h => (by cases h), fun _ _ h => (by cases h)⟩
        · exact ⟨fun _ h => (by cases h), fun _ _ h => (by cases h)⟩
        · next n3 hp =>
          obtain ⟨h1, h2, _, _, _, h6⟩ := (poll_acks_ledger r fuel _ _).1 n3 hp
          have hv3 : Verdict n3 := poll _ _ (stepf sha1 w1) ⟨h1, h2, h6⟩
          have hv4 : Verdict { n3 with flushes := n3.flushes - 1 } := hv3
          split
          · refine ⟨fun _ h => (by cases h), ?_⟩
            intro e n1 h
            injection h with _ h
            subst h
            exact hv4
          · refine ⟨?_, fun _ _ h => (by cases h)⟩
            intro n1 h
            injection h with h
            subst h
            exact hv4
    · refine ⟨?_, fun _ _ h => (by cases h)⟩
      intro n1 h
      injection h with h
      subst h
      exact step sha1 w1

/-- One turn of the have loop keeps `flushes` level with the flush packets
written less the NAK lines read, unless it reads a final ACK, which sets
`flushes` to zero. -/
theorem have_turn_surplus (r : Repo) (fuel : Nat) (n : Neg) :
    (∀ n1, have_turn r fuel n = .next n1 → n1.surplus = n.surplus)
    ∧ (∀ e n1, have_turn r fuel n = .leave e n1 →
        (e = .final_ack ∧ n1.flushes = 0) ∨ (e ≠ .final_ack ∧ n1.surplus = n.surplus)) := by
  simp only [have_turn]
  split
  · exact ⟨fun _ h => (by cases h), fun _ _ h => (by cases h)⟩
  · refine ⟨fun _ h => (by cases h), ?_⟩
    intro e n1 h
    injection h with h1 h
    subst h h1
    exact Or.inr ⟨by decide, rfl⟩
  · next sha1 w1 _ =>
    have e1 : flushes_sent (n.trace ++ [Ev.send (Pkt.have sha1)] ++ [Ev.send Pkt.flush])
        = flushes_sent n.trace + 1 := by
      simp [flushes_sent_append, flushes_sent]
    have e2 : naks_read (n.trace ++ [Ev.send (Pkt.have sha1)] ++ [Ev.send Pkt.flush])
        = naks_read n.trace := by
      simp [naks_read_append, naks_read]
    split
    · split
      · refine ⟨?_, fun _ _ h => (by cases h)⟩
        intro n1 h
        injection h with h
        subst h
        simp only [Neg.surplus, e1, e2]
        push_cast
        omega
      · split
        · next n3 hp =>
          refine ⟨fun _ h => (by cases h), ?_⟩
          intro e n1 h
          injection h with h1 h
          subst h h1
          exact Or.inl ⟨rfl, ((poll_acks_ledger r fuel _ _).2 n3 hp).2.2.2.2.1⟩
        · exact ⟨fun _ h => (by cases h), fun _ _ h => (by cases h)⟩
        · exact ⟨fun _ h => (by cases h), fun _ _ h => (by cases h)⟩
        · next n3 hp =>
          obtain ⟨_, _, h3, h4, h5, _⟩ := (poll_acks_ledger r fuel _ _).1 n3 hp
          simp only at h3 h4 h5
          rw [e1] at h3
          rw [e2] at h4
          have hs : Neg.surplus { n3 with flushes := n3.flushes - 1 } = n.surplus := by
            simp only [Neg.surplus, h3, h4, h5]
            push_cast
            omega
          split
          · refine ⟨fun _ h => (by cases h), ?_⟩
            intro e n1 h
            injection h with h1 h
            subst h h1
            exact Or.inr ⟨by decide, hs⟩
          · refine ⟨?_, fun _ _ h => (by cases h)⟩
            intro n1 h
            injection h with h
            subst h
            exact hs
    · refine ⟨?_, fun _ _ h => (by cases h)⟩
      intro n1 h
      injection h with h
      subst h
      simp [Neg.surplus, flushes_sent_append, flushes_sent, naks_read_append, naks_read]

/-- The have loop keeps `count` and `retval` true to the conversation. -/
theorem have_loop_verdict (r : Repo) :
    ∀ (fuel : Nat) (n : Neg) (e : Exit) (n1 : Neg), Verdict n →
      have_loop r fuel n = .ok (e, n1) → Verdict n1 := by
  intro fuel
  induction fuel with
  | zero => intro n e n1 _ h; simp [have_loop] at h
  | succ k ih =>
    intro n e n1 hv h
    rw [have_loop_turns] at h
    unfold have_turns at h
    split at h
    · next n2 ht => exact ih _ _ _ ((have_turn_verdict r k n hv).1 n2 ht) h
    · next e2 n2 ht =>
      injection h with h
      injection h with h1 h2
      subst h1 h2
      exact (have_turn_verdict r k n hv).2 _ _ ht
    · cases h
    · cases h

/-- However the have loop is left, `flushes` is zero after a final ACK and
otherwise as far above the flush packets written less the NAK lines read as it
was. -/
theorem have_loop_surplus (r : Repo) :
    ∀ (fuel : Nat) (n : Neg) (e : Exit) (n1 : Neg),
      have_loop r fuel n = .ok (e, n1) →
      (e = .final_ack ∧ n1.flushes = 0) ∨ (e ≠ .final_ack ∧ n1.surplus = n.surplus) := by
  intro fuel
  induction fuel with
  | zero => intro n e n1 h; simp [have_loop] at h
  | succ k ih =>
    intro n e n1 h
    rw [have_loop_turns] at h
    unfold have_turns at h
    split at h
    · next n2 ht =>
      rcases ih _ _ _ h with h1 | ⟨h1, h2⟩
      · exact Or.inl h1
      · exact Or.inr ⟨h1, by rw [h2, (have_turn_surplus r k n).1 n2 ht]⟩
    · next e2 n2 ht =>
      injection h with h
      injection h with h1 h2
      subst h1 h2
      exact (have_turn_surplus r k n).2 _ _ ht
    · cases h
    · cases h
/-- Phase 2 reads no ACK and writes nothing. -/
theorem read_shallow_acks (r : Repo) :
    ∀ (inp : List Line) (st st2 : State) (inp2 : List Line) (evs : List Ev),
      read_shallow r inp st = .ok (st2, inp2, evs) →
      acks_read evs = 0 ∧ haves evs = [] := by
  intro inp
  induction inp with
  | nil => intro st st2 inp2 evs h; simp [read_shallow] at h
  | cons l rest ih =>
    intro st st2 inp2 evs h
    cases l
    case flush =>
      simp only [read_shallow, Run.ok.injEq, Prod.mk.injEq] at h
      obtain ⟨_, _, h3⟩ := h
      subst h3
      exact ⟨rfl, rfl⟩
    case shallow sha1 =>
      simp only [read_shallow] at h
      split at h
      · next sa ia ea hr =>
        simp only [Run.after, Run.ok.injEq, Prod.mk.injEq] at h
        obtain ⟨_, _, h3⟩ := h
        subst h3
        obtain ⟨c, d⟩ := ih _ _ _ _ hr
        exact ⟨by simpa [acks_read] using c, by simpa [haves] using d⟩
      · next other hne =>
        cases hr : read_shallow r rest
          { st with shallow := sha1 :: st.shallow, w := (lookup_commit r st.w sha1).2 } with
        | ok p => exact absurd hr (hne p.1 p.2.1 p.2.2)
        | die m t1 => rw [hr] at h; simp [Run.after] at h
        | crash => rw [hr] at h; simp [Run.after] at h
        | out_of_fuel => rw [hr] at h; simp [Run.after] at h
    case unshallow sha1 =>
      simp only [read_shallow] at h
      split at h
      · cases h
      · split at h
        · cases h
        · split at h
          · cases h
          · split at h
            · next sa ia ea hr =>
              simp only [Run.after, Run.ok.injEq, Prod.mk.injEq] at h
              obtain ⟨_, _, h3⟩ := h
              subst h3
              obtain ⟨c, d⟩ := ih _ _ _ _ hr
              exact ⟨by simpa [acks_read] using c, by simpa [haves] using d⟩
            · next other hne =>
              cases hr : read_shallow r rest
                { st with w := (parse_object r st.w sha1).2,
                          shallow := st.shallow.filter (· ≠ sha1) } with
              | ok p => exact absurd hr (hne p.1 p.2.1 p.2.2)
              | die m t1 => rw [hr] at h; simp [Run.after] at h
              | crash => rw [hr] at h; simp [Run.after] at h
              | out_of_fuel => rw [hr] at h; simp [Run.after] at h
    all_goals simp [read_shallow] at h

theorem acks_read_sends (ps : List Pkt) : acks_read (ps.map Ev.send) = 0 := by
  induction ps with
  | nil => rfl
  | cons p rest ih => simpa [acks_read] using ih

/-- What Phase 4 does to the counters once `done` is written: the value
returned is 0 with an ACK read, or else `retval` (0 with no have line), with
no ACK read in this phase; `flushes` stays as far above the flush packets
written less the NAK lines read as it was. -/
theorem drain_acks_ledger :
    ∀ (inp : List Line) (n : Neg) (ret : Int) (n1 : Neg),
      drain_acks inp n = .ok (ret, n1) →
      n1.count = n.count ∧ n1.surplus = n.surplus ∧
      ((ret = 0 ∧ acks_read n1.trace ≠ 0)
        ∨ (ret = (if n.count ≠ 0 then n.retval else 0) ∧ n.multi_ack = false
            ∧ acks_read n1.trace = acks_read n.trace ∧ n1.flushes = 0)) := by
  intro inp
  induction inp with
  | nil =>
    intro n ret n1 h
    simp only [drain_acks] at h
    split at h
    · cases h
    · next hc =>
      simp only [Run.ok.injEq, Prod.mk.injEq] at h
      obtain ⟨h1, h2⟩ := h
      subst h1 h2
      simp only [Bool.or_eq_true, decide_eq_true_eq, not_or, ne_eq, not_not,
        Bool.not_eq_true] at hc
      exact ⟨rfl, rfl, Or.inr ⟨rfl, hc.2, rfl, hc.1⟩⟩
  | cons l rest ih =>
    intro n ret n1 h
    simp only [drain_acks] at h
    split at h
    · have e2 : flushes_sent (n.trace ++ [Ev.recv l]) = flushes_sent n.trace := by
        simp [flushes_sent_append, flushes_sent]
      split at h
      · cases h
      · next sha1 hg =>
        simp only [Run.ok.injEq, Prod.mk.injEq] at h
        obtain ⟨h1, h2⟩ := h
        subst h1 h2
        have hl : l = .ack sha1 := by
          cases l <;> simp [get_ack] at hg
          rw [hg]
        subst hl
        refine ⟨rfl, ?_, Or.inl ⟨rfl, ?_⟩⟩
        · simp [Neg.surplus, flushes_sent_append, flushes_sent, naks_read_append, naks_read]
        · simp [acks_read_append, acks_read]
      · next sha1 hg =>
        have hl : l = .ack_continue sha1 := by
          cases l <;> simp [get_ack] at hg
          rw [hg]
        subst hl
        obtain ⟨h1, h2, h3⟩ := ih _ _ _ h
        refine ⟨h1, ?_, Or.inl ?_⟩
        · rw [h2]
          simp [Neg.surplus, flushes_sent_append, flushes_sent, naks_read_append, naks_read]
        · rcases h3 with h3 | ⟨_, h3, _⟩
          · exact h3
          · simp at h3
      · next hg =>
        have hl : l = .nak := by
          cases l <;> simp [get_ack] at hg
          rfl
        subst hl
        obtain ⟨h1, h2, h3⟩ := ih _ _ _ h
        refine ⟨h1, ?_, ?_⟩
        · rw [h2]
          simp only [Neg.surplus, flushes_sent_append, flushes_sent, naks_read_append, naks_read]
          push_cast
          omega
        · rcases h3 with h3 | ⟨h3, h4, h5, h6⟩
          · exact Or.inl h3
          · refine Or.inr ⟨h3, h4, ?_, h6⟩
            rw [h5]
            simp [acks_read_append, acks_read]
    · next hc =>
      simp only [Run.ok.injEq, Prod.mk.injEq] at h
      obtain ⟨h1, h2⟩ := h
      subst h1 h2
      simp only [Bool.or_eq_true, decide_eq_true_eq, not_or, ne_eq, not_not,
        Bool.not_eq_true] at hc
      exact ⟨rfl, rfl, Or.inr ⟨rfl, hc.2, rfl, hc.1⟩⟩

/-- The value `find_common` returns after the have loop. -/
theorem send_done_verdict (n : Neg) (ret : Int) (n1 : Neg) (hv : Verdict n)
    (h : send_done n = .ok (ret, n1)) :
    (ret = 0 ∨ ret = -1) ∧
    (ret = 0 ↔ (haves n1.trace = [] ∨ acks_read n1.trace ≠ 0)) := by
  obtain ⟨hc, hr, ha⟩ := hv
  have hh := (send_done_haves n).1 ret n1 h
  have hcount : n.count = 0 ↔ haves n1.trace = [] := by
    rw [hh, hc]; exact List.length_eq_zero
  have e1 : acks_read (n.trace ++ [Ev.send Pkt.done]) = acks_read n.trace := by
    simp [acks_read_append, acks_read]
  simp only [send_done] at h
  split at h
  · obtain ⟨_, _, h3⟩ := drain_acks_ledger _ _ _ _ h
    rcases h3 with ⟨h3, h4⟩ | ⟨h3, _, h5, _⟩
    · exact ⟨Or.inl h3, fun _ => Or.inr h4, fun _ => h3⟩
    · simp only at h3 h5
      rw [e1] at h5
      by_cases hz : n.count = 0
      · simp only [hz, ne_eq, not_true_eq_false, if_false] at h3
        exact ⟨Or.inl h3, fun _ => Or.inl (hcount.1 hz), fun _ => h3⟩
      · simp only [ne_eq, hz, not_false_eq_true, if_true] at h3
        rw [h3, h5]
        refine ⟨hr, ?_⟩
        rw [ha]
        exact ⟨fun a => Or.inr a, fun a => a.elim (fun b => absurd (hcount.2 b) hz) id⟩
  · obtain ⟨_, _, h3⟩ := drain_acks_ledger _ _ _ _ h
    rcases h3 with ⟨h3, h4⟩ | ⟨h3, _, h5, _⟩
    · exact ⟨Or.inl h3, fun _ => Or.inr h4, fun _ => h3⟩
    · simp only at h3 h5
      rw [e1] at h5
      by_cases hz : n.count = 0
      · simp only [hz, ne_eq, not_true_eq_false, if_false] at h3
        exact ⟨Or.inl h3, fun _ => Or.inl (hcount.1 hz), fun _ => h3⟩
      · simp only [ne_eq, hz, not_false_eq_true, if_true] at h3
        rw [h3, h5]
        refine ⟨hr, ?_⟩
        rw [ha]
        exact ⟨fun a => Or.inr a, fun a => a.elim (fun b => absurd (hcount.2 b) hz) id⟩
/-- Phase 1 writes a want line iff `fetching` ends up non-zero; its last
packet is the flush. -/
theorem send_request_wants (args : Args) (st : State) (refs : List Ref) :
    ((send_request args st refs).2 = 0 →
      ∀ remote caps, Pkt.want remote caps ∉ (send_request args st refs).1)
    ∧ ((send_request args st refs).2 ≠ 0 →
      ∃ remote caps, Pkt.want remote caps ∈ (send_request args st refs).1)
    ∧ ((send_request args st refs).1.map Ev.send).getLast? = some (.send .flush) := by
  have h2 : (send_request args st refs).2 = (wanted st refs).length := by
    simp only [send_request, send_wants_first]
  rw [h2, send_request_packets]
  refine ⟨?_, ?_, by simp⟩
  · intro hz remote caps
    rw [List.length_eq_zero] at hz
    rw [hz]
    simp only [List.nil_append, List.mem_append, List.mem_singleton, not_or]
    refine ⟨⟨?_, ?_⟩, fun h => (by cases h)⟩
    · split_ifs
      · simp
      · simp
    · split_ifs
      · simp
      · simp
  · intro hz
    cases hw : wanted st refs with
    | nil => rw [hw] at hz; exact absurd rfl hz
    | cons first later =>
      exact ⟨first.old_sha1, want_caps args st, by simp⟩

/-- C14.  Whenever `find_common` returns after having sent at least one want,
its result is 0 if no have line was sent or if an ACK, final or continuing, was
read, and -1 otherwise, that is exactly when a have line was sent and no ACK
was read; with no want at all it returns 1 right after the flush of Phase 1
and has read nothing. -/
theorem find_common_verdict (r : Repo) (args : Args) (fuel : Nat) (st : State)
    (refs : List Ref) (inp : List Line) (f : Found)
    (h : find_common r args fuel st refs inp = .ok f) :
    ((∀ remote caps, Ev.send (Pkt.want remote caps) ∉ f.trace) →
      f.ret = 1 ∧ f.inp = inp ∧ (∀ l, Ev.recv l ∉ f.trace)
        ∧ f.trace.getLast? = some (.send .flush))
    ∧ ((∃ remote caps, Ev.send (Pkt.want remote caps) ∈ f.trace) →
      (f.ret = 0 ∨ f.ret = -1)
        ∧ (f.ret = 0 ↔ (haves f.trace = [] ∨ acks_read f.trace ≠ 0))
        ∧ (f.ret = -1 ↔ (haves f.trace ≠ [] ∧ acks_read f.trace = 0))) := by
  simp only [find_common] at h
  split at h
  · cases h
  · next st1 hset =>
    obtain ⟨hw0, hw1, hlast⟩ := send_request_wants args st1 refs
    have ht1 := send_request_haves args st1 refs
    have ha1 := acks_read_sends (send_request args st1 refs).1
    split at h
    · next hz =>
      simp only [Run.ok.injEq] at h
      subst h
      refine ⟨fun _ => ⟨rfl, rfl, by simp, hlast⟩, ?_⟩
      rintro ⟨remote, caps, hm⟩
      simp only [List.mem_map, Ev.send.injEq, exists_eq_right] at hm
      exact absurd hm (hw0 hz remote caps)
    · next hz =>
      obtain ⟨remote, caps, hwm⟩ := hw1 hz
      have hph : ∀ st2 inp2 evs,
          (if args.depth > 0 then read_shallow r inp st1 else .ok (st1, inp, []))
            = .ok (st2, inp2, evs) → acks_read evs = 0 ∧ haves evs = [] := by
        split
        · exact read_shallow_acks r inp st1
        · intro st2 inp2 evs h
          simp only [Run.ok.injEq, Prod.mk.injEq] at h
          obtain ⟨_, _, h3⟩ := h
          subst h3
          exact ⟨rfl, rfl⟩
      generalize (if args.depth > 0 then read_shallow r inp st1 else Run.ok (st1, inp, []))
        = ph2 at hph h
      split at h
      · cases h
      · cases h
      · cases h
      · next st2 inp2 t2 =>
        obtain ⟨ha2, ht2⟩ := hph st2 inp2 t2 rfl
        split at h
        · simp [Run.after] at h
        · simp [Run.after] at h
        · simp [Run.after] at h
        · next e0 n hl =>
          have hv : Verdict n :=
            have_loop_verdict r fuel _ e0 n
              ⟨rfl, Or.inr rfl, by simp [Neg.start, acks_read]⟩ hl
          split at h
          · simp [Run.after] at h
          · simp [Run.after] at h
          · simp [Run.after] at h
          · next ret n1 hsd =>
            simp only [Run.after, Run.ok.injEq] at h
            subst h
            obtain ⟨hr, hiff⟩ := send_done_verdict n ret n1 hv hsd
            refine ⟨fun hno => ?_, fun _ => ?_⟩
            · exact absurd (by simp [hwm]) (hno remote caps)
            · simp only [haves_append, ht1, ht2, List.nil_append, acks_read_append, ha1, ha2,
                Nat.zero_add]
              refine ⟨hr, hiff, ?_⟩
              rcases hr with hr | hr
              · rw [hr]
                have := hiff.1 hr
                constructor
                · intro h0; cases h0
                · rintro ⟨h1, h2⟩
                  rcases this with h3 | h3
                  · exact absurd h3 h1
                  · exact absurd h2 h3
              · rw [hr]
                have hne : ¬ (haves n1.trace = [] ∨ acks_read n1.trace ≠ 0) := by
                  intro hc
                  have := hiff.2 hc
                  rw [hr] at this
                  cases this
                simp only [not_or, not_not] at hne
                exact ⟨fun _ => hne, fun _ => rfl⟩

/-- The verdict of C14 on the chain of three commits: one want, three haves,
one NAK, result -1. -/
theorem find_common_verdict_witness :
    find_common chain3 {} 20 State.init [{ name := "refs/heads/main", old_sha1 := 9 }] [.nak]
      = .ok chain3_found
    ∧ chain3_found.ret = -1
    ∧ haves chain3_found.trace = [3, 2, 1]
    ∧ ((∃ remote caps, Ev.send (Pkt.want remote caps) ∈ chain3_found.trace) →
      (chain3_found.ret = 0 ∨ chain3_found.ret = -1)
        ∧ (chain3_found.ret = 0 ↔
            (haves chain3_found.trace = [] ∨ acks_read chain3_found.trace ≠ 0))
        ∧ (chain3_found.ret = -1 ↔
            (haves chain3_found.trace ≠ [] ∧ acks_read chain3_found.trace = 0))) :=
  ⟨rfl, by decide, by decide,
    (find_common_verdict chain3 {} 20 State.init
      [{ name := "refs/heads/main", old_sha1 := 9 }] [.nak] chain3_found rfl).2⟩
/-- Writing `done` counts as one more flush when no ACK has been read; the
loop of Phase 4 keeps `flushes` as far above the flush packets written less
the NAK lines read as it then is. -/
theorem send_done_surplus (n : Neg) (ret : Int) (n1 : Neg)
    (h : send_done n = .ok (ret, n1)) :
    n1.surplus = n.surplus + (if n.retval ≠ 0 then 1 else 0) := by
  have e1 : flushes_sent (n.trace ++ [Ev.send Pkt.done]) = flushes_sent n.trace := by
    simp [flushes_sent_append, flushes_sent]
  have e2 : naks_read (n.trace ++ [Ev.send Pkt.done]) = naks_read n.trace := by
    simp [naks_read_append, naks_read]
  simp only [send_done] at h
  split at h
  · next hr =>
    rw [(drain_acks_ledger _ _ _ _ h).2.1]
    simp only [Neg.surplus, e1, e2, hr, if_true]
    omega
  · next hr =>
    rw [(drain_acks_ledger _ _ _ _ h).2.1]
    simp only [Neg.surplus, e1, e2, hr, if_false]
    omega

/-- C18 as amended.  Count the flush packets written and the NAK lines read
from the start of the have loop, and call surplus what `flushes` has above
their difference.  The surplus is zero when the loop starts; a turn of the
loop that does not read a final ACK keeps it, so that `flushes` equals flush
packets written minus NAK lines read at the head of every turn and when the
loop is left by `get_rev` returning `NULL` or by giving up; a final ACK sets
`flushes` to zero whatever was written.  In Phase 4 writing `done` raises the
surplus by one if no ACK has been read (`retval` is still -1) and the loop
that reads the remaining replies keeps it. -/
theorem flushes_balance (r : Repo) (fuel : Nat) (n : Neg) :
    (∀ w multi_ack inp, (Neg.start w multi_ack inp).surplus = 0)
    ∧ have_loop r (fuel + 1) n = have_turns r fuel n
    ∧ (∀ n1, have_turn r fuel n = .next n1 → n1.surplus = n.surplus)
    ∧ (∀ e n1, have_turn r fuel n = .leave e n1 →
        (e = .final_ack ∧ n1.flushes = 0) ∨ (e ≠ .final_ack ∧ n1.surplus = n.surplus))
    ∧ (∀ e n1, have_loop r fuel n = .ok (e, n1) →
        (e = .final_ack ∧ n1.flushes = 0) ∨ (e ≠ .final_ack ∧ n1.surplus = n.surplus))
    ∧ (∀ ret n1, send_done n = .ok (ret, n1) →
        n1.surplus = n.surplus + (if n.retval ≠ 0 then 1 else 0))
    ∧ (∀ inp ret n1, drain_acks inp n = .ok (ret, n1) → n1.surplus = n.surplus) :=
  ⟨fun _ _ _ => rfl, have_loop_turns r fuel n, (have_turn_surplus r fuel n).1,
    (have_turn_surplus r fuel n).2, have_loop_surplus r fuel n, send_done_surplus n,
    fun inp ret n1 h => (drain_acks_ledger inp n ret n1 h).2.1⟩

/-- The balance of C18 on the chain of three commits with a NAK to `done`:
the loop is left with `flushes` at zero, no flush written and no NAK read. -/
theorem flushes_balance_witness :
    have_loop chain3 5 (Neg.start chain3_walk false [.nak]) = .ok chain3_out
    ∧ chain3_out.1 = .walk_done
    ∧ chain3_out.2.surplus = (Neg.start chain3_walk false [.nak]).surplus
    ∧ chain3_out.2.flushes = 0 :=
  ⟨rfl, by decide,
    ((flushes_balance chain3 5 (Neg.start chain3_walk false [.nak])).2.2.2.2.1
      chain3_out.1 chain3_out.2 rfl).elim
      (fun h => absurd h.1 (by decide)) (fun h => h.2),
    by decide⟩

set_option maxRecDepth 1000000 in
/-- C18 as stated fails: on a chain of 65 commits the first poll comes after
64 have lines and two flush packets; the server answers it with a final ACK,
and the loop is left with `flushes` at 0 although two flush packets were
written in the loop (three since `find_common` began) and no NAK was read. -/
theorem flushes_reset_by_final_ack :
    chain65_acked = some (.final_ack, 0, 2, 0) := by
  decide

/-! ## `filter_refs` -/

theorem path_match_one_empty (path : List Char) : path_match_one path [] = false := by
  simp [path_match_one]

/-- What `path_match` returns: zero and the patterns untouched if none
matches, else the position of the first matching pattern plus one, with that
pattern emptied. -/
theorem path_match_spec (path : String) :
    ∀ pats : List String,
      ((path_match path pats).1 = 0 →
        (path_match path pats).2 = pats
        ∧ ∀ (j : Nat) (s : String), pats[j]? = some s → path_match_one path.data s.data = false)
      ∧ ((path_match path pats).1 ≠ 0 →
        (path_match path pats).1 - 1 < pats.length
        ∧ (path_match path pats).2 = pats.set ((path_match path pats).1 - 1) ""
        ∧ (∃ s, pats[(path_match path pats).1 - 1]? = some s
            ∧ path_match_one path.data s.data = true)
        ∧ ∀ (j : Nat) (s : String), j < (path_match path pats).1 - 1 → pats[j]? = some s →
            path_match_one path.data s.data = false) := by
  intro pats
  induction pats with
  | nil => simp [path_match]
  | cons s rest ih =>
    by_cases hm : path_match_one path.data s.data = true
    · simp only [path_match, hm, if_true]
      refine ⟨fun h => (by cases h), fun _ => ⟨by simp, by simp, ⟨s, by simp, hm⟩, ?_⟩⟩
      intro j s1 hj
      simp at hj
    · have hm2 : path_match_one path.data s.data = false := by simpa using hm
      simp only [path_match, hm2, Bool.false_eq_true, if_false]
      by_cases hz : (path_match path rest).1 = 0
      · simp only [hz, if_true]
        obtain ⟨h1, h2⟩ := ih.1 hz
        refine ⟨fun _ => ⟨by rw [h1], ?_⟩, fun h => absurd rfl h⟩
        intro j s1 hj
        cases j with
        | zero =>
          simp only [List.getElem?_cons_zero, Option.some.injEq] at hj
          rw [← hj]; exact hm2
        | succ j =>
          simp only [List.getElem?_cons_succ] at hj
          exact h2 j s1 hj
      · simp only [hz, if_false]
        obtain ⟨h1, h2, ⟨s2, h3, h4⟩, h5⟩ := ih.2 hz
        refine ⟨fun h => (by omega), fun _ => ?_⟩
        have e : (path_match path rest).1 + 1 - 1 = ((path_match path rest).1 - 1) + 1 := by
          omega
        rw [e]
        refine ⟨by simpa using h1, by rw [h2]; rfl, ⟨s2, by simpa using h3, h4⟩, ?_⟩
        intro j s1 hj hs
        cases j with
        | zero =>
          simp only [List.getElem?_cons_zero, Option.some.injEq] at hs
          rw [← hs]; exact hm2
        | succ j =>
          simp only [List.getElem?_cons_succ] at hs
          exact h5 j s1 (by omega) hs

theorem path_match_nil (path : String) : path_match path [] = (0, []) := rfl
theorem lt_of_getElem?_some {α : Type} {l : List α} {i : Nat} {a : α} (h : l[i]? = some a) :
    i < l.length := by
  obtain ⟨h1, _⟩ := List.getElem?_eq_some.1 h
  exact h1

theorem ref_matches_empty (ref : Ref) : ref_matches ref "" = false := by
  simp [ref_matches, path_match_one]

theorem assigned_start (crf : String → Bool) (pats0 : List String) :
    Assigned crf pats0 [] (List.replicate pats0.length none) pats0 := by
  have hno : ∀ (i : Nat) (ref : Ref),
      (List.replicate pats0.length (none : Option Ref))[i]? = some (some ref) → False := by
    intro i ref h
    rw [List.getElem?_replicate] at h
    split_ifs at h
    cases h
  refine ⟨by simp, rfl, fun _ _ => rfl, ?_, ?_, ?_, ?_, ?_⟩
  · intro i ref h; exact (hno i ref h).elim
  · intro i ref h; exact (hno i ref h).elim
  · intro i ref h; exact (hno i ref h).elim
  · intro i ref h; exact (hno i ref h).elim
  · intro other h; cases h

/-- A slot is empty or holds a ref. -/
theorem slot_cases (arr : List (Option Ref)) (i : Nat) (h : i < arr.length) :
    arr[i]? = some none ∨ ∃ ref, arr[i]? = some (some ref) := by
  rw [List.getElem?_eq_getElem h]
  cases arr[i] with
  | none => exact Or.inl rfl
  | some ref => exact Or.inr ⟨ref, rfl⟩

theorem assigned_skip (crf : String → Bool) (pats0 : List String) (seen : List Ref)
    (arr : List (Option Ref)) (pats : List String) (x : Ref)
    (ha : Assigned crf pats0 seen arr pats) (hx : malformed crf x = true) :
    Assigned crf pats0 (seen ++ [x]) arr pats := by
  refine ⟨ha.len_arr, ha.len_pats, ha.free, ha.used, ha.sound, ha.stable, ?_, ?_⟩
  · intro i ref h
    obtain ⟨pre, post, hs, hp⟩ := ha.first i ref h
    exact ⟨pre, post ++ [x], by rw [hs]; simp, hp⟩
  · intro other ho hm
    rw [List.mem_append, List.mem_singleton] at ho
    rcases ho with ho | ho
    · exact ha.taken other ho hm
    · rw [ho, hx] at hm; cases hm

theorem assigned_miss (crf : String → Bool) (pats0 : List String) (seen : List Ref)
    (arr : List (Option Ref)) (pats : List String) (x : Ref)
    (ha : Assigned crf pats0 seen arr pats)
    (hz : (path_match x.name pats).1 = 0) :
    Assigned crf pats0 (seen ++ [x]) arr (path_match x.name pats).2 := by
  obtain ⟨h1, h2⟩ := (path_match_spec x.name pats).1 hz
  rw [h1]
  refine ⟨ha.len_arr, ha.len_pats, ha.free, ha.used, ha.sound, ha.stable, ?_, ?_⟩
  · intro i ref h
    obtain ⟨pre, post, hs, hp⟩ := ha.first i ref h
    exact ⟨pre, post ++ [x], by rw [hs]; simp, hp⟩
  · intro other ho hm i p hp hmat
    rw [List.mem_append, List.mem_singleton] at ho
    rcases ho with ho | ho
    · exact ha.taken other ho hm i p hp hmat
    · subst ho
      have hi : i < arr.length := by rw [ha.len_arr]; exact lt_of_getElem?_some hp
      rcases slot_cases arr i hi with hn | hs
      · have := h2 i p (by rw [ha.free i hn]; exact hp)
        rw [ref_matches] at hmat
        rw [hmat] at this
        cases this
      · exact Or.inl hs
theorem assigned_hit (crf : String → Bool) (pats0 : List String) (seen : List Ref)
    (arr : List (Option Ref)) (pats : List String) (x : Ref)
    (ha : Assigned crf pats0 seen arr pats) (hx : malformed crf x = false)
    (hz : (path_match x.name pats).1 ≠ 0) :
    Assigned crf pats0 (seen ++ [x])
      (arr.set ((path_match x.name pats).1 - 1) (some x)) (path_match x.name pats).2 := by
  obtain ⟨hk, h2, ⟨s, hs, hsm⟩, hmin⟩ := (path_match_spec x.name pats).2 hz
  generalize (path_match x.name pats).1 - 1 = k at hk h2 hs hmin
  rw [h2]
  have hka : k < arr.length := by rw [ha.len_arr, ← ha.len_pats]; exact hk
  -- slot `k` was empty, and its pattern is the original one
  have hfree : arr[k]? = some none := by
    rcases slot_cases arr k hka with hn | ⟨ref, hr⟩
    · exact hn
    · have := ha.used k ref hr
      rw [hs] at this
      cases this
      rw [path_match_one] at hsm
      simp at hsm
  have hp0 : pats0[k]? = some s := by rw [← ha.free k hfree]; exact hs
  have hxs : ref_matches x s = true := hsm
  have hset_k : (arr.set k (some x))[k]? = some (some x) := by
    rw [List.getElem?_set]; simp [hka]
  have hset_ne : ∀ i, i ≠ k → (arr.set k (some x))[i]? = arr[i]? := by
    intro i hi
    exact List.getElem?_set_ne (Ne.symm hi)
  -- an empty slot below `k` has a pattern that `x` does not match
  have hbelow : ∀ (j : Nat) (p : String), j < k → arr[j]? = some none → pats0[j]? = some p →
      ref_matches x p = false := by
    intro j p hj hn hp
    exact hmin j p hj (by rw [ha.free j hn]; exact hp)
  have hkeep : ∀ (j : Nat) (other : Ref), arr[j]? = some (some other) →
      (arr.set k (some x))[j]? = some (some other) := by
    intro j other h
    have hjk : j ≠ k := by
      intro e; rw [e, hfree] at h; cases h
    rw [hset_ne j hjk]; exact h
  refine ⟨by rw [List.length_set]; exact ha.len_arr, by rw [List.length_set]; exact ha.len_pats,
    ?_, ?_, ?_, ?_, ?_, ?_⟩
  · intro i h
    have hik : i ≠ k := by
      intro e; rw [e, hset_k] at h; cases h
    rw [hset_ne i hik] at h
    rw [List.getElem?_set_ne (Ne.symm hik)]
    exact ha.free i h
  · intro i ref h
    by_cases hik : i = k
    · rw [hik, List.getElem?_set]; simp [hk]
    · rw [hset_ne i hik] at h
      rw [List.getElem?_set_ne (Ne.symm hik)]
      exact ha.used i ref h
  · intro i ref h
    by_cases hik : i = k
    · rw [hik, hset_k] at h
      cases h
      rw [hik]
      exact ⟨hx, s, hp0, hxs⟩
    · rw [hset_ne i hik] at h
      exact ha.sound i ref h
  · intro i ref h j p hj hn hp
    have hjk : j ≠ k := by
      intro e; rw [e, hset_k] at hn; cases hn
    rw [hset_ne j hjk] at hn
    by_cases hik : i = k
    · rw [hik, hset_k] at h
      cases h
      exact hbelow j p (by omega) hn hp
    · rw [hset_ne i hik] at h
      exact ha.stable i ref h j p hj hn hp
  · intro i ref h
    by_cases hik : i = k
    · rw [hik, hset_k] at h
      cases h
      refine ⟨seen, [], rfl, ?_⟩
      intro other ho hm p hp hmat
      rw [hik] at hp
      rcases ha.taken other ho hm k p hp hmat with ⟨r2, hr2⟩ | ⟨j, hj, hr⟩
      · rw [hfree] at hr2; cases hr2
      · exact ⟨j, by omega, hkeep j other hr⟩
    · rw [hset_ne i hik] at h
      obtain ⟨pre, post, hsn, hp⟩ := ha.first i ref h
      refine ⟨pre, post ++ [x], by rw [hsn]; simp, ?_⟩
      intro other ho hm p hp0i hmat
      obtain ⟨j, hj, hr⟩ := hp other ho hm p hp0i hmat
      exact ⟨j, hj, hkeep j other hr⟩
  · intro other ho hm i p hp hmat
    have hi : i < arr.length := by rw [ha.len_arr]; exact lt_of_getElem?_some hp
    rw [List.mem_append, List.mem_singleton] at ho
    rcases ho with ho | ho
    · rcases ha.taken other ho hm i p hp hmat with ⟨r2, hr2⟩ | ⟨j, hj, hr⟩
      · exact Or.inl ⟨r2, hkeep i r2 hr2⟩
      · exact Or.inr ⟨j, hj, hkeep j other hr⟩
    · subst ho
      rcases Nat.lt_trichotomy i k with hlt | heq | hgt
      · rcases slot_cases arr i hi with hn | ⟨r2, hr2⟩
        · have := hbelow i p hlt hn hp
          rw [hmat] at this
          cases this
        · exact Or.inl ⟨r2, hkeep i r2 hr2⟩
      · rw [heq]; exact Or.inl ⟨other, hset_k⟩
      · exact Or.inr ⟨k, hgt, hset_k⟩
/-- Without `fetch_all` the first loop of `filter_refs` never stores through a
null pointer when there are patterns, leaves `newlist` alone and fills
`return_refs` as `Assigned` says. -/
theorem filter_refs_loop_assigned (crf : String → Bool) (args : Args)
    (hfa : args.fetch_all = false) (pats0 : List String) :
    ∀ (next seen : List Ref) (arr : List (Option Ref)) (pats : List String) (nl : List Ref),
      Assigned crf pats0 seen arr pats →
      ∃ arr1 pats1,
        filter_refs_loop crf args next { newlist := nl, return_refs := some arr, pats := pats }
          = some { newlist := nl, return_refs := some arr1, pats := pats1 }
        ∧ Assigned crf pats0 (seen ++ next) arr1 pats1 := by
  intro next
  induction next with
  | nil =>
    intro seen arr pats nl ha
    exact ⟨arr, pats, rfl, by simpa using ha⟩
  | cons x rest ih =>
    intro seen arr pats nl ha
    have happ : seen ++ x :: rest = (seen ++ [x]) ++ rest := by simp
    rw [happ]
    by_cases hx : malformed crf x = true
    · have hx2 : (starts_with x.name "refs/"
          && crf (String.mk (x.name.data.drop 5))) = true := hx
      simp only [filter_refs_loop, hx2, if_true]
      exact ih _ _ _ _ (assigned_skip crf pats0 seen arr pats x ha hx)
    · have hx1 : malformed crf x = false := by simpa using hx
      have hx2 : (starts_with x.name "refs/"
          && crf (String.mk (x.name.data.drop 5))) = false := hx1
      simp only [filter_refs_loop, hx2, hfa, Bool.false_and, Bool.false_eq_true, if_false]
      by_cases hz : (path_match x.name pats).1 = 0
      · simp only [hz, ne_eq, not_true_eq_false, if_false]
        exact ih _ _ _ _ (assigned_miss crf pats0 seen arr pats x ha hz)
      · simp only [ne_eq, hz, not_false_eq_true, if_true]
        exact ih _ _ _ _ (assigned_hit crf pats0 seen arr pats x ha hx1 hz)

/-- With no pattern and without `fetch_all` the first loop changes nothing. -/
theorem filter_refs_loop_no_pattern (crf : String → Bool) (args : Args)
    (hfa : args.fetch_all = false) :
    ∀ (next : List Ref) (f : Filter), f.pats = [] →
      filter_refs_loop crf args next f = some f := by
  intro next
  induction next with
  | nil => intro f _; rfl
  | cons x rest ih =>
    intro f hp
    simp only [filter_refs_loop, hfa, Bool.false_and, Bool.false_eq_true, if_false, hp,
      path_match_nil, ne_eq, not_true_eq_false]
    split
    · exact ih f hp
    · have : ({ f with pats := [] } : Filter) = f := by
        cases f; simp only at hp; rw [hp]
      rw [this]
      exact ih f hp

/-- With `fetch_all` the first loop, if it gets through, has appended to
`newlist` every ref that is well-formed and, when a depth is given, not under
`refs/tags/`; `return_refs` and the patterns are as before. -/
theorem filter_refs_loop_all (crf : String → Bool) (args : Args)
    (hfa : args.fetch_all = true) :
    ∀ (next : List Ref) (f f1 : Filter), f.return_refs = none →
      filter_refs_loop crf args next f = some f1 →
      f1 = { f with newlist := f.newlist ++ next.filter (kept_by_all crf args) } := by
  intro next
  induction next with
  | nil =>
    intro f f1 _ h
    simp only [filter_refs_loop, Option.some.injEq] at h
    rw [← h]; simp
  | cons x rest ih =>
    intro f f1 hn h
    rw [filter_refs_loop] at h
    by_cases hx : malformed crf x = true
    · have hx2 : (starts_with x.name "refs/"
          && crf (String.mk (x.name.data.drop 5))) = true := hx
      rw [if_pos hx2] at h
      rw [ih f f1 hn h]
      simp [List.filter_cons, kept_by_all, hx]
    · have hx1 : malformed crf x = false := by simpa using hx
      have hx2 : ¬ (starts_with x.name "refs/"
          && crf (String.mk (x.name.data.drop 5))) = true := hx
      rw [if_neg hx2] at h
      by_cases hk : (decide (args.depth = 0) || !starts_with x.name "refs/tags/") = true
      · have hk2 : (args.fetch_all
            && (decide (args.depth = 0) || !starts_with x.name "refs/tags/")) = true := by
          rw [hfa, hk]; rfl
        rw [if_pos hk2] at h
        rw [ih { f with newlist := f.newlist ++ [x] } f1 hn h]
        simp [List.filter_cons, kept_by_all, hx1, hk]
      · have hk2 : ¬ (args.fetch_all
            && (decide (args.depth = 0) || !starts_with x.name "refs/tags/")) = true := by
          rw [hfa]; simpa using hk
        rw [if_neg hk2] at h
        simp only at h
        by_cases hz : (path_match x.name f.pats).1 = 0
        · rw [if_neg (by simpa using hz)] at h
          rw [((path_match_spec x.name f.pats).1 hz).1] at h
          rw [ih { f with pats := f.pats } f1 hn h]
          have hk3 : (decide (args.depth = 0) || !starts_with x.name "refs/tags/") = false := by
            simpa using hk
          simp [List.filter_cons, kept_by_all, hx1, hk3]
        · rw [if_pos hz, hn] at h
          cases h

/-- With `fetch_all`, a list of refs that are all kept goes through the first
loop unharmed. -/
theorem filter_refs_loop_all_kept (crf : String → Bool) (args : Args)
    (hfa : args.fetch_all = true) :
    ∀ (next : List Ref) (f : Filter), (∀ ref ∈ next, kept_by_all crf args ref = true) →
      filter_refs_loop crf args next f = some { f with newlist := f.newlist ++ next } := by
  intro next
  induction next with
  | nil => intro f _; simp [filter_refs_loop]
  | cons x rest ih =>
    intro f hall
    have hx := hall x (List.mem_cons_self _ _)
    simp only [kept_by_all, Bool.and_eq_true, Bool.not_eq_true'] at hx
    have hx2 : (starts_with x.name "refs/"
        && crf (String.mk (x.name.data.drop 5))) = false := hx.1
    simp only [filter_refs_loop, hx2, Bool.false_eq_true, if_false, hfa, Bool.true_and, hx.2,
      if_true]
    rw [ih _ (fun ref hr => hall ref (List.mem_cons_of_mem _ hr))]
    simp
theorem path_match_append (path : String) (p : String) (B : List String)
    (hp : path_match_one path.data p.data = true) :
    ∀ A : List String, (∀ q ∈ A, path_match_one path.data q.data = false) →
      path_match path (A ++ p :: B) = (A.length + 1, A ++ "" :: B) := by
  intro A
  induction A with
  | nil => intro _; simp [path_match, hp]
  | cons a rest ih =>
    intro h
    have ha := h a (List.mem_cons_self _ _)
    have hr := ih (fun q hq => h q (List.mem_cons_of_mem _ hq))
    simp [path_match, ha, hr]

theorem set_append_length {α : Type} (A B : List α) (a y : α) :
    (A ++ a :: B).set A.length y = A ++ y :: B := by
  rw [List.set_append_right _ _ (le_refl _)]
  simp

/-- The first loop of `filter_refs`, without `fetch_all`, run on the refs of
an array whose every ref is well-formed, matches the pattern of its slot and
no pattern of an empty slot before it: each ref goes back to its slot. -/
theorem filter_refs_loop_again (crf : String → Bool) (args : Args)
    (hfa : args.fetch_all = false) :
    ∀ (suf : List (Option Ref)) (sufP : List String) (preA : List (Option Ref))
      (preP : List String) (nl : List Ref),
      preA.length = preP.length → suf.length = sufP.length →
      (∀ q ∈ preP, ∀ ref, some ref ∈ suf → ref_matches ref q = false) →
      (∀ (i : Nat) (ref : Ref), suf[i]? = some (some ref) →
        malformed crf ref = false ∧ ∃ p, sufP[i]? = some p ∧ ref_matches ref p = true) →
      (∀ (i : Nat) (ref : Ref), suf[i]? = some (some ref) →
        ∀ (j : Nat) (p : String), j < i → suf[j]? = some none → sufP[j]? = some p →
          ref_matches ref p = false) →
      ∃ pats1,
        filter_refs_loop crf args (suf.filterMap id)
          { newlist := nl, return_refs := some (preA ++ suf.map (fun _ => none)),
            pats := preP ++ sufP }
          = some { newlist := nl, return_refs := some (preA ++ suf), pats := pats1 } := by
  intro suf
  induction suf with
  | nil =>
    intro sufP preA preP nl _ _ _ _ _
    exact ⟨preP ++ sufP, by simp [filter_refs_loop]⟩
  | cons a s ih =>
    intro sufP preA preP nl hlen hlen2 hpre hsound hstable
    cases sufP with
    | nil => simp at hlen2
    | cons p ps =>
      have hlen3 : s.length = ps.length := by simpa using hlen2
      have hsound1 : ∀ (i : Nat) (ref : Ref), s[i]? = some (some ref) →
          malformed crf ref = false ∧ ∃ q, ps[i]? = some q ∧ ref_matches ref q = true := by
        intro i ref h
        simpa using hsound (i + 1) ref (by simpa using h)
      have hstable1 : ∀ (i : Nat) (ref : Ref), s[i]? = some (some ref) →
          ∀ (j : Nat) (q : String), j < i → s[j]? = some none → ps[j]? = some q →
            ref_matches ref q = false := by
        intro i ref h j q hj hn hq
        exact hstable (i + 1) ref (by simpa using h) (j + 1) q (by omega) (by simpa using hn)
          (by simpa using hq)
      cases a with
      | none =>
        have hpre1 : ∀ q ∈ preP ++ [p], ∀ ref, some ref ∈ s → ref_matches ref q = false := by
          intro q hq ref hr
          rw [List.mem_append, List.mem_singleton] at hq
          rcases hq with hq | hq
          · exact hpre q hq ref (List.mem_cons_of_mem _ hr)
          · subst hq
            obtain ⟨i, hi⟩ := List.mem_iff_getElem?.1 hr
            exact hstable (i + 1) ref (by simpa using hi) 0 q (by omega) (by simp) (by simp)
        obtain ⟨pats1, h1⟩ := ih ps (preA ++ [none]) (preP ++ [p]) nl (by simp [hlen]) hlen3
          hpre1 hsound1 hstable1
        refine ⟨pats1, ?_⟩
        simpa using h1
      | some x =>
        obtain ⟨hx, q, hq, hxm⟩ := hsound 0 x (by simp)
        simp only [List.getElem?_cons_zero, Option.some.injEq] at hq
        rw [← hq] at hxm
        have hx2 : ¬ (starts_with x.name "refs/"
            && crf (String.mk (x.name.data.drop 5))) = true := by
          have : malformed crf x = false := hx
          rw [malformed] at this
          rw [this]; simp
        have hfa2 : ¬ (args.fetch_all
            && (decide (args.depth = 0) || !starts_with x.name "refs/tags/")) = true := by
          rw [hfa]; simp
        have hpm : path_match x.name (preP ++ p :: ps) = (preP.length + 1, preP ++ "" :: ps) :=
          path_match_append x.name p ps hxm preP
            (fun q1 hq1 => hpre q1 hq1 x (List.mem_cons_self _ _))
        have hpre1 : ∀ q1 ∈ preP ++ [""], ∀ ref, some ref ∈ s → ref_matches ref q1 = false := by
          intro q1 hq1 ref hr
          rw [List.mem_append, List.mem_singleton] at hq1
          rcases hq1 with hq1 | hq1
          · exact hpre q1 hq1 ref (List.mem_cons_of_mem _ hr)
          · rw [hq1]; exact ref_matches_empty ref
        obtain ⟨pats1, h1⟩ := ih ps (preA ++ [some x]) (preP ++ [""]) nl (by simp [hlen]) hlen3
          hpre1 hsound1 hstable1
        refine ⟨pats1, ?_⟩
        simp only [List.filterMap_cons, id, List.map_cons]
        rw [filter_refs_loop, if_neg hx2, if_neg hfa2]
        have hset : (preA ++ none :: s.map (fun _ => (none : Option Ref))).set
            (preP.length + 1 - 1) (some x) = preA ++ some x :: s.map (fun _ => none) := by
          rw [Nat.add_sub_cancel, ← hlen]
          exact set_append_length _ _ _ _
        simp only [hpm, ne_eq, Nat.add_eq_zero, one_ne_zero, and_false, not_false_eq_true,
          if_true, hset]
        simpa using h1
/-- `filter_refs` without `fetch_all` and with a pattern, from its loop. -/
theorem filter_refs_of_slots (crf : String → Bool) (args : Args) (refs : List Ref)
    (pats : List String) (arr : List (Option Ref)) (pats1 : List String)
    (hfa : args.fetch_all = false) (hp : pats ≠ [])
    (hloop : filter_refs_loop crf args refs
        { newlist := [], return_refs := some (List.replicate pats.length none), pats := pats }
      = some { newlist := [], return_refs := some arr, pats := pats1 }) :
    filter_refs crf args refs pats = some (arr.filterMap id, pats1) := by
  have hlen : pats.length ≠ 0 := by
    intro h; exact hp (List.length_eq_zero.1 h)
  unfold filter_refs
  simp only [hfa, Bool.not_false, Bool.and_true, decide_eq_true_eq, hlen, ne_eq,
    not_false_eq_true, if_true, hloop, List.nil_append]

/-- `filter_refs` without `fetch_all` and without a pattern returns nothing. -/
theorem filter_refs_no_pattern (crf : String → Bool) (args : Args) (refs : List Ref)
    (hfa : args.fetch_all = false) :
    filter_refs crf args refs [] = some ([], []) := by
  unfold filter_refs
  simp only [hfa, List.length_nil, ne_eq, not_true_eq_false, decide_False, Bool.false_and,
    Bool.false_eq_true, if_false, Bool.not_false, if_true,
    filter_refs_loop_no_pattern crf args hfa refs
      { newlist := [], return_refs := none, pats := [] } rfl, List.nil_append]

/-- `filter_refs` with `fetch_all`, if it gets through, keeps the refs that
are well-formed and, when a depth is given, not under `refs/tags/`. -/
theorem filter_refs_all (crf : String → Bool) (args : Args) (refs : List Ref)
    (pats : List String) (kept : List Ref) (pats1 : List String)
    (hfa : args.fetch_all = true)
    (h : filter_refs crf args refs pats = some (kept, pats1)) :
    kept = refs.filter (kept_by_all crf args) := by
  unfold filter_refs at h
  simp only [hfa, Bool.not_true, Bool.and_false, Bool.false_eq_true, if_false] at h
  split at h
  · cases h
  · next f hf =>
    have hf1 := filter_refs_loop_all crf args hfa refs _ f rfl hf
    simp only [List.append_nil, Option.some.injEq, Prod.mk.injEq] at h
    rw [← h.1, hf1]
    simp

/-- `filter_refs` with `fetch_all` returns a list of kept refs as it is. -/
theorem filter_refs_all_kept (crf : String → Bool) (args : Args) (kept : List Ref)
    (pats : List String) (hfa : args.fetch_all = true)
    (hall : ∀ ref ∈ kept, kept_by_all crf args ref = true) :
    filter_refs crf args kept pats = some (kept, pats) := by
  unfold filter_refs
  simp only [hfa, Bool.not_true, Bool.and_false, Bool.false_eq_true, if_false,
    filter_refs_loop_all_kept crf args hfa kept
      { newlist := [], return_refs := none, pats := pats } hall, List.nil_append,
    List.append_nil]
/-- C11 as amended.  When at least one pattern is supplied and `fetch_all` is
not set, `filter_refs` returns, and the list it returns is in pattern order:
it is the array `return_refs`, one slot per pattern, with the empty slots left
out.  The ref in slot `i` is well-formed and matches pattern `i`, and pattern
`i` is left consumed.  When several advertised refs match the same pattern,
the one kept is the first of them in the advertised list that no earlier
pattern took: every well-formed ref before it that matches pattern `i` sits in
a slot before `i`.  A well-formed ref that matches pattern `i` fills slot `i`
or an earlier slot, or finds slot `i` filled. -/
theorem filter_refs_pattern_order (crf : String → Bool) (args : Args) (refs : List Ref)
    (pats : List String) (hfa : args.fetch_all = false) (hp : pats ≠ []) :
    ∃ (arr : List (Option Ref)) (pats1 : List String),
      filter_refs crf args refs pats = some (arr.filterMap id, pats1)
      ∧ arr.length = pats.length
      ∧ (∀ (i : Nat) (ref : Ref), arr[i]? = some (some ref) →
          malformed crf ref = false
          ∧ (∃ p, pats[i]? = some p ∧ ref_matches ref p = true)
          ∧ pats1[i]? = some ""
          ∧ ∃ pre post, refs = pre ++ ref :: post ∧
              ∀ other ∈ pre, malformed crf other = false →
                ∀ p, pats[i]? = some p → ref_matches other p = true →
                  ∃ j : Nat, j < i ∧ arr[j]? = some (some other))
      ∧ (∀ other ∈ refs, malformed crf other = false →
          ∀ (i : Nat) (p : String), pats[i]? = some p → ref_matches other p = true →
            (∃ ref, arr[i]? = some (some ref)) ∨ ∃ j : Nat, j < i ∧ arr[j]? = some (some other)) := by
  obtain ⟨arr, pats1, hloop, ha⟩ :=
    filter_refs_loop_assigned crf args hfa pats refs [] (List.replicate pats.length none) pats []
      (assigned_start crf pats)
  refine ⟨arr, pats1, filter_refs_of_slots crf args refs pats arr pats1 hfa hp hloop,
    ha.len_arr, ?_, ?_⟩
  · intro i ref h
    obtain ⟨h1, h2⟩ := ha.sound i ref h
    refine ⟨h1, h2, ha.used i ref h, ?_⟩
    simpa using ha.first i ref h
  · simpa using ha.taken

/-- The filter of C11 on three advertised refs and the patterns `dev`, `main`:
the result is in pattern order and the first ref ending in `main` is kept. -/
theorem filter_refs_pattern_order_witness :
    ({} : Args).fetch_all = false ∧ ["dev", "main"] ≠ ([] : List String)
    ∧ filter_refs (fun _ => false) {} advertised3 ["dev", "main"]
        = some ([{ name := "refs/heads/dev", old_sha1 := 3 },
                 { name := "refs/heads/main", old_sha1 := 1 }], ["", ""])
    ∧ ∃ (arr : List (Option Ref)) (pats1 : List String),
        filter_refs (fun _ => false) {} advertised3 ["dev", "main"]
          = some (arr.filterMap id, pats1) ∧ arr.length = 2 :=
  ⟨rfl, by decide, by decide,
    (filter_refs_pattern_order (fun _ => false) {} advertised3 ["dev", "main"] rfl
      (by decide)).elim
      (fun arr h => h.elim (fun pats1 h1 => ⟨arr, pats1, h1.1, h1.2.1⟩))⟩

/-- C11 as stated fails in its last part: `refs/heads/main` and
`refs/remotes/origin/main` both match the pattern `main`; the one kept is the
first in the advertised list, not the last, because the first match consumes
the pattern. -/
theorem filter_refs_first_match_kept :
    ref_matches { name := "refs/heads/main", old_sha1 := 1 } "main" = true
    ∧ ref_matches { name := "refs/remotes/origin/main", old_sha1 := 2 } "main" = true
    ∧ filter_refs (fun _ => false) {}
        [{ name := "refs/heads/main", old_sha1 := 1 },
         { name := "refs/remotes/origin/main", old_sha1 := 2 }] ["main"]
      = some ([{ name := "refs/heads/main", old_sha1 := 1 }], [""]) := by
  refine ⟨by decide, by decide, by decide⟩

/-- C12.  Reference filtering is idempotent: whenever `filter_refs` returns a
list for the refs `refs` and the patterns `pats`, whatever `fetch_all` and the
depth are, `filter_refs` applied with the patterns `pats` to that list returns
the same list. -/
theorem filter_refs_idempotent (crf : String → Bool) (args : Args) (refs : List Ref)
    (pats : List String) (kept : List Ref) (pats1 : List String)
    (h : filter_refs crf args refs pats = some (kept, pats1)) :
    ∃ pats2, filter_refs crf args kept pats = some (kept, pats2) := by
  by_cases hfa : args.fetch_all = true
  · have hk := filter_refs_all crf args refs pats kept pats1 hfa h
    refine ⟨pats, filter_refs_all_kept crf args kept pats hfa ?_⟩
    intro ref hr
    rw [hk] at hr
    exact (List.mem_filter.1 hr).2
  · have hfa1 : args.fetch_all = false := by simpa using hfa
    by_cases hp : pats = []
    · subst hp
      rw [filter_refs_no_pattern crf args refs hfa1] at h
      simp only [Option.some.injEq, Prod.mk.injEq] at h
      rw [← h.1]
      exact ⟨[], filter_refs_no_pattern crf args [] hfa1⟩
    · obtain ⟨arr, pats3, hloop, ha⟩ :=
        filter_refs_loop_assigned crf args hfa1 pats refs [] (List.replicate pats.length none)
          pats [] (assigned_start crf pats)
      rw [filter_refs_of_slots crf args refs pats arr pats3 hfa1 hp hloop] at h
      simp only [Option.some.injEq, Prod.mk.injEq] at h
      obtain ⟨pats2, hagain⟩ :=
        filter_refs_loop_again crf args hfa1 arr pats [] [] [] rfl
          (by rw [ha.len_arr]) (fun q hq => (by cases hq)) ha.sound ha.stable
      have hrep : [] ++ arr.map (fun _ => (none : Option Ref))
          = List.replicate pats.length none := by
        rw [List.nil_append, List.map_const', ha.len_arr]
      rw [hrep] at hagain
      rw [← h.1]
      exact ⟨pats2, filter_refs_of_slots crf args _ pats arr pats2 hfa1 hp hagain⟩

/-- The idempotence of C12 on three advertised refs and the patterns `dev`,
`main`. -/
theorem filter_refs_idempotent_witness :
    filter_refs (fun _ => false) {} advertised3 ["dev", "main"]
        = some ([{ name := "refs/heads/dev", old_sha1 := 3 },
                 { name := "refs/heads/main", old_sha1 := 1 }], ["", ""])
    ∧ ∃ pats2, filter_refs (fun _ => false) {}
          [{ name := "refs/heads/dev", old_sha1 := 3 },
           { name := "refs/heads/main", old_sha1 := 1 }] ["dev", "main"]
        = some ([{ name := "refs/heads/dev", old_sha1 := 3 },
                 { name := "refs/heads/main", old_sha1 := 1 }], pats2) :=
  ⟨by decide,
    filter_refs_idempotent (fun _ => false) {} advertised3 ["dev", "main"] _ ["", ""]
      (by decide)⟩

/-- The patterns themselves do not survive the first call: the array `match`
is left with every matched pattern emptied, and `filter_refs` applied to its
own result with the array as it was left keeps nothing. -/
theorem filter_refs_consumed_patterns :
    filter_refs (fun _ => false) {} advertised3 ["dev", "main"]
        = some ([{ name := "refs/heads/dev", old_sha1 := 3 },
                 { name := "refs/heads/main", old_sha1 := 1 }], ["", ""])
    ∧ filter_refs (fun _ => false) {}
        [{ name := "refs/heads/dev", old_sha1 := 3 },
         { name := "refs/heads/main", old_sha1 := 1 }] ["", ""] = some ([], ["", ""]) := by
  refine ⟨by decide, by decide⟩

/-! ## How far the `COMMON` flag spreads -/

theorem flags_grow_self (s : Walk) : FlagsGrow s s :=
  ⟨fun _ _ h => h, fun _ => rfl, fun _ h => h⟩

theorem flags_grow_comp {s s1 s2 : Walk} (a : FlagsGrow s s1) (b : FlagsGrow s1 s2) :
    FlagsGrow s s2 :=
  ⟨fun o k h => b.flags o k (a.flags o k h),
   fun o => (b.popped o).trans (a.popped o),
   fun o h => b.parsed o (a.parsed o h)⟩

/-- Setting bits other than `POPPED` on one object. -/
theorem orFlags_grow (s : Walk) (c : Oid) (m : Nat) (hm : m &&& POPPED = 0) :
    FlagsGrow s (s.orFlags c m) := by
  refine ⟨?_, ?_, fun _ h => h⟩
  · intro o k h
    rw [orFlags_flags]
    split
    · next ho => subst ho; exact flag_kept m h
    · exact h
  · intro o
    rw [orFlags_flags]
    split
    · next ho => subst ho; exact flag_other _ hm
    · rfl

/-- A step that touches neither queue nor flags and forgets no parse. -/
theorem aside_grow (s s1 : Walk) (hf : s1.flags = s.flags)
    (hp : ∀ o, s.parsed o = true → s1.parsed o = true) : FlagsGrow s s1 :=
  ⟨fun o k h => by rw [hf]; exact h, fun o => by rw [hf], hp⟩

theorem walk_sound_step (r : Repo) (s s1 : Walk) (g : FlagsGrow s s1)
    (hl : ∀ c ∈ s1.rev_list, c ∈ s.rev_list ∨ s1.flags c &&& SEEN ≠ 0)
    (hs : WalkSound r s) : WalkSound r s1 := by
  refine ⟨?_, ?_, ?_⟩
  · intro c hc
    rcases hl c hc with h | h
    · exact g.flags c SEEN (hs.queued c h)
    · exact h
  · intro c hc
    rw [g.popped c] at hc
    exact g.flags c SEEN (hs.popped c hc)
  · intro c hc
    rw [g.popped c] at hc
    rcases hs.parsed c hc with h | h
    · exact Or.inl (g.parsed c h)
    · exact Or.inr h

/-- `Spread` survives a step that clears no flag. -/
theorem spread_grow (r : Repo) (s s1 : Walk)
    (g : ∀ (o : Oid) (k : Nat), s.flags o &&& k ≠ 0 → s1.flags o &&& k ≠ 0)
    (p : Oid) (h : Spread r s p) : Spread r s1 p :=
  h.elim (fun a => Or.inl (g p COMMON a))
    (fun a => Or.inr ⟨g p SEEN a.1, fun q hq => g q COMMON (a.2 q hq)⟩)

/-- `CommonDown` survives a step that sets `COMMON` on no commit that is
`POPPED`, outside the set being worked on. -/
theorem common_down_step (r : Repo) (X : Oid → Prop) (s s1 : Walk) (g : FlagsGrow s s1)
    (hc : ∀ x, ¬ X x → s1.flags x &&& COMMON ≠ 0 → s1.flags x &&& POPPED ≠ 0 →
      s.flags x &&& COMMON ≠ 0)
    (hd : CommonDown r X s) : CommonDown r X s1 := by
  intro c hx hcom hpop p hp
  have hpop0 : s.flags c &&& POPPED ≠ 0 := by rw [← g.popped c]; exact hpop
  exact spread_grow r s s1 g.flags p (hd c hx (hc c hx hcom hpop) hpop0 p hp)

theorem common_down_weaken (r : Repo) (X Y : Oid → Prop) (s : Walk)
    (hxy : ∀ x, X x → Y x) (hd : CommonDown r X s) : CommonDown r Y s :=
  fun c hy => hd c (fun hx => hy (hxy c hx))

/-- Once the parents of `c` are taken care of, `c` need not be set aside. -/
theorem common_down_restore (r : Repo) (X : Oid → Prop) (s : Walk) (c : Oid)
    (hd : CommonDown r (fun x => X x ∨ x = c) s)
    (hc : s.flags c &&& POPPED ≠ 0 → ∀ p ∈ r.parents c, Spread r s p) :
    CommonDown r X s := by
  intro x hx hcom hpop p hp
  by_cases hxc : x = c
  · subst hxc; exact hc hpop p hp
  · exact hd x (fun h => h.elim hx hxc) hcom hpop p hp
/-- A commit whose parse fails has no parents on record. -/
theorem parse_commit_fails (r : Repo) (s : Walk) (c : Oid)
    (h : (parse_commit r s c).2 = true) : r.parents c = [] := by
  unfold parse_commit at h
  unfold Repo.parents
  cases hr : r.read c with
  | none => rfl
  | some o =>
    cases o with
    | commit d ps =>
      rw [hr] at h
      split at h <;> cases h
    | tag t => rfl
    | other => rfl

/-- An object without any bit of `mark` has no `SEEN` bit, if `mark` has it. -/
theorem seen_clear_of_mark {a m : Nat} (h : a &&& m = 0) (hs : m &&& SEEN ≠ 0) :
    a &&& SEEN = 0 := by
  have e : SEEN = 2 ^ 3 := by decide
  rw [e] at hs ⊢
  have hm : m.testBit 3 = true := by
    by_contra hmb
    apply hs
    apply Nat.eq_of_testBit_eq
    intro j
    simp only [Nat.testBit_and, Nat.zero_testBit, Nat.testBit_two_pow]
    by_cases hj : 3 = j
    · subst hj; simpa using hmb
    · simp [hj]
  have ha : a.testBit 3 = false := by
    have h1 := congrArg (fun v => v.testBit 3) h
    simp only [Nat.testBit_and, Nat.zero_testBit, hm, Bool.and_true] at h1
    exact h1
  apply Nat.eq_of_testBit_eq
  intro j
  simp only [Nat.testBit_and, Nat.zero_testBit, Nat.testBit_two_pow]
  by_cases hj : 3 = j
  · subst hj; simp [ha]
  · simp [hj]

/-- After an attempt to parse it, a commit is parsed or has no parents on
record. -/
theorem maybe_parse_parents (r : Repo) (s : Walk) (c : Oid) :
    (if s.parsed c then s else (parse_commit r s c).1).parsed c = true ∨ r.parents c = [] := by
  by_cases hp : s.parsed c = true
  · simp [hp]
  · simp only [hp]
    by_cases hf : (parse_commit r s c).2 = true
    · exact Or.inr (parse_commit_fails r s c hf)
    · exact Or.inl (parse_commit_ok r s c (by simpa using hf))

/-- The parents in the object table are those on record, for a commit that is
parsed or has none. -/
theorem walk_parents_eq (r : Repo) (s : Walk) (c : Oid)
    (h : s.parsed c = true ∨ r.parents c = []) : s.parents r c = r.parents c := by
  unfold Walk.parents
  rcases h with h | h
  · simp [h]
  · rw [h]; simp

theorem rev_list_push_sound (r : Repo) (s : Walk) (c : Oid) (mark : Nat)
    (hs : mark &&& SEEN ≠ 0) (hp : mark &&& POPPED = 0) :
    FlagsGrow s (rev_list_push r s c mark)
    ∧ (WalkSound r s → WalkSound r (rev_list_push r s c mark))
    ∧ (∀ X, WalkSound r s → CommonDown r X s → CommonDown r X (rev_list_push r s c mark)) := by
  have hg : FlagsGrow s (rev_list_push r s c mark) := by
    refine ⟨?_, ?_, (rev_list_push_spec r s c mark).1⟩
    · intro o k h
      rw [rev_list_push_flags]
      split
      · next ho => rw [ho.1] at h; exact flag_kept mark h
      · exact h
    · intro o
      rw [rev_list_push_flags]
      split
      · next ho => rw [ho.1]; exact flag_other _ hp
      · rfl
  refine ⟨hg, ?_, ?_⟩
  · intro hw
    refine walk_sound_step r s _ hg ?_ hw
    intro x hx
    rcases (rev_list_push_spec r s c mark).2 with hl | ⟨hm, _, hl⟩
    · rw [hl] at hx; exact Or.inl hx
    · rw [hl, mem_insert_by_date] at hx
      rcases hx with hx | hx
      · right
        rw [hx, rev_list_push_flags, if_pos ⟨rfl, hm⟩]
        exact flag_set _ hs
      · exact Or.inl hx
  · intro X hw hd
    refine common_down_step r X s _ hg ?_ hd
    intro x _ hcom hpop
    rw [rev_list_push_flags] at hcom
    split at hcom
    · next ho =>
      exfalso
      rw [hg.popped x, ho.1] at hpop
      have hseen := hw.popped c hpop
      have h0 : s.flags c &&& SEEN = 0 := seen_clear_of_mark ho.2 hs
      exact hseen h0
    · exact hcom
theorem sound_step_self (r : Repo) (s : Walk) (hw : WalkSound r s) : SoundStep r s s :=
  ⟨flags_grow_self s, hw, fun _ h => h⟩

theorem sound_step_comp {r : Repo} {s s1 s2 : Walk} (a : SoundStep r s s1)
    (b : SoundStep r s1 s2) : SoundStep r s s2 :=
  ⟨flags_grow_comp a.grow b.grow, b.walk, fun X h => b.down X (a.down X h)⟩

/-- A step that touches neither the queue nor the flags and forgets no parse
is sound. -/
theorem sound_step_aside (r : Repo) (s s1 : Walk) (hw : WalkSound r s)
    (hf : s1.flags = s.flags) (hl : s1.rev_list = s.rev_list)
    (hp : ∀ o, s.parsed o = true → s1.parsed o = true) : SoundStep r s s1 := by
  have g := aside_grow s s1 hf hp
  refine ⟨g, walk_sound_step r s s1 g (fun c hc => Or.inl (by rw [← hl]; exact hc)) hw, ?_⟩
  intro X hd
  exact common_down_step r X s s1 g (fun x _ h _ => by rw [← hf]; exact h) hd

theorem foldlM_sound (r : Repo) (step : Walk → Oid → Option Walk) (Q : Oid → Walk → Prop)
    (hq : ∀ p s s1, FlagsGrow s s1 → Q p s → Q p s1)
    (hstep : ∀ s p s1, WalkSound r s → step s p = some s1 → SoundStep r s s1 ∧ Q p s1) :
    ∀ (ps : List Oid) (s s1 : Walk), WalkSound r s → ps.foldlM step s = some s1 →
      SoundStep r s s1 ∧ ∀ p ∈ ps, Q p s1 := by
  intro ps
  induction ps with
  | nil =>
    intro s s1 hw h
    simp only [List.foldlM_nil, pure, Option.some.injEq] at h
    subst h
    exact ⟨sound_step_self r s hw, fun p hp => (by cases hp)⟩
  | cons p rest ih =>
    intro s s1 hw h
    simp only [List.foldlM_cons, bind, Option.bind] at h
    split at h
    · cases h
    · next s2 h2 =>
      obtain ⟨a, qa⟩ := hstep s p s2 hw h2
      obtain ⟨b, qb⟩ := ih s2 s1 a.walk h
      refine ⟨sound_step_comp a b, ?_⟩
      intro x hx
      rcases List.mem_cons.1 hx with hx | hx
      · rw [hx]; exact hq p s2 s1 b.grow qa
      · exact qb x hx

/-- `mark_common` is a sound step, it leaves the commit `COMMON` unless it was
called for the ancestors only, and it leaves `COMMON` every parent of a commit
that was `SEEN` and not `COMMON`, provided the parents are on hand: the call
may parse, or the commit is parsed, or it has no parents on record. -/
theorem mark_common_sound (r : Repo) :
    ∀ (fuel : Nat) (s : Walk) (commit : Option Oid) (ao dp : Bool) (s1 : Walk),
      WalkSound r s → mark_common r fuel s commit ao dp = some s1 →
      SoundStep r s s1
      ∧ (∀ c, commit = some c → ao = false → s1.flags c &&& COMMON ≠ 0)
      ∧ (∀ c, commit = some c → s.flags c &&& COMMON = 0 → s.flags c &&& SEEN ≠ 0 →
          (dp = false ∨ s.parsed c = true ∨ r.parents c = []) →
          ∀ q ∈ r.parents c, s1.flags q &&& COMMON ≠ 0) := by
  intro fuel
  induction fuel with
  | zero => intro s commit ao dp s1 _ h; simp [mark_common] at h
  | succ k ih =>
    intro s commit ao dp s1 hw h
    cases commit with
    | none =>
      simp only [mark_common, Option.some.injEq] at h
      subst h
      exact ⟨sound_step_self r s hw, fun c hc => (by cases hc), fun c hc => (by cases hc)⟩
    | some c =>
      simp only [mark_common] at h
      by_cases hcom : s.flags c &&& COMMON = 0
      · simp only [hcom, if_true] at h
        generalize hs0 : (if ao = true then s else s.orFlags c COMMON) = s0 at h
        have g0 : FlagsGrow s s0 := by
          subst hs0
          split
          · exact flags_grow_self s
          · exact orFlags_grow s c COMMON (by decide)
        have hl0 : s0.rev_list = s.rev_list := by
          subst hs0; split <;> rfl
        have hw0 : WalkSound r s0 :=
          walk_sound_step r s s0 g0 (fun x hx => Or.inl (by rw [← hl0]; exact hx)) hw
        have hother : ∀ x, x ≠ c → s0.flags x = s.flags x := by
          intro x hx
          subst hs0
          split
          · rfl
          · rw [orFlags_flags, if_neg hx]
        have hcom0 : ao = false → s0.flags c &&& COMMON ≠ 0 := by
          intro ha
          subst hs0
          rw [ha]
          simp only [Bool.false_eq_true, if_false, orFlags_flags, if_true]
          exact flag_set _ (by decide)
        have hd0 : ∀ X, CommonDown r X s → CommonDown r (fun x => X x ∨ x = c) s0 := by
          intro X hd
          refine common_down_step r _ s s0 g0 ?_
            (common_down_weaken r X _ s (fun x hx => Or.inl hx) hd)
          intro x hx hc _
          have hxc : x ≠ c := fun e => hx (Or.inr e)
          rw [hother x hxc] at hc
          exact hc
        by_cases hseen : s0.flags c &&& SEEN = 0
        · simp only [hseen, if_true, Option.some.injEq] at h
          subst h
          obtain ⟨g1, w1, d1⟩ := rev_list_push_sound r s0 c SEEN (by decide) (by decide)
          refine ⟨⟨flags_grow_comp g0 g1, w1 hw0, ?_⟩, ?_, ?_⟩
          · intro X hd
            refine d1 X hw0 (common_down_restore r X s0 c (hd0 X hd) ?_)
            intro hpop
            exact absurd hseen (hw0.popped c hpop)
          · intro c1 hc1 ha
            cases hc1
            exact g1.flags c COMMON (hcom0 ha)
          · intro c1 hc1 _ hs1
            cases hc1
            exact absurd hseen (g0.flags c SEEN hs1)
        · simp only [hseen, if_false] at h
          generalize hs2 : (if (!ao && decide (s0.flags c &&& POPPED = 0)) = true then
              ({ s0 with non_common_revs := s0.non_common_revs - 1 } : Walk) else s0) = s2 at h
          have hs2f : s2.flags = s0.flags ∧ s2.rev_list = s0.rev_list
              ∧ s2.parsed = s0.parsed := by
            subst hs2
            split
            · exact ⟨rfl, rfl, rfl⟩
            · exact ⟨rfl, rfl, rfl⟩
          generalize hpr : (if (!s2.parsed c && !dp) = true then parse_commit r s2 c
            else (s2, false)) = pr at h
          have hprs : pr.1.rev_list = s0.rev_list ∧ pr.1.flags = s0.flags
              ∧ (∀ o, s0.parsed o = true → pr.1.parsed o = true)
              ∧ (pr.2 = true → r.parents c = []) := by
            subst hpr
            split
            · refine ⟨by rw [parse_commit_rev_list, hs2f.2.1],
                by rw [parse_commit_flags, hs2f.1],
                fun o ho => parse_commit_parsed r s2 c o (by rw [hs2f.2.2]; exact ho),
                fun hf => parse_commit_fails r s2 c hf⟩
            · exact ⟨hs2f.2.1, hs2f.1, fun o ho => (by rw [hs2f.2.2]; exact ho),
                fun hf => (by cases hf)⟩
          have hprp : dp = false → pr.2 = false → pr.1.parsed c = true := by
            intro hdp hok
            subst hpr
            by_cases hp2 : s2.parsed c = true
            · simp only [hp2, hdp, Bool.not_true, Bool.not_false, Bool.and_true,
                Bool.false_eq_true, if_false]
            · have hp3 : s2.parsed c = false := by simpa using hp2
              simp only [hp3, hdp, Bool.not_false, Bool.and_true, if_true] at hok ⊢
              exact parse_commit_ok r s2 c hok
          have a3 : SoundStep r s0 pr.1 :=
            sound_step_aside r s0 pr.1 hw0 hprs.2.1 hprs.1 hprs.2.2.1
          by_cases hfail : pr.2 = true
          · simp only [hfail, if_true, Option.some.injEq] at h
            subst h
            refine ⟨⟨flags_grow_comp g0 a3.grow, a3.walk, ?_⟩, ?_, ?_⟩
            · intro X hd
              refine common_down_restore r X pr.1 c (a3.down _ (hd0 X hd)) ?_
              intro _ p hp
              rw [hprs.2.2.2 hfail] at hp
              cases hp
            · intro c1 hc1 ha
              cases hc1
              exact a3.grow.flags c COMMON (hcom0 ha)
            · intro c1 hc1 _ _ _ q hq
              cases hc1
              rw [hprs.2.2.2 hfail] at hq
              cases hq
          · have hf : pr.2 = false := by simpa using hfail
            simp only [hf, Bool.false_eq_true, if_false] at h
            obtain ⟨a4, q4⟩ := foldlM_sound r
              (fun s3 p => mark_common r k s3 (some p) false dp)
              (fun p s3 => s3.flags p &&& COMMON ≠ 0)
              (fun p s3 s4 g hq => g.flags p COMMON hq)
              (fun s3 p s4 hw3 h3 =>
                ⟨(ih s3 (some p) false dp s4 hw3 h3).1,
                 (ih s3 (some p) false dp s4 hw3 h3).2.1 p rfl rfl⟩)
              (pr.1.parents r c) pr.1 s1 a3.walk h
            have g : FlagsGrow s s1 := flags_grow_comp g0 (flags_grow_comp a3.grow a4.grow)
            refine ⟨⟨g, a4.walk, ?_⟩, ?_, ?_⟩
            · intro X hd
              refine common_down_restore r X s1 c (a4.down _ (a3.down _ (hd0 X hd))) ?_
              intro hpop p hp
              have hpop0 : s.flags c &&& POPPED ≠ 0 := by rw [← g.popped c]; exact hpop
              have hpar : pr.1.parsed c = true ∨ r.parents c = [] := by
                rcases hw.parsed c hpop0 with hp0 | hp0
                · exact Or.inl (a3.grow.parsed c (g0.parsed c hp0))
                · exact Or.inr hp0
              rw [← walk_parents_eq r pr.1 c hpar] at hp
              exact Or.inl (q4 p hp)
            · intro c1 hc1 ha
              cases hc1
              exact a4.grow.flags c COMMON (a3.grow.flags c COMMON (hcom0 ha))
            · intro c1 hc1 _ _ hon q hq
              cases hc1
              have hpar : pr.1.parsed c = true ∨ r.parents c = [] := by
                rcases hon with hdp | hp0 | hp0
                · exact Or.inl (hprp hdp hf)
                · exact Or.inl (a3.grow.parsed c (g0.parsed c hp0))
                · exact Or.inr hp0
              rw [← walk_parents_eq r pr.1 c hpar] at hq
              exact q4 q hq
      · simp only [hcom, if_false, Option.some.injEq] at h
        subst h
        exact ⟨sound_step_self r s hw, fun c1 hc1 _ => (by cases hc1; exact hcom),
          fun c1 hc1 h0 => (by cases hc1; exact absurd h0 hcom)⟩
/-- What `get_rev_pop` does to the flags and to the parse of the commit. -/
theorem get_rev_pop_flags (r : Repo) (s : Walk) (c : Oid) :
    (∀ o, (get_rev_pop r s c).flags o = if o = c then s.flags c ||| POPPED else s.flags o)
    ∧ ((get_rev_pop r s c).parsed c = true ∨ r.parents c = []) := by
  have hpar := maybe_parse_parents r s c
  have hfl : (if s.parsed c then s else (parse_commit r s c).1).flags = s.flags := by
    split
    · rfl
    · exact parse_commit_flags r s c
  unfold get_rev_pop
  generalize (if s.parsed c = true then s else (parse_commit r s c).1) = s1 at hpar hfl
  simp only
  have hf : ∀ o, (s1.orFlags c POPPED).flags o
      = if o = c then s.flags c ||| POPPED else s.flags o := by
    intro o
    rw [orFlags_flags, hfl]
  split
  · exact ⟨hf, hpar⟩
  · exact ⟨hf, hpar⟩

theorem and_or_seen {a : Nat} (h : a &&& (COMMON ||| SEEN) ≠ 0) (hs : a &&& SEEN = 0) :
    a &&& COMMON ≠ 0 := by
  rw [Nat.and_or_distrib_left, hs, Nat.or_zero] at h
  exact h

/-- One turn of the loop over the parents in `get_rev` is a sound step and
leaves the parent `COMMON` or `SEEN`; when the mark has `COMMON`, the flag has
come to the parent or gone past it. -/
theorem get_rev_parent_sound (r : Repo) (fuel : Nat) (mark : Nat)
    (hm : mark = SEEN ∨ mark = COMMON ||| SEEN) (s : Walk) (p : Oid) (s2 : Walk)
    (hw : WalkSound r s) (h : get_rev_parent r fuel mark s p = some s2) :
    SoundStep r s s2 ∧ (s2.flags p &&& COMMON ≠ 0 ∨ s2.flags p &&& SEEN ≠ 0)
    ∧ (mark &&& COMMON ≠ 0 → Spread r s2 p) := by
  have hms : mark &&& SEEN ≠ 0 := by
    rcases hm with hm | hm <;> rw [hm] <;> decide
  have hmp : mark &&& POPPED = 0 := by
    rcases hm with hm | hm <;> rw [hm] <;> decide
  unfold get_rev_parent at h
  simp only at h
  generalize hs1 : (if s.flags p &&& SEEN = 0 then rev_list_push r s p mark else s) = s1 at h
  have a1 : SoundStep r s s1 ∧ (s1.flags p &&& COMMON ≠ 0 ∨ s1.flags p &&& SEEN ≠ 0) := by
    subst hs1
    split
    · next hseen =>
      obtain ⟨g1, w1, d1⟩ := rev_list_push_sound r s p mark hms hmp
      refine ⟨⟨g1, w1 hw, fun X hd => d1 X hw hd⟩, ?_⟩
      rw [rev_list_push_flags]
      by_cases hz : s.flags p &&& mark = 0
      · rw [if_pos ⟨rfl, hz⟩]
        exact Or.inr (flag_set _ hms)
      · rw [if_neg (fun hc => hz hc.2)]
        rcases hm with hm | hm
        · rw [hm] at hz; exact absurd hseen hz
        · rw [hm] at hz; exact Or.inl (and_or_seen hz hseen)
    · next hseen => exact ⟨sound_step_self r s hw, Or.inr hseen⟩
  split at h
  · next hmc =>
    simp only [Option.some.injEq] at h
    subst h
    exact ⟨a1.1, a1.2, fun hne => absurd hmc hne⟩
  · obtain ⟨a2, _, q2⟩ := mark_common_sound r fuel s1 (some p) true false s2 a1.1.walk h
    refine ⟨sound_step_comp a1.1 a2, ?_, ?_⟩
    · rcases a1.2 with hq | hq
      · exact Or.inl (a2.grow.flags p COMMON hq)
      · exact Or.inr (a2.grow.flags p SEEN hq)
    · intro _
      by_cases hpc : s1.flags p &&& COMMON = 0
      · have hps : s1.flags p &&& SEEN ≠ 0 := a1.2.elim (fun a => absurd hpc a) (fun a => a)
        exact Or.inr ⟨a2.grow.flags p SEEN hps, q2 p rfl hpc hps (Or.inl rfl)⟩
      · exact Or.inl (a2.grow.flags p COMMON hpc)

/-- `get_rev` keeps the queue sound and the `COMMON` flag spread as far as
`CommonDown` says. -/
theorem get_rev_sound (r : Repo) :
    ∀ (fuel : Nat) (s : Walk) (res : Option Oid) (s1 : Walk),
      WalkSound r s → CommonDown r (fun _ => False) s →
      get_rev r fuel s = some (res, s1) →
      WalkSound r s1 ∧ CommonDown r (fun _ => False) s1 := by
  intro fuel
  induction fuel with
  | zero => intro s res s1 _ _ h; simp [get_rev] at h
  | succ k ih =>
    intro s res s1 hw hd h
    simp only [get_rev] at h
    split at h
    · simp only [Option.some.injEq, Prod.mk.injEq] at h
      rw [← h.2]; exact ⟨hw, hd⟩
    · next c rest hl =>
      split at h
      · simp only [Option.some.injEq, Prod.mk.injEq] at h
        rw [← h.2]; exact ⟨hw, hd⟩
      · obtain ⟨hfl, hpar⟩ := get_rev_pop_flags r s c
        obtain ⟨hrl, hps, _⟩ := get_rev_pop_spec r s c
        generalize get_rev_pop r s c = s3 at h hfl hpar hrl hps
        have hcq : c ∈ s.rev_list := by rw [hl]; exact List.mem_cons_self _ _
        have hgrow : ∀ (o : Oid) (k : Nat), s.flags o &&& k ≠ 0 → s3.flags o &&& k ≠ 0 := by
          intro o k hk
          rw [hfl]
          split
          · next ho => rw [ho] at hk; exact flag_kept POPPED hk
          · exact hk
        have hw3 : WalkSound r s3 := by
          refine ⟨?_, ?_, ?_⟩
          · intro x hx
            rw [hrl] at hx
            exact hgrow x SEEN (hw.queued x hx)
          · intro x hx
            by_cases hxc : x = c
            · rw [hxc]; exact hgrow c SEEN (hw.queued c hcq)
            · rw [hfl, if_neg hxc] at hx
              exact hgrow x SEEN (hw.popped x hx)
          · intro x hx
            by_cases hxc : x = c
            · rw [hxc]; exact hpar
            · rw [hfl, if_neg hxc] at hx
              rcases hw.parsed x hx with h1 | h1
              · exact Or.inl (hps x h1)
              · exact Or.inr h1
        have hd3 : CommonDown r (fun x => x = c) s3 := by
          intro x hx hcom hpop p hp
          rw [hfl, if_neg hx] at hcom hpop
          exact spread_grow r s s3 hgrow p (hd x (fun hf => hf) hcom hpop p hp)
        split at h
        · cases h
        · next s4 hfold =>
          obtain ⟨a4, q4⟩ := foldlM_sound r
            (get_rev_parent r k (get_rev_mark (s3.flags c)))
            (fun p s5 => get_rev_mark (s3.flags c) &&& COMMON ≠ 0 → Spread r s5 p)
            (fun p s5 s6 g hq hne => spread_grow r s5 s6 g.flags p (hq hne))
            (fun s5 p s6 hw5 h5 =>
              ⟨(get_rev_parent_sound r k _ (get_rev_mark_cases _) s5 p s6 hw5 h5).1,
               (get_rev_parent_sound r k _ (get_rev_mark_cases _) s5 p s6 hw5 h5).2.2⟩)
            (s3.parents r c) s3 s4 hw3 hfold
          have hd4 : CommonDown r (fun _ => False) s4 := by
            by_cases hc3 : s3.flags c &&& COMMON = 0
            · refine a4.down _ ?_
              intro x hx hcom hpop p hp
              by_cases hxc : x = c
              · rw [hxc] at hcom; exact absurd hc3 hcom
              · exact hd3 x hxc hcom hpop p hp
            · refine common_down_restore r _ s4 c
                (common_down_weaken r _ _ s4 (fun x hx => Or.inr hx) (a4.down _ hd3)) ?_
              intro _ p hp
              rw [← walk_parents_eq r s3 c hpar] at hp
              refine q4 p hp ?_
              unfold get_rev_mark
              rw [if_pos hc3]
              decide
          have hw5 : WalkSound r { s4 with rev_list := s4.rev_list.tail } :=
            ⟨fun x hx => a4.walk.queued x (List.mem_of_mem_tail hx), a4.walk.popped,
              a4.walk.parsed⟩
          have hd5 : CommonDown r (fun _ => False) { s4 with rev_list := s4.rev_list.tail } :=
            hd4
          split at h
          · simp only [Option.some.injEq, Prod.mk.injEq] at h
            rw [← h.2]; exact ⟨hw5, hd5⟩
          · exact ih _ _ _ hw5 hd5 h

/-- Every state of the walk that a first session can reach has a sound queue
and the `COMMON` flag spread as far as `CommonDown` says. -/
theorem reached_sound (r : Repo) (s : Walk) (h : Reached r s) :
    WalkSound r s ∧ CommonDown r (fun _ => False) s := by
  induction h with
  | init =>
    have h0 : ∀ (c : Oid) (k : Nat), Walk.init.flags c &&& k = 0 :=
      fun c k => Nat.zero_and k
    refine ⟨⟨fun c hc => (by cases hc), fun c hc => absurd (h0 c _) hc,
      fun c hc => absurd (h0 c _) hc⟩, ?_⟩
    intro c _ hc
    exact absurd (h0 c _) hc
  | push s c mark _ hm ih =>
    have hms : mark &&& SEEN ≠ 0 := by
      rcases hm with hm | hm <;> rw [hm] <;> decide
    have hmp : mark &&& POPPED = 0 := by
      rcases hm with hm | hm <;> rw [hm] <;> decide
    obtain ⟨_, w1, d1⟩ := rev_list_push_sound r s c mark hms hmp
    exact ⟨w1 ih.1, d1 _ ih.1 ih.2⟩
  | mark s fuel commit ao dp s1 _ hm ih =>
    obtain ⟨a, _⟩ := mark_common_sound r fuel s commit ao dp s1 ih.1 hm
    exact ⟨a.walk, a.down _ ih.2⟩
  | rev s fuel res s1 _ hg ih => exact get_rev_sound r fuel s res s1 ih.1 ih.2 hg
  | aside s s1 _ g hl hc ih =>
    refine ⟨walk_sound_step r s s1 g (fun c hx => Or.inl (by rw [← hl]; exact hx)) ih.1, ?_⟩
    exact common_down_step r _ s s1 g (fun x _ h _ => by rw [← hc x]; exact h) ih.2
/-- Parsing, looking up and flagging `COMPLETE` are steps aside. -/
theorem reached_aside (r : Repo) (s : Walk) (c : Oid) (h : Reached r s) :
    Reached r (parse_commit r s c).1 ∧ Reached r (lookup_commit r s c).2
    ∧ Reached r (parse_object r s c).2 ∧ Reached r (s.orFlags c COMPLETE) := by
  have hpc : Reached r (parse_commit r s c).1 :=
    Reached.aside s _ h
      (aside_grow s _ (parse_commit_flags r s c) (fun o ho => parse_commit_parsed r s c o ho))
      (parse_commit_rev_list r s c) (fun o => by rw [parse_commit_flags])
  refine ⟨hpc, ?_, ?_, ?_⟩
  · have hf : (lookup_commit r s c).2.flags = s.flags := by
      unfold lookup_commit; split <;> rfl
    exact Reached.aside s _ h
      (aside_grow s _ hf (fun o ho => (lookup_commit_kept r s c).2 o ho))
      (lookup_commit_kept r s c).1 (fun o => by rw [hf])
  · have hf : (parse_object r s c).2.flags = s.flags := by
      unfold parse_object
      split
      · rfl
      · exact parse_commit_flags r s c
      · rfl
      · rfl
    exact Reached.aside s _ h
      (aside_grow s _ hf (fun o ho => (parse_object_kept r s c).2 o ho))
      (parse_object_kept r s c).1 (fun o => by rw [hf])
  · refine Reached.aside s _ h (orFlags_grow s c COMPLETE (by decide)) rfl ?_
    intro o
    rw [orFlags_flags]
    split
    · next ho => rw [ho]; exact flag_other _ (by decide)
    · rfl

/-- The state after the two `get_rev` calls on the chain of four commits is
one a first session reaches. -/
theorem chain4_reached : Reached chain4 chain4_second.2 :=
  Reached.rev chain4_first.2 6 chain4_second.1 chain4_second.2
    (Reached.rev chain4_walk 6 chain4_first.1 chain4_first.2
      (Reached.push _ 2 SEEN
        (Reached.mark (rev_list_push chain4 Walk.init 4 (COMMON_REF ||| SEEN)) 6 (some 4)
          true true _
          (Reached.push Walk.init 4 (COMMON_REF ||| SEEN) Reached.init (Or.inr rfl)) rfl)
        (Or.inl rfl)) rfl) rfl

/-- Without the `COMMON` flag at the start of the chain nothing spreads: on the
chain of three commits after `rev_list_push(3, SEEN)` and one `get_rev`, the
tip 3 is `POPPED` and not `COMMON`, its parent 2 is queued with `SEEN` alone,
and commit 1, the parent of 2, carries no flag. -/
theorem spread_needs_common :
    Reached chain3 chain3_popped.2
    ∧ chain3_popped.2.flags 3 = SEEN ||| POPPED
    ∧ CommonPath chain3 chain3_popped.2 3 2
    ∧ ¬ Spread chain3 chain3_popped.2 2 := by
  refine ⟨Reached.rev chain3_walk 5 chain3_popped.1 chain3_popped.2
      (Reached.push Walk.init 3 SEEN Reached.init (Or.inl rfl)) rfl,
    by decide,
    CommonPath.step 3 2 CommonPath.here (fun h => absurd (by decide) h) (by decide), ?_⟩
  intro h
  rcases h with h | ⟨_, h⟩
  · exact h (by decide)
  · exact h 1 (by decide) (by decide)

/-- C17 as amended.  In every state of the walk that a first session can reach
(from the empty walk by `rev_list_push`, `mark_common`, `get_rev` and the
steps that only parse or flag `COMPLETE`), for any commit `c` that carries
`COMMON`, every ancestor `a` of `c` at the end of a chain of parent links on
which each `COMMON` commit has been `POPPED` either carries `COMMON` too, or
is `SEEN` and every parent of it carries `COMMON`: `get_rev` flags only the
ancestors of a parent that was queued already.  A `COMMON` commit that has not
been popped yet says nothing about its parents: `mark_common` only queues a
commit it had not seen, and the flag goes on when `get_rev` pops it. -/
theorem common_reaches_ancestors (r : Repo) (s : Walk) (h : Reached r s) (c a : Oid)
    (hc : s.flags c &&& COMMON ≠ 0) (hpath : CommonPath r s c a) :
    s.flags a &&& COMMON ≠ 0
    ∨ (s.flags a &&& SEEN ≠ 0 ∧ ∀ q ∈ r.parents a, s.flags q &&& COMMON ≠ 0) := by
  induction hpath with
  | here => exact Or.inl hc
  | step a p _ hpop hp ih =>
    by_cases hac : s.flags a &&& COMMON ≠ 0
    · exact (reached_sound r s h).2 a (fun hf => hf) hac (hpop hac) p hp
    · rcases ih with h1 | h1
      · exact absurd h1 hac
      · exact Or.inl (h1.2 p hp)

/-- The invariant of C17 on the chain of four commits with refs at 4 and 2,
after the server's tip 4 was found complete and `get_rev` has run twice:
commit 3 is `COMMON` and `POPPED`; its parent 2, queued as a ref before, is
`SEEN` and `POPPED` and not `COMMON`; commit 1, the parent of 2, is `COMMON`.
The flag has gone from 3 past 2 to 1. -/
theorem common_reaches_ancestors_witness :
    Reached chain4 chain4_second.2
    ∧ chain4_second.2.flags 3 &&& COMMON ≠ 0
    ∧ CommonPath chain4 chain4_second.2 3 2
    ∧ [1, 2, 3, 4].map chain4_second.2.flags
        = [COMMON ||| SEEN, SEEN ||| POPPED, COMMON ||| SEEN ||| POPPED,
           COMMON_REF ||| SEEN ||| POPPED]
    ∧ (chain4_second.2.flags 2 &&& COMMON ≠ 0
        ∨ (chain4_second.2.flags 2 &&& SEEN ≠ 0
            ∧ ∀ q ∈ chain4.parents 2, chain4_second.2.flags q &&& COMMON ≠ 0)) :=
  ⟨chain4_reached,
   by decide,
   CommonPath.step 3 2 CommonPath.here (fun _ => (by decide)) (by decide),
   by decide,
   common_reaches_ancestors chain4 chain4_second.2 chain4_reached 3 2 (by decide)
     (CommonPath.step 3 2 CommonPath.here (fun _ => (by decide)) (by decide))⟩

/-- C17 as stated fails.  When `everything_local` finds the advertised tip 3
of the chain complete, `mark_common(3, 1, 1)` flags the parent 2 `COMMON` and
queues it, and returns: commit 1, the parent of 2, is in the repository and
carries no flag.  Nor does the flag get there later in every case: at the end
of a session on the chain with a second local ref at commit 1, commit 2 is
`COMMON` and `POPPED` while its parent 1, which was `SEEN` when `get_rev` came
to mark the ancestors of 2, is not `COMMON`. -/
theorem common_parent_not_common :
    chain3_common_ref.map (fun s => (s.flags 2, s.flags 1)) = some (COMMON ||| SEEN, 0)
    ∧ chain3.parents 2 = [1] ∧ chain3.read 1 = some (.commit 1 [])
    ∧ chain3_two_refs_end
        = some (COMPLETE ||| COMMON ||| SEEN ||| POPPED, COMPLETE ||| SEEN ||| POPPED, [3, 1])
    ∧ chain3_two_refs.parents 2 = [1] := by
  refine ⟨by decide, by decide, by decide, by decide, by decide⟩

/-! ## Termination of the walk -/

theorem unseen_mono (V : List Oid) (s s1 : Walk)
    (h : ∀ o : Oid, s.flags o &&& SEEN ≠ 0 → s1.flags o &&& SEEN ≠ 0) :
    unseen V s1 ≤ unseen V s := by
  unfold unseen
  induction V with
  | nil => simp
  | cons v rest ih =>
    simp only [List.filter_cons]
    by_cases h1 : s1.flags v &&& SEEN = 0
    · have h0 : s.flags v &&& SEEN = 0 := by
        by_contra hne; exact h v hne h1
      simp only [h1, h0, decide_True, if_true, List.length_cons]
      omega
    · simp only [h1, decide_False, Bool.false_eq_true, if_false]
      split
      · simp only [List.length_cons]; omega
      · exact ih

theorem unseen_lt (V : List Oid) (s s1 : Walk) (c : Oid)
    (h : ∀ o : Oid, s.flags o &&& SEEN ≠ 0 → s1.flags o &&& SEEN ≠ 0)
    (hc : c ∈ V) (h0 : s.flags c &&& SEEN = 0) (h1 : s1.flags c &&& SEEN ≠ 0) :
    unseen V s1 + 1 ≤ unseen V s := by
  induction V with
  | nil => cases hc
  | cons v rest ih =>
    have hm := unseen_mono rest s s1 h
    unfold unseen at ih hm ⊢
    simp only [List.filter_cons]
    by_cases hv : v = c
    · subst hv
      simp only [h0, h1, decide_True, decide_False, if_true, Bool.false_eq_true, if_false,
        List.length_cons]
      omega
    · have hcr : c ∈ rest := by
        rcases List.mem_cons.1 hc with e | e
        · exact absurd e.symm hv
        · exact e
      have := ih hcr
      by_cases hs1 : s1.flags v &&& SEEN = 0
      · have hs0 : s.flags v &&& SEEN = 0 := by
          by_contra hne; exact h v hne hs1
        simp only [hs1, hs0, decide_True, if_true, List.length_cons]
        omega
      · simp only [hs1, decide_False, Bool.false_eq_true, if_false]
        split
        · simp only [List.length_cons]; omega
        · exact this

theorem settles_self (V : List Oid) (s : Walk) : Settles V s s :=
  ⟨fun _ h => h, le_refl _, le_refl _⟩

theorem settles_comp {V : List Oid} {s s1 s2 : Walk} (a : Settles V s s1)
    (b : Settles V s1 s2) : Settles V s s2 :=
  ⟨fun o h => b.seen o (a.seen o h), le_trans a.longer b.longer, le_trans b.less a.less⟩

/-- A step that leaves the queue and the `SEEN` flags alone. -/
theorem settles_aside (V : List Oid) (s s1 : Walk) (hl : s1.rev_list = s.rev_list)
    (hf : ∀ o : Oid, s.flags o &&& SEEN ≠ 0 → s1.flags o &&& SEEN ≠ 0) : Settles V s s1 := by
  refine ⟨hf, by rw [hl], ?_⟩
  unfold pending
  rw [hl]
  have := unseen_mono V s s1 hf
  omega

theorem insert_by_date_length (g : Oid → Nat) (item : Oid) :
    ∀ l : List Oid, (insert_by_date g item l).length = l.length + 1 := by
  intro l
  induction l with
  | nil => rfl
  | cons p rest ih =>
    unfold insert_by_date
    split
    · rfl
    · simp [ih]

/-- `rev_list_push` of an object of `V` with a mark that has `SEEN`. -/
theorem rev_list_push_settles (r : Repo) (V : List Oid) (s : Walk) (c : Oid) (mark : Nat)
    (hs : mark &&& SEEN ≠ 0) (hc : c ∈ V) : Settles V s (rev_list_push r s c mark) := by
  have hseen : ∀ o : Oid, s.flags o &&& SEEN ≠ 0 →
      (rev_list_push r s c mark).flags o &&& SEEN ≠ 0 := by
    intro o h
    rw [rev_list_push_flags]
    split
    · next ho => rw [ho.1] at h; exact flag_kept mark h
    · exact h
  rcases (rev_list_push_spec r s c mark).2 with hl | ⟨hm, _, hl⟩
  · exact settles_aside V s _ hl hseen
  · refine ⟨hseen, by rw [hl, insert_by_date_length]; omega, ?_⟩
    unfold pending
    rw [hl, insert_by_date_length]
    have h1 : (rev_list_push r s c mark).flags c &&& SEEN ≠ 0 := by
      rw [rev_list_push_flags, if_pos ⟨rfl, hm⟩]
      exact flag_set _ hs
    have := unseen_lt V s _ c hseen hc (seen_clear_of_mark hm hs) h1
    omega
theorem foldlM_settles (V : List Oid) (step : Walk → Oid → Option Walk) :
    ∀ (ps : List Oid) (s s1 : Walk),
      (∀ p ∈ ps, ∀ s2 s3, step s2 p = some s3 → Settles V s2 s3) →
      ps.foldlM step s = some s1 → Settles V s s1 := by
  intro ps
  induction ps with
  | nil =>
    intro s s1 _ h
    simp only [List.foldlM_nil, pure, Option.some.injEq] at h
    subst h
    exact settles_self V s
  | cons p rest ih =>
    intro s s1 hstep h
    simp only [List.foldlM_cons, bind, Option.bind] at h
    split at h
    · cases h
    · next s2 h2 =>
      exact settles_comp (hstep p (List.mem_cons_self _ _) s s2 h2)
        (ih s2 s1 (fun q hq => hstep q (List.mem_cons_of_mem _ hq)) h)

/-- A loop over a list gets through when every turn does. -/
theorem foldlM_total (step : Walk → Oid → Option Walk) :
    ∀ (ps : List Oid) (s : Walk),
      (∀ p ∈ ps, ∀ s2, ∃ s3, step s2 p = some s3) → ∃ s1, ps.foldlM step s = some s1 := by
  intro ps
  induction ps with
  | nil => intro s _; exact ⟨s, rfl⟩
  | cons p rest ih =>
    intro s hstep
    obtain ⟨s2, h2⟩ := hstep p (List.mem_cons_self _ _) s
    obtain ⟨s1, h1⟩ := ih s2 (fun q hq => hstep q (List.mem_cons_of_mem _ hq))
    exact ⟨s1, by simp only [List.foldlM_cons, bind, Option.bind, h2]; exact h1⟩

/-- `mark_common` of an object of `V`, when `V` holds every parent. -/
theorem mark_common_settles (r : Repo) (V : List Oid)
    (hV : ∀ c p, p ∈ r.parents c → p ∈ V) :
    ∀ (fuel : Nat) (s : Walk) (commit : Option Oid) (ao dp : Bool) (s1 : Walk),
      (∀ c, commit = some c → c ∈ V) →
      mark_common r fuel s commit ao dp = some s1 → Settles V s s1 := by
  intro fuel
  induction fuel with
  | zero => intro s commit ao dp s1 _ h; simp [mark_common] at h
  | succ k ih =>
    intro s commit ao dp s1 hc h
    cases commit with
    | none =>
      simp only [mark_common, Option.some.injEq] at h
      subst h
      exact settles_self V s
    | some c =>
      have hcV : c ∈ V := hc c rfl
      simp only [mark_common] at h
      by_cases hcom : s.flags c &&& COMMON = 0
      · simp only [hcom, if_true] at h
        generalize hs0 : (if ao = true then s else s.orFlags c COMMON) = s0 at h
        have a0 : Settles V s s0 := by
          subst hs0
          split
          · exact settles_self V s
          · exact settles_aside V s _ rfl
              (fun o ho => (orFlags_grow s c COMMON (by decide)).flags o SEEN ho)
        by_cases hseen : s0.flags c &&& SEEN = 0
        · simp only [hseen, if_true, Option.some.injEq] at h
          subst h
          exact settles_comp a0 (rev_list_push_settles r V s0 c SEEN (by decide) hcV)
        · simp only [hseen, if_false] at h
          generalize hs2 : (if (!ao && decide (s0.flags c &&& POPPED = 0)) = true then
              ({ s0 with non_common_revs := s0.non_common_revs - 1 } : Walk) else s0) = s2 at h
          have hs2f : s2.flags = s0.flags ∧ s2.rev_list = s0.rev_list := by
            subst hs2
            split
            · exact ⟨rfl, rfl⟩
            · exact ⟨rfl, rfl⟩
          generalize hpr : (if (!s2.parsed c && !dp) = true then parse_commit r s2 c
            else (s2, false)) = pr at h
          have hprs : pr.1.rev_list = s0.rev_list ∧ pr.1.flags = s0.flags := by
            subst hpr
            split
            · exact ⟨by rw [parse_commit_rev_list, hs2f.2], by rw [parse_commit_flags, hs2f.1]⟩
            · exact ⟨hs2f.2, hs2f.1⟩
          have a3 : Settles V s0 pr.1 :=
            settles_aside V s0 pr.1 hprs.1 (fun o ho => by rw [hprs.2]; exact ho)
          by_cases hfail : pr.2 = true
          · simp only [hfail, if_true, Option.some.injEq] at h
            subst h
            exact settles_comp a0 a3
          · have hf : pr.2 = false := by simpa using hfail
            simp only [hf, Bool.false_eq_true, if_false] at h
            refine settles_comp a0 (settles_comp a3 ?_)
            refine foldlM_settles V _ (pr.1.parents r c) pr.1 s1 ?_ h
            intro p hp s3 s4 h3
            exact ih s3 (some p) false dp s4
              (fun q hq => by cases hq; exact hV c p (walk_parents_sub r _ c p hp)) h3
      · simp only [hcom, if_false, Option.some.injEq] at h
        subst h
        exact settles_self V s

/-- In a graph without cycles `mark_common` returns once the fuel exceeds the
rank of the commit: the recursion goes to parents only, and they rank lower. -/
theorem mark_common_total (r : Repo) (rank : Oid → Nat)
    (hacyclic : ∀ c p, p ∈ r.parents c → rank p < rank c) :
    ∀ (fuel : Nat) (s : Walk) (c : Oid) (ao dp : Bool), rank c < fuel →
      ∃ s1, mark_common r fuel s (some c) ao dp = some s1 := by
  intro fuel
  induction fuel with
  | zero => intro s c ao dp h; omega
  | succ k ih =>
    intro s c ao dp hr
    simp only [mark_common]
    by_cases hcom : s.flags c &&& COMMON = 0
    · simp only [hcom, if_true]
      generalize (if ao = true then s else s.orFlags c COMMON) = s0
      by_cases hseen : s0.flags c &&& SEEN = 0
      · simp only [hseen, if_true]
        exact ⟨_, rfl⟩
      · simp only [hseen, if_false]
        generalize (if (!ao && decide (s0.flags c &&& POPPED = 0)) = true then
            ({ s0 with non_common_revs := s0.non_common_revs - 1 } : Walk) else s0) = s2
        generalize (if (!s2.parsed c && !dp) = true then parse_commit r s2 c
          else (s2, false)) = pr
        by_cases hfail : pr.2 = true
        · simp only [hfail, if_true]
          exact ⟨_, rfl⟩
        · have hf : pr.2 = false := by simpa using hfail
          simp only [hf, Bool.false_eq_true, if_false]
          apply foldlM_total
          intro p hp s3
          exact ih s3 p false dp
            (by have := hacyclic c p (walk_parents_sub r _ c p hp); omega)
    · simp only [hcom, if_false]
      exact ⟨_, rfl⟩
theorem get_rev_parent_settles (r : Repo) (V : List Oid)
    (hV : ∀ c p, p ∈ r.parents c → p ∈ V) (fuel : Nat) (mark : Nat)
    (hm : mark = SEEN ∨ mark = COMMON ||| SEEN) (s : Walk) (p : Oid) (s2 : Walk)
    (hp : p ∈ V) (h : get_rev_parent r fuel mark s p = some s2) : Settles V s s2 := by
  have hms : mark &&& SEEN ≠ 0 := by
    rcases hm with hm | hm <;> rw [hm] <;> decide
  unfold get_rev_parent at h
  simp only at h
  generalize hs1 : (if s.flags p &&& SEEN = 0 then rev_list_push r s p mark else s) = s1 at h
  have a1 : Settles V s s1 := by
    subst hs1
    split
    · exact rev_list_push_settles r V s p mark hms hp
    · exact settles_self V s
  split at h
  · simp only [Option.some.injEq] at h
    subst h
    exact a1
  · exact settles_comp a1
      (mark_common_settles r V hV fuel s1 (some p) true false s2
        (fun c hc => by cases hc; exact hp) h)

theorem get_rev_parent_total (r : Repo) (rank : Oid → Nat)
    (hacyclic : ∀ c p, p ∈ r.parents c → rank p < rank c) (fuel : Nat) (mark : Nat)
    (s : Walk) (p : Oid) (hr : rank p < fuel) :
    ∃ s2, get_rev_parent r fuel mark s p = some s2 := by
  unfold get_rev_parent
  simp only
  split
  · exact ⟨_, rfl⟩
  · exact mark_common_total r rank hacyclic fuel _ p true false hr

theorem get_rev_pop_settles (r : Repo) (V : List Oid) (s : Walk) (c : Oid) :
    Settles V s (get_rev_pop r s c) := by
  refine settles_aside V s _ (get_rev_pop_spec r s c).1 ?_
  intro o h
  rw [(get_rev_pop_flags r s c).1 o]
  split
  · next ho => rw [ho] at h; exact flag_kept POPPED h
  · exact h

/-- `get_rev` does not add to what is left to do, and takes away from it when
it returns a commit. -/
theorem get_rev_settles (r : Repo) (V : List Oid)
    (hV : ∀ c p, p ∈ r.parents c → p ∈ V) :
    ∀ (fuel : Nat) (s : Walk) (res : Option Oid) (s1 : Walk),
      get_rev r fuel s = some (res, s1) →
      pending V s1 ≤ pending V s ∧ (res ≠ none → pending V s1 + 1 ≤ pending V s) := by
  intro fuel
  induction fuel with
  | zero => intro s res s1 h; simp [get_rev] at h
  | succ k ih =>
    intro s res s1 h
    simp only [get_rev] at h
    split at h
    · simp only [Option.some.injEq, Prod.mk.injEq] at h
      rw [← h.1, ← h.2]
      exact ⟨le_refl _, fun hn => absurd rfl hn⟩
    · next c rest hl =>
      split at h
      · simp only [Option.some.injEq, Prod.mk.injEq] at h
        rw [← h.1, ← h.2]
        exact ⟨le_refl _, fun hn => absurd rfl hn⟩
      · have a3 := get_rev_pop_settles r V s c
        generalize get_rev_pop r s c = s3 at h a3
        split at h
        · cases h
        · next s4 hfold =>
          have a4 : Settles V s3 s4 := by
            refine foldlM_settles V _ (s3.parents r c) s3 s4 ?_ hfold
            intro p hp s5 s6 h5
            exact get_rev_parent_settles r V hV k _ (get_rev_mark_cases _) s5 p s6
              (hV c p (walk_parents_sub r _ c p hp)) h5
          have a := settles_comp a3 a4
          have hlen : 1 ≤ s4.rev_list.length := by
            have := a.longer
            rw [hl] at this
            simp only [List.length_cons] at this
            omega
          have h5 : pending V { s4 with rev_list := s4.rev_list.tail } + 1 ≤ pending V s := by
            have := a.less
            unfold pending at this ⊢
            have hu : unseen V { s4 with rev_list := s4.rev_list.tail } = unseen V s4 := rfl
            rw [hu]
            simp only [List.length_tail]
            omega
          split at h
          · simp only [Option.some.injEq, Prod.mk.injEq] at h
            rw [← h.2]
            exact ⟨by omega, fun _ => h5⟩
          · obtain ⟨h6, _⟩ := ih _ _ _ h
            exact ⟨by omega, fun _ => by omega⟩

/-- In a graph without cycles `get_rev` returns once the fuel exceeds what is
left to do plus the highest rank in `V`. -/
theorem get_rev_total (r : Repo) (rank : Oid → Nat)
    (hacyclic : ∀ c p, p ∈ r.parents c → rank p < rank c) (V : List Oid)
    (hV : ∀ c p, p ∈ r.parents c → p ∈ V) (H : Nat) (hH : ∀ o ∈ V, rank o ≤ H) :
    ∀ (fuel : Nat) (s : Walk), pending V s + H + 1 < fuel →
      ∃ res s1, get_rev r fuel s = some (res, s1) := by
  intro fuel
  induction fuel with
  | zero => intro s h; omega
  | succ k ih =>
    intro s hf
    simp only [get_rev]
    split
    · exact ⟨_, _, rfl⟩
    · next c rest hl =>
      split
      · exact ⟨_, _, rfl⟩
      · have a3 := get_rev_pop_settles r V s c
        generalize get_rev_pop r s c = s3 at a3
        obtain ⟨s4, hfold⟩ := foldlM_total
          (get_rev_parent r k (get_rev_mark (s3.flags c))) (s3.parents r c) s3
          (fun p hp s5 => get_rev_parent_total r rank hacyclic k _ s5 p
            (by have := hH p (hV c p (walk_parents_sub r _ c p hp)); omega))
        rw [hfold]
        simp only
        split
        · exact ⟨_, _, rfl⟩
        · have a4 : Settles V s3 s4 := by
            refine foldlM_settles V _ (s3.parents r c) s3 s4 ?_ hfold
            intro p hp s5 s6 h5
            exact get_rev_parent_settles r V hV k _ (get_rev_mark_cases _) s5 p s6
              (hV c p (walk_parents_sub r _ c p hp)) h5
          have a := settles_comp a3 a4
          have hlen : 1 ≤ s4.rev_list.length := by
            have := a.longer
            rw [hl] at this
            simp only [List.length_cons] at this
            omega
          have h5 : pending V { s4 with rev_list := s4.rev_list.tail } + 1 ≤ pending V s := by
            have := a.less
            unfold pending at this ⊢
            have hu : unseen V { s4 with rev_list := s4.rev_list.tail } = unseen V s4 := rfl
            rw [hu]
            simp only [List.length_tail]
            omega
          exact ih _ (by omega)
theorem lookup_commit_target (r : Repo) (s : Walk) (sha1 : Oid) :
    ∀ c, (lookup_commit r s sha1).1 = some c → c = sha1 := by
  intro c h
  unfold lookup_commit at h
  split at h
  · cases h
  · cases h
  · simp only [Option.some.injEq] at h
    exact h.symm

/-- A poll round does not run out of fuel when the fuel exceeds the rank of
every commit the server acknowledges. -/
theorem poll_acks_total (r : Repo) (rank : Oid → Nat)
    (hacyclic : ∀ c p, p ∈ r.parents c → rank p < rank c) (fuel : Nat) :
    ∀ (inp : List Line) (n : Neg), (∀ o ∈ acked inp, rank o < fuel) → 0 < fuel →
      poll_acks r fuel inp n ≠ .out_of_fuel := by
  intro inp
  induction inp with
  | nil => intro n _ _ h; simp [poll_acks] at h
  | cons l rest ih =>
    intro n hr hpos
    cases l <;> simp only [poll_acks, get_ack]
    case ack_continue sha1 =>
      have hrest : ∀ o ∈ acked rest, rank o < fuel :=
        fun o ho => hr o (by simp [acked, ho])
      have hm : ∃ w1, mark_common r fuel (lookup_commit r n.w sha1).2
          (lookup_commit r n.w sha1).1 false true = some w1 := by
        cases hc : (lookup_commit r n.w sha1).1 with
        | none =>
          cases fuel with
          | zero => omega
          | succ k => exact ⟨_, rfl⟩
        | some c =>
          have hcs := lookup_commit_target r n.w sha1 c hc
          subst hcs
          exact mark_common_total r rank hacyclic fuel _ c false true
            (hr c (by simp [acked]))
      obtain ⟨w1, hw1⟩ := hm
      rw [hw1]
      exact ih _ hrest hpos
    all_goals exact fun h => (by cases h)

/-- A poll round does not add to what is left to do, and the lines it leaves
are among those it was given. -/
theorem poll_acks_settles (r : Repo) (V : List Oid)
    (hV : ∀ c p, p ∈ r.parents c → p ∈ V) (fuel : Nat) :
    ∀ (inp : List Line) (n n3 : Neg), (∀ o ∈ acked inp, o ∈ V) →
      (poll_acks r fuel inp n = .nak n3 ∨ poll_acks r fuel inp n = .final n3) →
      pending V n3.w ≤ pending V n.w ∧ ∀ o ∈ acked n3.inp, o ∈ V := by
  intro inp
  induction inp with
  | nil => intro n n3 _ h; simp [poll_acks] at h
  | cons l rest ih =>
    intro n n3 hin h
    cases l <;> simp only [poll_acks, get_ack] at h
    case nak =>
      rcases h with h | h
      · injection h with h
        subst h
        exact ⟨le_refl _, fun o ho => hin o (by simpa [acked] using ho)⟩
      · cases h
    case ack sha1 =>
      rcases h with h | h
      · cases h
      · injection h with h
        subst h
        exact ⟨le_refl _, fun o ho => hin o (by simpa [acked] using ho)⟩
    case ack_continue sha1 =>
      have hrest : ∀ o ∈ acked rest, o ∈ V := fun o ho => hin o (by simp [acked, ho])
      split at h
      · rcases h with h | h <;> cases h
      · next w1 hw1 =>
        obtain ⟨hl, hf, _⟩ := lookup_commit_spec r n.w sha1
        have a1 : Settles V n.w (lookup_commit r n.w sha1).2 :=
          settles_aside V _ _ hl (fun o ho => by rw [hf]; exact ho)
        have a2 : Settles V (lookup_commit r n.w sha1).2 w1 :=
          mark_common_settles r V hV fuel _ _ false true w1
            (fun c hc => by
              rw [lookup_commit_target r n.w sha1 c hc]
              exact hin sha1 (by simp [acked])) hw1
        obtain ⟨h1, h2⟩ := ih _ n3 hrest h
        exact ⟨le_trans h1 (settles_comp a1 a2).less, h2⟩
    all_goals rcases h with h | h <;> cases h

/-- In a graph without cycles the have loop does not run out of fuel once the
fuel exceeds what is left to do plus the highest rank in `V`, whatever lines
the server sends. -/
theorem have_loop_total (r : Repo) (rank : Oid → Nat)
    (hacyclic : ∀ c p, p ∈ r.parents c → rank p < rank c) (V : List Oid)
    (hV : ∀ c p, p ∈ r.parents c → p ∈ V) (H : Nat) (hH : ∀ o ∈ V, rank o ≤ H) :
    ∀ (fuel : Nat) (n : Neg), (∀ o ∈ acked n.inp, o ∈ V) →
      pending V n.w + H + 2 < fuel → have_loop r fuel n ≠ .out_of_fuel := by
  intro fuel
  induction fuel with
  | zero => intro n _ h; omega
  | succ k ih =>
    intro n hin hf
    obtain ⟨res, w1, hg⟩ := get_rev_total r rank hacyclic V hV H hH k n.w (by omega)
    obtain ⟨_, hlt⟩ := get_rev_settles r V hV k n.w res w1 hg
    simp only [have_loop, hg]
    cases res with
    | none => exact fun h => (by cases h)
    | some sha1 =>
      have hw1 : pending V w1 + 1 ≤ pending V n.w := hlt (fun h => (by cases h))
      simp only
      split
      · split
        · exact ih _ hin (by show pending V w1 + H + 2 < k; omega)
        · have hp := poll_acks_total r rank hacyclic k n.inp
            { n with w := w1, trace := n.trace ++ [Ev.send (Pkt.have sha1)] ++ [Ev.send Pkt.flush],
                     in_vain := n.in_vain + 1, count := n.count + 1, flushes := n.flushes + 1 }
            (fun o ho => by have := hH o (hin o ho); omega) (by omega)
          split
          · exact fun h => (by cases h)
          · exact fun h => (by cases h)
          · next hpo => exact absurd hpo hp
          · next n3 hpo =>
            obtain ⟨h1, h2⟩ := poll_acks_settles r V hV k n.inp _ n3 hin (Or.inl hpo)
            split
            · exact fun h => (by cases h)
            · exact ih _ h2 (by
                show pending V n3.w + H + 2 < k
                have : pending V n3.w ≤ pending V w1 := h1
                omega)
      · exact ih _ hin (by show pending V w1 + H + 2 < k; omega)
/-- The have loop writes at most as many have lines as there is left to do
when it starts. -/
theorem have_loop_count (r : Repo) (V : List Oid)
    (hV : ∀ c p, p ∈ r.parents c → p ∈ V) :
    ∀ (fuel : Nat) (n : Neg) (e : Exit) (n1 : Neg), (∀ o ∈ acked n.inp, o ∈ V) →
      have_loop r fuel n = .ok (e, n1) →
      (haves n1.trace).length ≤ (haves n.trace).length + pending V n.w := by
  intro fuel
  induction fuel with
  | zero => intro n e n1 _ h; simp [have_loop] at h
  | succ k ih =>
    intro n e n1 hin h
    simp only [have_loop] at h
    split at h
    · cases h
    · injection h with h
      injection h with _ h2
      subst h2
      exact Nat.le_add_right _ _
    · next sha1 w1 hg =>
      have hw1 : pending V w1 + 1 ≤ pending V n.w :=
        (get_rev_settles r V hV k n.w _ w1 hg).2 (fun h => (by cases h))
      have e1 : (haves (n.trace ++ [Ev.send (Pkt.have sha1)])).length
          = (haves n.trace).length + 1 := by
        simp [haves_append, haves]
      have e2 : (haves (n.trace ++ [Ev.send (Pkt.have sha1)] ++ [Ev.send Pkt.flush])).length
          = (haves n.trace).length + 1 := by
        simp [haves_append, haves]
      split at h
      · split at h
        · have : (haves n1.trace).length
              ≤ (haves (n.trace ++ [Ev.send (Pkt.have sha1)] ++ [Ev.send Pkt.flush])).length
                + pending V w1 := (fun a => ih _ e n1 a h) hin
          rw [e2] at this
          omega
        · split at h
          · next n3 hp =>
            injection h with h
            injection h with _ h2
            subst h2
            have h2 := congrArg List.length ((poll_acks_ledger r k _ _).2 n3 hp).2.1
            simp only at h2
            rw [e2] at h2
            omega
          · cases h
          · cases h
          · next n3 hp =>
            have h2 := congrArg List.length ((poll_acks_ledger r k _ _).1 n3 hp).2.1
            simp only at h2
            rw [e2] at h2
            obtain ⟨h3, h4⟩ := poll_acks_settles r V hV k n.inp _ n3 hin (Or.inl hp)
            have h3' : pending V n3.w ≤ pending V w1 := h3
            split at h
            · injection h with h
              injection h with _ h5
              subst h5
              show (haves n3.trace).length ≤ _
              omega
            · have h7 : (haves n1.trace).length ≤ (haves n3.trace).length + pending V n3.w :=
                (fun a => ih _ e n1 a h) h4
              omega
      · have : (haves n1.trace).length
            ≤ (haves (n.trace ++ [Ev.send (Pkt.have sha1)])).length + pending V w1 :=
          (fun a => ih _ e n1 a h) hin
        rw [e1] at this
        omega

theorem lookup_mem (objects : List (Oid × Object)) (c : Oid) (o : Object)
    (h : objects.lookup c = some o) : (c, o) ∈ objects := by
  induction objects with
  | nil => simp at h
  | cons e rest ih =>
    obtain ⟨k, v⟩ := e
    simp only [List.lookup] at h
    split at h
    · next hk =>
      simp only [beq_iff_eq] at hk
      simp only [Option.some.injEq] at h
      subst hk h
      exact List.mem_cons_self _ _
    · exact List.mem_cons_of_mem _ (ih h)

/-- Every parent of a commit is among `parents_of`. -/
theorem mem_parents_of (r : Repo) (c p : Oid) (h : p ∈ r.parents c) : p ∈ parents_of r := by
  unfold Repo.parents at h
  split at h
  · next d ps hr =>
    unfold parents_of
    rw [List.mem_flatMap]
    exact ⟨(c, .commit d ps), lookup_mem r.objects c _ hr, h⟩
  · cases h

theorem rank_bound (rank : Oid → Nat) (V : List Oid) : ∃ H, ∀ o ∈ V, rank o ≤ H := by
  induction V with
  | nil => exact ⟨0, fun o ho => (by cases ho)⟩
  | cons v rest ih =>
    obtain ⟨H, hH⟩ := ih
    refine ⟨max H (rank v), ?_⟩
    intro o ho
    rcases List.mem_cons.1 ho with e | e
    · rw [e]; exact le_max_right _ _
    · exact le_trans (hH o e) (le_max_left _ _)

/-- C21.  For every commit graph without cycles (the parents of a commit rank
below it), every state of the flags, the parse marks and the queue, and every
assignment of committer dates: each call of `mark_common` returns and each
call of `get_rev` returns, given fuel enough; consequently the have loop of
`find_common` comes to an end, by leaving the loop or by dying on a bad line,
whatever lines the server sends, and when it is left it has written no more
have lines than the queue held entries plus the names, among the recorded
parents and the acknowledged commits, that were not yet `SEEN`. -/
theorem walk_terminates (r : Repo) (rank : Oid → Nat)
    (hacyclic : ∀ c p, p ∈ r.parents c → rank p < rank c) :
    (∀ (s : Walk) (commit : Option Oid) (ancestors_only dont_parse : Bool),
      ∃ F, ∀ fuel, F ≤ fuel →
        ∃ s1, mark_common r fuel s commit ancestors_only dont_parse = some s1)
    ∧ (∀ s : Walk, ∃ F, ∀ fuel, F ≤ fuel → ∃ res s1, get_rev r fuel s = some (res, s1))
    ∧ (∀ n : Neg, ∃ F, ∀ fuel, F ≤ fuel → have_loop r fuel n ≠ .out_of_fuel)
    ∧ (∀ (n : Neg) (fuel : Nat) (e : Exit) (n1 : Neg), have_loop r fuel n = .ok (e, n1) →
        (haves n1.trace).length
          ≤ (haves n.trace).length + pending (parents_of r ++ acked n.inp) n.w) := by
  refine ⟨?_, ?_, ?_, ?_⟩
  · intro s commit ao dp
    cases commit with
    | none =>
      refine ⟨1, fun fuel hf => ?_⟩
      cases fuel with
      | zero => omega
      | succ k => exact ⟨s, rfl⟩
    | some c =>
      exact ⟨rank c + 1, fun fuel hf =>
        mark_common_total r rank hacyclic fuel s c ao dp (by omega)⟩
  · intro s
    obtain ⟨H, hH⟩ := rank_bound rank (parents_of r)
    exact ⟨pending (parents_of r) s + H + 2, fun fuel hf =>
      get_rev_total r rank hacyclic (parents_of r) (mem_parents_of r) H hH fuel s (by omega)⟩
  · intro n
    obtain ⟨H, hH⟩ := rank_bound rank (parents_of r ++ acked n.inp)
    exact ⟨pending (parents_of r ++ acked n.inp) n.w + H + 3, fun fuel hf =>
      have_loop_total r rank hacyclic (parents_of r ++ acked n.inp)
        (fun c p hp => List.mem_append_left _ (mem_parents_of r c p hp)) H hH fuel n
        (fun o ho => List.mem_append_right _ ho) (by omega)⟩
  · intro n fuel e n1 h
    exact have_loop_count r (parents_of r ++ acked n.inp)
      (fun c p hp => List.mem_append_left _ (mem_parents_of r c p hp)) fuel n e n1
      (fun o ho => List.mem_append_right _ ho) h

/-- In the chain of three commits every parent has a smaller name than its
child. -/
theorem chain3_acyclic : ∀ c p, p ∈ chain3.parents c → id p < id c := by
  intro c p h
  unfold Repo.parents at h
  split at h
  · next d ps hr =>
    have hm := lookup_mem chain3.objects c _ hr
    simp only [chain3, List.mem_cons, Prod.mk.injEq, Object.commit.injEq, List.mem_nil_iff,
      or_false] at hm
    rcases hm with ⟨h1, _, h3⟩ | ⟨h1, _, h3⟩ | ⟨h1, _, h3⟩
    · subst h3; cases h
    · subst h1 h3
      simp only [List.mem_singleton] at h
      subst h; decide
    · subst h1 h3
      simp only [List.mem_singleton] at h
      subst h; decide
  · cases h

/-- Termination on the chain of three commits, where the names rank the
commits; with six units of fuel the have loop is left after the walk is done,
having announced the three commits. -/
theorem walk_terminates_witness :
    (∀ c p, p ∈ chain3.parents c → id p < id c)
    ∧ chain3_loop_end = some (.walk_done, [3, 2, 1])
    ∧ ∃ F, ∀ fuel, F ≤ fuel →
        have_loop chain3 fuel (Neg.start chain3_walk true [.ack_continue 2, .nak])
          ≠ .out_of_fuel :=
  ⟨chain3_acyclic, by decide,
    (walk_terminates chain3 id chain3_acyclic).2.2.1
      (Neg.start chain3_walk true [.ack_continue 2, .nak])⟩

end FetchPack
